import Mathlib

/-! LZSA block decompressor (`src/expand.c`).

A shallow embedding of `lzsa_expand_block` and its two helpers
`lzsa_expand_literals_slow` and `lzsa_expand_match_slow`.

* Pointers become indices: a read cursor into the input span (a list of bytes whose
  length is `nBlockSize`), a write cursor into the output buffer (a list of bytes holding
  the history followed by the writable region, possibly followed by more caller memory).
  `pOutData` is index `0`; `pSrc`, `pInBlockFastEnd` and `pOutDataFastEnd` can lie before
  the start of their buffer and are integers.
* Every memory access is checked: an access outside the input span gives `Res.oobIn`, an
  access outside the output buffer gives `Res.oobOut`. The C function returning `-1` is
  `Res.fail`, carrying the output buffer as it is at that moment.
* `memcpy` of a fixed block reads the whole source block and then stores it.
* Loops carry a step budget; `Res.fuel` is the outcome of an exhausted budget.
-/

namespace Lzsa

/-- An `unsigned char`. -/
abbrev Byte := Fin 256

/-- A span of bytes. -/
abbrev Buf := List Byte

/-- Modelled from the spec: `format.h` is not part of the sources; the literal-count field
is 3 bits wide and its escape value is 7. -/
def LITERALS_RUN_LEN : Nat := 7

/-- Modelled from the spec: `format.h` is not part of the sources; the match-length field
is 4 bits wide and its escape value is 15. -/
def MATCH_RUN_LEN : Nat := 15

/-- Outcome of a piece of decoder code. -/
inductive Res (α : Type) where
  /-- normal completion -/
  | ok (a : α)
  /-- the C code returned `-1`; `out` is the output buffer at that moment -/
  | fail (out : Buf)
  /-- a read outside the input span -/
  | oobIn
  /-- a read or write outside the output buffer -/
  | oobOut
  /-- the loop budget ran out -/
  | fuel
  deriving DecidableEq, Repr

/-- Sequencing of outcomes: everything but `ok` is propagated. -/
def Res.bind {α β : Type} (r : Res α) (f : α → Res β) : Res β :=
  match r with
  | .ok a => f a
  | .fail o => .fail o
  | .oobIn => .oobIn
  | .oobOut => .oobOut
  | .fuel => .fuel

instance : Monad Res where
  pure := Res.ok
  bind := Res.bind

/-- Read of `*p` for a pointer `p` into the input span. -/
def inByte (inp : Buf) (i : Nat) : Res Nat :=
  match inp[i]? with
  | some b => .ok b.val
  | none => .oobIn

/-- Read of `n` consecutive input bytes starting at `src`. -/
def inSlice (inp : Buf) (src n : Nat) : Res Buf :=
  if src + n ≤ inp.length then .ok ((inp.drop src).take n) else .oobIn

/-- Read of `n` consecutive output-buffer bytes starting at `src`. -/
def outSlice (out : Buf) (src : Int) (n : Nat) : Res Buf :=
  if 0 ≤ src ∧ src + n ≤ out.length then .ok ((out.drop src.toNat).take n) else .oobOut

/-- Read of `*p` for a pointer `p` into the output buffer. -/
def outByte (out : Buf) (src : Int) : Res Byte :=
  if 0 ≤ src then
    match out[src.toNat]? with
    | some b => .ok b
    | none => .oobOut
  else .oobOut

/-- The buffer `out` with the bytes `bs` stored at `dst .. dst + |bs|`. -/
def splice (out : Buf) (dst : Nat) (bs : Buf) : Buf :=
  out.take dst ++ bs ++ out.drop (dst + bs.length)

/-- Store of the bytes `bs` at `dst .. dst + |bs|` of the output buffer. -/
def outStore (out : Buf) (dst : Nat) (bs : Buf) : Res Buf :=
  if dst + bs.length ≤ out.length then .ok (splice out dst bs) else .oobOut

/-- The call `memcpy(out + dst, out + src, n)`. -/
def memcpyOut (out : Buf) (dst : Nat) (src : Int) (n : Nat) : Res Buf := do
  let bs ← outSlice out src n
  outStore out dst bs

/-- The call `memcpy(out + dst, inp + src, n)`. -/
def memcpyIn (inp : Buf) (src : Nat) (out : Buf) (dst n : Nat) : Res Buf := do
  let bs ← inSlice inp src n
  outStore out dst bs

/-- `lzsa_expand_literals_slow` (lines 35-71): returns the new read cursor, the new write
cursor and the new output buffer. `pInBlockEnd` is `inp.length`. -/
def lzsa_expand_literals_slow (inp : Buf) (pInBlock : Nat) (nLiterals : Nat) (out : Buf)
    (pCurOutData pOutDataEnd : Nat) : Res (Nat × Nat × Buf) := do
  let (pInBlock, nLiterals) ←
    (if nLiterals = LITERALS_RUN_LEN then
      if pInBlock ≥ inp.length then Res.fail out else do
        let nByte ← inByte inp pInBlock
        let pInBlock := pInBlock + 1
        let nLiterals := nLiterals + nByte
        if nByte = 254 then
          if pInBlock ≥ inp.length then Res.fail out else do
            let b ← inByte inp pInBlock
            pure (pInBlock + 1, nLiterals + b)
        else if nByte = 255 then
          if pInBlock + 1 ≥ inp.length then Res.fail out else do
            let b1 ← inByte inp pInBlock
            let b2 ← inByte inp (pInBlock + 1)
            pure (pInBlock + 2, b1 ||| (b2 <<< 8))
        else pure (pInBlock, nLiterals)
    else pure (pInBlock, nLiterals) : Res (Nat × Nat))
  if nLiterals ≠ 0 then
    if pInBlock + nLiterals > inp.length ∨ pCurOutData + nLiterals > pOutDataEnd then
      Res.fail out
    else do
      let out ← memcpyIn inp pInBlock out pCurOutData nLiterals
      pure (pInBlock + nLiterals, pCurOutData + nLiterals, out)
  else pure (pInBlock, pCurOutData, out)

/-- The `do ... while` loop of lines 120-124: 16-byte block copies until the destination
reaches `pCopyEndDst`. -/
def copyBlocks16 : Nat → Buf → Int → Nat → Nat → Res Buf
  | 0, _, _, _, _ => .fuel
  | k + 1, out, pCopySrc, pCopyDst, pCopyEndDst => do
    let out ← memcpyOut out pCopyDst pCopySrc 16
    if pCopyDst + 16 < pCopyEndDst then
      copyBlocks16 k out (pCopySrc + 16) (pCopyDst + 16) pCopyEndDst
    else pure out

/-- One `*pCurOutData++ = *pSrc++`. -/
def copyByte (out : Buf) (pSrc : Int) (pCurOutData : Nat) : Res Buf := do
  let b ← outByte out pSrc
  outStore out pCurOutData [b]

/-- The loop of lines 131-137: four byte copies per round while `nMatchLen >= 4`; returns
the remaining `nMatchLen`, the source pointer, the write cursor and the buffer. -/
def copyQuads : Nat → Buf → Int → Nat → Res (Nat × Int × Nat × Buf)
  | n + 4, out, pSrc, pCurOutData => do
    let out ← copyByte out pSrc pCurOutData
    let out ← copyByte out (pSrc + 1) (pCurOutData + 1)
    let out ← copyByte out (pSrc + 2) (pCurOutData + 2)
    let out ← copyByte out (pSrc + 3) (pCurOutData + 3)
    copyQuads n out (pSrc + 4) (pCurOutData + 4)
  | n, out, pSrc, pCurOutData => pure (n, pSrc, pCurOutData, out)

/-- The loop of lines 138-141: one byte copy per round while `nMatchLen > 0`. -/
def copyBytes : Nat → Buf → Int → Nat → Res (Nat × Buf)
  | 0, out, _, pCurOutData => pure (pCurOutData, out)
  | n + 1, out, pSrc, pCurOutData => do
    let out ← copyByte out pSrc pCurOutData
    copyBytes n out (pSrc + 1) (pCurOutData + 1)

/-- `lzsa_expand_match_slow` (lines 73-147): returns the new read cursor, the new write
cursor and the new output buffer. `MIN_MATCH_SIZE` is a constant of the missing `format.h`
and is a parameter. -/
def lzsa_expand_match_slow (MIN_MATCH_SIZE : Nat) (inp : Buf) (pInBlock : Nat) (pSrc : Int)
    (nMatchLen : Nat) (out : Buf) (pCurOutData pOutDataEnd : Nat) (pOutDataFastEnd : Int) :
    Res (Nat × Nat × Buf) := do
  let (pInBlock, nMatchLen) ←
    (if nMatchLen = MATCH_RUN_LEN then
      if pInBlock ≥ inp.length then Res.fail out else do
        let nByte ← inByte inp pInBlock
        let pInBlock := pInBlock + 1
        let nMatchLen := nMatchLen + nByte
        if nByte = 254 then
          if pInBlock ≥ inp.length then Res.fail out else do
            let b ← inByte inp pInBlock
            pure (pInBlock + 1, nMatchLen + b)
        else if nByte = 255 then
          if pInBlock + 1 ≥ inp.length then Res.fail out else do
            let b1 ← inByte inp pInBlock
            let b2 ← inByte inp (pInBlock + 1)
            pure (pInBlock + 2, b1 ||| (b2 <<< 8))
        else pure (pInBlock, nMatchLen)
    else pure (pInBlock, nMatchLen) : Res (Nat × Nat))
  let nMatchLen := nMatchLen + MIN_MATCH_SIZE
  if pCurOutData + nMatchLen > pOutDataEnd then Res.fail out
  else if pSrc + 1 = pCurOutData ∧ nMatchLen ≥ 16 then do
    -- one-byte RLE
    let b ← outByte out pSrc
    let out ← outStore out pCurOutData (List.replicate nMatchLen b)
    pure (pInBlock, pCurOutData + nMatchLen, out)
  else do
    let nMaxFast : Int := nMatchLen
    let nMaxFast : Int := if nMaxFast > pCurOutData - pSrc then pCurOutData - pSrc else nMaxFast
    let nMaxFast : Int :=
      if pCurOutData + nMaxFast > pOutDataFastEnd - 15 then pOutDataFastEnd - 15 - pCurOutData
      else nMaxFast
    let (pSrc, nMatchLen, pCurOutData, out) ←
      (if nMaxFast > 0 then do
        let out ← copyBlocks16 nMaxFast.toNat out pSrc pCurOutData (pCurOutData + nMaxFast.toNat)
        pure (pSrc + nMaxFast, nMatchLen - nMaxFast.toNat, pCurOutData + nMaxFast.toNat, out)
      else pure (pSrc, nMatchLen, pCurOutData, out) : Res (Int × Nat × Nat × Buf))
    let (nMatchLen, pSrc, pCurOutData, out) ← copyQuads nMatchLen out pSrc pCurOutData
    let (pCurOutData, out) ← copyBytes nMatchLen out pSrc pCurOutData
    pure (pInBlock, pCurOutData, out)

/-- The local state of `lzsa_expand_block` between loop iterations. -/
structure St where
  /-- read cursor, an index into the input span -/
  pInBlock : Nat
  /-- write cursor, an index into the output buffer -/
  pCurOutData : Nat
  /-- contents of the output buffer -/
  out : Buf
  deriving DecidableEq, Repr

/-- How a loop body ends: at its closing brace, or by `break`. -/
inductive Step where
  /-- the body ran to its end -/
  | next (s : St)
  /-- the body executed `break` -/
  | brk (s : St)
  deriving DecidableEq, Repr

/-- Lines 186-194 (and, identically, 224-232): read the match offset after the literals.
`none` is the `break` on a zero 2-byte offset; otherwise the new read cursor and
`nMatchOffset`. -/
def readMatchOffset (inp : Buf) (token : Nat) (pInBlock : Nat) (out : Buf) :
    Res (Nat × Option Nat) := do
  let nMatchOffset ← inByte inp pInBlock
  let pInBlock := pInBlock + 1
  if token &&& 0x01 ≠ 0 then
    if pInBlock ≥ inp.length then Res.fail out else do
      let hi ← inByte inp pInBlock
      let nMatchOffset := nMatchOffset ||| (hi <<< 8)
      let pInBlock := pInBlock + 1
      if nMatchOffset = 0 then pure (pInBlock, none) else pure (pInBlock, some nMatchOffset)
  else pure (pInBlock, some (nMatchOffset + 1))

/-- Body of the fast loop (lines 170-209). -/
def fastBody (MIN_MATCH_SIZE : Nat) (inp : Buf) (pOutDataEnd : Nat) (pOutDataFastEnd : Int)
    (st : St) : Res Step := do
  let token ← inByte inp st.pInBlock
  let pInBlock := st.pInBlock + 1
  let nLiterals := (token &&& 0xe0) >>> 5
  let (pInBlock, pCurOutData, out) ←
    (if nLiterals < LITERALS_RUN_LEN then do
      let out ← memcpyIn inp pInBlock st.out st.pCurOutData 8
      pure (pInBlock + nLiterals, st.pCurOutData + nLiterals, out)
    else
      lzsa_expand_literals_slow inp pInBlock nLiterals st.out st.pCurOutData pOutDataEnd :
      Res (Nat × Nat × Buf))
  if pInBlock < inp.length then do
    let (pInBlock, off) ← readMatchOffset inp token pInBlock out
    match off with
    | none => pure (Step.brk ⟨pInBlock, pCurOutData, out⟩)
    | some nMatchOffset =>
      let pSrc : Int := (pCurOutData : Int) - nMatchOffset
      if pSrc < 0 then Res.fail out else
      let nMatchLen := (token &&& 0x1e) >>> 1
      if (nMatchLen : Int) < 16 - (MIN_MATCH_SIZE : Int) + 1
          ∧ pSrc + MIN_MATCH_SIZE + nMatchLen < pCurOutData
          ∧ (pCurOutData : Int) < pOutDataFastEnd then do
        let out ← memcpyOut out pCurOutData pSrc 16
        pure (Step.next ⟨pInBlock, pCurOutData + (MIN_MATCH_SIZE + nMatchLen), out⟩)
      else do
        let (pInBlock, pCurOutData, out) ←
          lzsa_expand_match_slow MIN_MATCH_SIZE inp pInBlock pSrc nMatchLen out pCurOutData
            pOutDataEnd pOutDataFastEnd
        pure (Step.next ⟨pInBlock, pCurOutData, out⟩)
  else pure (Step.next ⟨pInBlock, pCurOutData, out⟩)

/-- Body of the slow loop (lines 215-241). -/
def slowBody (MIN_MATCH_SIZE : Nat) (inp : Buf) (pOutDataEnd : Nat) (pOutDataFastEnd : Int)
    (st : St) : Res Step := do
  let token ← inByte inp st.pInBlock
  let pInBlock := st.pInBlock + 1
  let nLiterals := (token &&& 0xe0) >>> 5
  let (pInBlock, pCurOutData, out) ←
    lzsa_expand_literals_slow inp pInBlock nLiterals st.out st.pCurOutData pOutDataEnd
  if pInBlock < inp.length then do
    let (pInBlock, off) ← readMatchOffset inp token pInBlock out
    match off with
    | none => pure (Step.brk ⟨pInBlock, pCurOutData, out⟩)
    | some nMatchOffset =>
      let pSrc : Int := (pCurOutData : Int) - nMatchOffset
      if pSrc < 0 then Res.fail out else do
        let nMatchLen := (token &&& 0x1e) >>> 1
        let (pInBlock, pCurOutData, out) ←
          lzsa_expand_match_slow MIN_MATCH_SIZE inp pInBlock pSrc nMatchLen out pCurOutData
            pOutDataEnd pOutDataFastEnd
        pure (Step.next ⟨pInBlock, pCurOutData, out⟩)
  else pure (Step.next ⟨pInBlock, pCurOutData, out⟩)

/-- The fast loop (lines 169-210), with a step budget. Leaving the loop, by its condition
or by `break`, yields the state with which the slow loop starts. -/
def fastLoop (MIN_MATCH_SIZE : Nat) (inp : Buf) (pOutDataEnd : Nat) (pOutDataFastEnd : Int) :
    Nat → St → Res St
  | 0, _ => .fuel
  | k + 1, st =>
    if (st.pInBlock : Int) < (inp.length : Int) - 16
        ∧ (st.pCurOutData : Int) < pOutDataFastEnd then
      match fastBody MIN_MATCH_SIZE inp pOutDataEnd pOutDataFastEnd st with
      | .ok (.next st') => fastLoop MIN_MATCH_SIZE inp pOutDataEnd pOutDataFastEnd k st'
      | .ok (.brk st') => .ok st'
      | .fail o => .fail o
      | .oobIn => .oobIn
      | .oobOut => .oobOut
      | .fuel => .fuel
    else .ok st

/-- The slow loop (lines 214-242), with a step budget. -/
def slowLoop (MIN_MATCH_SIZE : Nat) (inp : Buf) (pOutDataEnd : Nat) (pOutDataFastEnd : Int) :
    Nat → St → Res St
  | 0, _ => .fuel
  | k + 1, st =>
    if st.pInBlock < inp.length then
      match slowBody MIN_MATCH_SIZE inp pOutDataEnd pOutDataFastEnd st with
      | .ok (.next st') => slowLoop MIN_MATCH_SIZE inp pOutDataEnd pOutDataFastEnd k st'
      | .ok (.brk st') => .ok st'
      | .fail o => .fail o
      | .oobIn => .oobIn
      | .oobOut => .oobOut
      | .fuel => .fuel
    else .ok st

/-- `lzsa_expand_block` (lines 160-245). `inp` is the input span (`nBlockSize` is its
length), `out` the output buffer from `pOutData` on. The result is the returned length
together with the final output buffer; the return value `-1` is `Res.fail`. Each loop gets
a budget of one step per input byte plus one. -/
def lzsa_expand_block (MIN_MATCH_SIZE : Nat) (inp : Buf) (out : Buf)
    (nOutDataOffset nBlockMaxSize : Nat) : Res (Int × Buf) := do
  let pOutDataEnd : Nat := nOutDataOffset + nBlockMaxSize
  let pOutDataFastEnd : Int := (pOutDataEnd : Int) - 16
  let st ← fastLoop MIN_MATCH_SIZE inp pOutDataEnd pOutDataFastEnd (inp.length + 1)
    ⟨0, nOutDataOffset, out⟩
  let st ← slowLoop MIN_MATCH_SIZE inp pOutDataEnd pOutDataFastEnd (inp.length + 1) st
  pure ((st.pCurOutData : Int) - (nOutDataOffset : Int), st.out)

/-! ## Specification vocabulary -/

/-- Postcondition of an outcome: `P` on normal completion, `F` on the buffer of a `-1`
return, `O` when an access left the output buffer; an access outside the input span and an
exhausted budget are excluded. -/
def Res.Post {α : Type} (r : Res α) (P : α → Prop) (F : Buf → Prop) (O : Prop) : Prop :=
  match r with
  | .ok a => P a
  | .fail o => F o
  | .oobOut => O
  | .oobIn => False
  | .fuel => False


/-- Resolution of a count field as §4.2 of the spec words it. A field with value `field`
and escape value `esc`, whose extension bytes (if any) start at input index `p`, resolves
to the count `n` and leaves the read cursor at `p'`: a field below the escape is the count;
at the escape a byte `b0 < 254` is added to it; `b0 = 254` adds a further byte `b1`;
`b0 = 255` replaces the count by the little-endian 16-bit value `b1 + 256 * b2`. -/
def ExtAt (esc : Nat) (inp : Buf) (p field p' n : Nat) : Prop :=
  (field ≠ esc ∧ p' = p ∧ n = field) ∨
  (field = esc ∧ ∃ b0 : Byte, inp[p]? = some b0 ∧
    ((b0.val < 254 ∧ p' = p + 1 ∧ n = esc + b0.val) ∨
     (b0.val = 254 ∧ ∃ b1 : Byte, inp[p + 1]? = some b1 ∧ p' = p + 2 ∧
        n = esc + 254 + b1.val) ∨
     (b0.val = 255 ∧ ∃ b1 b2 : Byte, inp[p + 1]? = some b1 ∧ inp[p + 2]? = some b2 ∧
        p' = p + 3 ∧ n = b1.val + 256 * b2.val)))

/-- The count-extension block that opens both helpers (lines 39-55 and 77-93, which differ
only in the name of the escape constant): returns the read cursor after the extension bytes
and the resolved count. -/
def extCount (esc : Nat) (inp : Buf) (pInBlock n : Nat) (out : Buf) : Res (Nat × Nat) :=
  if n = esc then
    if pInBlock ≥ inp.length then Res.fail out else do
      let nByte ← inByte inp pInBlock
      let pInBlock := pInBlock + 1
      let n := n + nByte
      if nByte = 254 then
        if pInBlock ≥ inp.length then Res.fail out else do
          let b ← inByte inp pInBlock
          pure (pInBlock + 1, n + b)
      else if nByte = 255 then
        if pInBlock + 1 ≥ inp.length then Res.fail out else do
          let b1 ← inByte inp pInBlock
          let b2 ← inByte inp (pInBlock + 1)
          pure (pInBlock + 2, b1 ||| (b2 <<< 8))
      else pure (pInBlock, n)
  else pure (pInBlock, n)

/-- The value of `nMaxFast` after lines 109-113, for a total match length `n`. -/
def maxFast (n c : Nat) (pSrc ofe : Int) : Int :=
  let nMaxFast : Int := (n : Int)
  let nMaxFast : Int := if nMaxFast > c - pSrc then c - pSrc else nMaxFast
  if c + nMaxFast > ofe - 15 then ofe - 15 - c else nMaxFast

/-- Lines 95-146 of `lzsa_expand_match_slow`, after the count extension has left the read
cursor at `p'` and resolved the count `n`. -/
def matchRest (MIN_MATCH_SIZE : Nat) (out : Buf) (pSrc : Int) (c oend : Nat) (ofe : Int)
    (p' n : Nat) : Res (Nat × Nat × Buf) :=
  if c + (n + MIN_MATCH_SIZE) > oend then Res.fail out
  else if pSrc + 1 = c ∧ n + MIN_MATCH_SIZE ≥ 16 then
    (outByte out pSrc).bind (fun b =>
      (outStore out c (List.replicate (n + MIN_MATCH_SIZE) b)).bind (fun o =>
        Res.ok (p', c + (n + MIN_MATCH_SIZE), o)))
  else
    (if maxFast (n + MIN_MATCH_SIZE) c pSrc ofe > 0 then
        (copyBlocks16 (maxFast (n + MIN_MATCH_SIZE) c pSrc ofe).toNat out pSrc c
            (c + (maxFast (n + MIN_MATCH_SIZE) c pSrc ofe).toNat)).bind (fun o =>
          Res.ok (pSrc + maxFast (n + MIN_MATCH_SIZE) c pSrc ofe,
            n + MIN_MATCH_SIZE - (maxFast (n + MIN_MATCH_SIZE) c pSrc ofe).toNat,
            c + (maxFast (n + MIN_MATCH_SIZE) c pSrc ofe).toNat, o))
      else Res.ok (pSrc, n + MIN_MATCH_SIZE, c, out) : Res (Int × Nat × Nat × Buf)).bind
      (fun r =>
        (copyQuads r.2.1 r.2.2.2 r.1 r.2.2.1).bind (fun q =>
          (copyBytes q.1 q.2.2.2 q.2.1 q.2.2.1).bind (fun y => Res.ok (p', y.1, y.2))))

/-- What a match copy of `n` bytes at distance `d` from cursor `c` leaves: the buffer
keeps its length, bytes below `c` and from `hi` on are as before, and each new byte equals
the byte `d` places before it in the final buffer. -/
def MatchPost (out : Buf) (c d n hi : Nat) (out' : Buf) : Prop :=
  out'.length = out.length ∧ (∀ i, i < c → out'[i]? = out[i]?) ∧
    (∀ i, hi ≤ i → out'[i]? = out[i]?) ∧
    (∀ i, c ≤ i → i < c + n → out'[i]? = out'[i - d]?)

/-- The buffer `b` has the length of `a` and the bytes of `a` at every index below `lo`
and at every index from `hi` on. -/
def Frame (lo hi : Nat) (a b : Buf) : Prop :=
  b.length = a.length ∧ ∀ i, i < lo ∨ hi ≤ i → b[i]? = a[i]?

/-- An outcome that is neither a `-1` return, nor an access outside the input, nor an
exhausted budget. -/
def Res.Quiet {α : Type} (r : Res α) : Prop :=
  r.Post (fun _ => True) (fun _ => False) True

/-- The state a loop body ends in. -/
def Step.state : Step → St
  | .next s => s
  | .brk s => s

/-- What one loop iteration does to the state: the read cursor advances by at least one
byte and stays inside the input; when the buffer reaches up to `oend`, the write cursor does
not move back, stays at or below `oend` if it was, and only `[c, oend)` is written. -/
def StepPost (inp : Buf) (oend : Nat) (st st' : St) : Prop :=
  st.pInBlock < st'.pInBlock ∧ st'.pInBlock ≤ inp.length ∧
    (oend ≤ st.out.length → st.pCurOutData ≤ st'.pCurOutData ∧
      (st.pCurOutData ≤ oend → st'.pCurOutData ≤ oend) ∧
      Frame st.pCurOutData oend st.out st'.out)

/-- Loop invariant on the output side, relative to the buffer `out0` at call entry and the
writable region `[lo, oend)`: when the buffer reaches up to `oend`, the write cursor is
inside `[lo, oend]` and only the writable region differs from `out0`. -/
def OutInv (out0 : Buf) (lo oend : Nat) (st : St) : Prop :=
  oend ≤ out0.length → lo ≤ st.pCurOutData ∧ st.pCurOutData ≤ oend ∧ Frame lo oend out0 st.out

/-- A decoder that runs only the slow loop (lines 214-242) from the start of the block,
and returns as `lzsa_expand_block` does. -/
def expand_block_slow_only (MIN_MATCH_SIZE : Nat) (inp : Buf) (out : Buf)
    (nOutDataOffset nBlockMaxSize : Nat) : Res (Int × Buf) := do
  let pOutDataEnd : Nat := nOutDataOffset + nBlockMaxSize
  let pOutDataFastEnd : Int := (pOutDataEnd : Int) - 16
  let st ← slowLoop MIN_MATCH_SIZE inp pOutDataEnd pOutDataFastEnd (inp.length + 1)
    ⟨0, nOutDataOffset, out⟩
  pure ((st.pCurOutData : Int) - (nOutDataOffset : Int), st.out)

/-- Lines 221-241: the part of the slow-loop body after the literals, from the read cursor
`p`, the write cursor `c` and the buffer `out` the literals left. -/
def slowTail (MIN_MATCH_SIZE : Nat) (inp : Buf) (pOutDataEnd : Nat) (pOutDataFastEnd : Int)
    (token p c : Nat) (out : Buf) : Res Step :=
  if p < inp.length then
    (readMatchOffset inp token p out).bind (fun r =>
      match r.2 with
      | none => Res.ok (Step.brk ⟨r.1, c, out⟩)
      | some nMatchOffset =>
        if (c : Int) - (nMatchOffset : Int) < 0 then Res.fail out
        else
          (lzsa_expand_match_slow MIN_MATCH_SIZE inp r.1 ((c : Int) - (nMatchOffset : Int))
            ((token &&& 0x1e) >>> 1) out c pOutDataEnd pOutDataFastEnd).bind (fun m =>
              Res.ok (Step.next ⟨m.1, m.2.1, m.2.2⟩)))
  else Res.ok (Step.next ⟨p, c, out⟩)

/-- Lines 183-209: the part of the fast-loop body after the literals. -/
def fastTail (MIN_MATCH_SIZE : Nat) (inp : Buf) (pOutDataEnd : Nat) (pOutDataFastEnd : Int)
    (token p c : Nat) (out : Buf) : Res Step :=
  if p < inp.length then
    (readMatchOffset inp token p out).bind (fun r =>
      match r.2 with
      | none => Res.ok (Step.brk ⟨r.1, c, out⟩)
      | some nMatchOffset =>
        if (c : Int) - (nMatchOffset : Int) < 0 then Res.fail out
        else if (((token &&& 0x1e) >>> 1 : Nat) : Int) < 16 - (MIN_MATCH_SIZE : Int) + 1
            ∧ (c : Int) - (nMatchOffset : Int) + MIN_MATCH_SIZE + (((token &&& 0x1e) >>> 1 : Nat) : Int)
              < c
            ∧ (c : Int) < pOutDataFastEnd then
          (memcpyOut out c ((c : Int) - (nMatchOffset : Int)) 16).bind (fun o =>
            Res.ok (Step.next ⟨r.1, c + (MIN_MATCH_SIZE + (token &&& 0x1e) >>> 1), o⟩))
        else
          (lzsa_expand_match_slow MIN_MATCH_SIZE inp r.1 ((c : Int) - (nMatchOffset : Int))
            ((token &&& 0x1e) >>> 1) out c pOutDataEnd pOutDataFastEnd).bind (fun m =>
              Res.ok (Step.next ⟨m.1, m.2.1, m.2.2⟩)))
  else Res.ok (Step.next ⟨p, c, out⟩)

/-- Two buffers of the same length that hold the same bytes below index `c`. -/
def Agree (c : Nat) (a b : Buf) : Prop :=
  a.length = b.length ∧ ∀ i, i < c → a[i]? = b[i]?

/-- Two decoder states with the same cursors whose buffers agree below the write cursor. -/
def St.Same (s t : St) : Prop :=
  t.pInBlock = s.pInBlock ∧ t.pCurOutData = s.pCurOutData ∧ Agree s.pCurOutData s.out t.out

/-- Two outcomes of a loop body that are the same up to the bytes at and above the write
cursor: both are a `-1` return, or both end the body the same way (at its closing brace, or
by `break`) with the same cursors and buffers that agree below the write cursor. -/
def Res.Sim (r r' : Res Step) : Prop :=
  match r, r' with
  | .ok (.next s), .ok (.next t) => s.Same t
  | .ok (.brk s), .ok (.brk t) => s.Same t
  | .fail _, .fail _ => True
  | _, _ => False

/-- The loop of `lzsa_expand_block` at whose head the execution stands. -/
inductive Phase where
  /-- the fast loop (line 169) -/
  | fast
  /-- the slow loop (line 214) -/
  | slow
  deriving DecidableEq, Repr

/-- The condition of the fast loop (line 169). -/
def fastCond (inp : Buf) (pOutDataFastEnd : Int) (st : St) : Prop :=
  (st.pInBlock : Int) < (inp.length : Int) - 16 ∧ (st.pCurOutData : Int) < pOutDataFastEnd

/-- `Reach MIN inp out off max ph st`: the call `lzsa_expand_block(inp, |inp|, out, off, max)`
arrives at the head of loop `ph` in state `st`. The call starts at the head of the fast
loop; an iteration of the fast loop that ends at its closing brace comes back to it; the
fast loop is left for the slow loop when its condition fails or by its `break`; an iteration
of the slow loop that ends at its closing brace comes back to the slow loop. -/
inductive Reach (MIN_MATCH_SIZE : Nat) (inp out : Buf) (off max : Nat) : Phase → St → Prop where
  | init : Reach MIN_MATCH_SIZE inp out off max Phase.fast ⟨0, off, out⟩
  | fastNext (st st' : St) : Reach MIN_MATCH_SIZE inp out off max Phase.fast st →
      fastCond inp (((off + max : Nat) : Int) - 16) st →
      fastBody MIN_MATCH_SIZE inp (off + max) (((off + max : Nat) : Int) - 16) st
        = Res.ok (Step.next st') →
      Reach MIN_MATCH_SIZE inp out off max Phase.fast st'
  | fastBreak (st st' : St) : Reach MIN_MATCH_SIZE inp out off max Phase.fast st →
      fastCond inp (((off + max : Nat) : Int) - 16) st →
      fastBody MIN_MATCH_SIZE inp (off + max) (((off + max : Nat) : Int) - 16) st
        = Res.ok (Step.brk st') →
      Reach MIN_MATCH_SIZE inp out off max Phase.slow st'
  | fastExit (st : St) : Reach MIN_MATCH_SIZE inp out off max Phase.fast st →
      ¬ fastCond inp (((off + max : Nat) : Int) - 16) st →
      Reach MIN_MATCH_SIZE inp out off max Phase.slow st
  | slowNext (st st' : St) : Reach MIN_MATCH_SIZE inp out off max Phase.slow st →
      st.pInBlock < inp.length →
      slowBody MIN_MATCH_SIZE inp (off + max) (((off + max : Nat) : Int) - 16) st
        = Res.ok (Step.next st') →
      Reach MIN_MATCH_SIZE inp out off max Phase.slow st'

/-- What `lzsa_expand_block` does from the head of the slow loop in state `st`. -/
def slowRun (MIN_MATCH_SIZE : Nat) (inp : Buf) (off max : Nat) (st : St) : Res (Int × Buf) :=
  (slowLoop MIN_MATCH_SIZE inp (off + max) (((off + max : Nat) : Int) - 16) (inp.length + 1)
    st).bind (fun st => Res.ok ((st.pCurOutData : Int) - (off : Int), st.out))

/-- What `lzsa_expand_block` does from the head of the fast loop in state `st`. -/
def fastRun (MIN_MATCH_SIZE : Nat) (inp : Buf) (off max : Nat) (st : St) : Res (Int × Buf) :=
  (fastLoop MIN_MATCH_SIZE inp (off + max) (((off + max : Nat) : Int) - 16) (inp.length + 1)
    st).bind (slowRun MIN_MATCH_SIZE inp off max)

/-- What `lzsa_expand_block` does from the head of loop `ph` in state `st`. -/
def runFrom (MIN_MATCH_SIZE : Nat) (inp : Buf) (off max : Nat) : Phase → St → Res (Int × Buf)
  | .fast, st => fastRun MIN_MATCH_SIZE inp off max st
  | .slow, st => slowRun MIN_MATCH_SIZE inp off max st

/-! ## The wire format and the reference expansion -/

/-- A command of a block: a literal run, followed or not by a match `(offset, length)`. -/
structure Cmd where
  /-- the literal bytes -/
  lits : Buf
  /-- the match that follows the literals, as `(offset, length)` -/
  mtch : Option (Nat × Nat)
  deriving DecidableEq, Repr

/-- Reference match copy: `n` times, append the byte that lies `d` places before the end. -/
def copyMatch (buf : Buf) (d : Nat) : Nat → Buf
  | 0 => buf
  | n + 1 => copyMatch (buf ++ [buf.getD (buf.length - d) 0]) d n

/-- Reference expansion of one command after the bytes `buf`. -/
def expandCmd (buf : Buf) (c : Cmd) : Buf :=
  match c.mtch with
  | none => buf ++ c.lits
  | some (d, n) => copyMatch (buf ++ c.lits) d n

/-- Reference LZ expansion of a command list after the bytes `buf` (the history): the
history followed by the decoded bytes. -/
def expand (buf : Buf) (cmds : List Cmd) : Buf :=
  cmds.foldl expandCmd buf

/-- Every match of the command list, expanded after `buf`, has an offset between 1 and the
number of bytes that precede it (history and bytes produced so far). -/
def validFrom : Buf → List Cmd → Bool
  | _, [] => true
  | buf, c :: cs =>
    (match c.mtch with
      | none => true
      | some (d, _) => decide (1 ≤ d ∧ d ≤ (buf ++ c.lits).length)) &&
    validFrom (expandCmd buf c) cs

/-- The 3-bit literal-count field of a token. -/
def litField (t : Byte) : Nat := (t.val &&& 0xe0) >>> 5

/-- The 4-bit match-length field of a token. -/
def matchField (t : Byte) : Nat := (t.val &&& 0x1e) >>> 1

/-- Wire form of a count (§4.2 of the spec): the field value `field` with escape value
`esc`, and the extension bytes `ext` that follow, stand for the count `n`. -/
def CountEnc (esc field : Nat) (ext : Buf) (n : Nat) : Prop :=
  (field ≠ esc ∧ ext = [] ∧ n = field) ∨
  (field = esc ∧
    ((∃ b0 : Byte, b0.val < 254 ∧ ext = [b0] ∧ n = esc + b0.val) ∨
     (∃ b1 : Byte, ext = [254, b1] ∧ n = esc + 254 + b1.val) ∨
     (∃ b1 b2 : Byte, ext = [255, b1, b2] ∧ n = b1.val + 256 * b2.val)))

/-- Wire form of a match offset (§4.4 of the spec): one byte holding the offset minus one
when the offset-width flag of the token is clear, two bytes, low then high, of a non-zero
16-bit offset when it is set. -/
def OffEnc (t : Byte) (bs : Buf) (d : Nat) : Prop :=
  (t.val &&& 0x01 = 0 ∧ ∃ b : Byte, bs = [b] ∧ d = b.val + 1) ∨
  (t.val &&& 0x01 ≠ 0 ∧ ∃ lo hi : Byte, bs = [lo, hi] ∧ d = lo.val + 256 * hi.val ∧ d ≠ 0)

/-- `Wire MIN cmds w`: the bytes `w` are a serialisation of the command list `cmds`. Each
command is a token, the extension bytes of its literal count, and its literal bytes; a
command with a match goes on with the offset byte(s) and the extension bytes of the match
length, whose count is the length minus `MIN`; the last command may have no match, and then
either ends the block after its literals or is followed by a zero 2-byte offset and nothing
else. -/
inductive Wire (MIN : Nat) : List Cmd → Buf → Prop where
  | nil : Wire MIN [] []
  | last (tok : Byte) (ext lits : Buf) :
      CountEnc LITERALS_RUN_LEN (litField tok) ext lits.length →
      Wire MIN [⟨lits, none⟩] (tok :: (ext ++ lits))
  | lastEnd (tok : Byte) (ext lits : Buf) :
      CountEnc LITERALS_RUN_LEN (litField tok) ext lits.length →
      tok.val &&& 0x01 ≠ 0 →
      Wire MIN [⟨lits, none⟩] (tok :: (ext ++ (lits ++ [0, 0])))
  | cons (tok : Byte) (ext lits offb mext : Buf) (d k : Nat) (cs : List Cmd) (w : Buf) :
      CountEnc LITERALS_RUN_LEN (litField tok) ext lits.length →
      OffEnc tok offb d →
      CountEnc MATCH_RUN_LEN (matchField tok) mext k →
      Wire MIN cs w →
      Wire MIN (⟨lits, some (d, k + MIN)⟩ :: cs) (tok :: (ext ++ (lits ++ (offb ++ (mext ++ w)))))

/-- The decoder state `st` holds the reference bytes `ref`: the write cursor is at their
end and the buffer holds them below it. -/
def Holds (ref : Buf) (st : St) : Prop :=
  st.pCurOutData = ref.length ∧ ∀ i, i < ref.length → st.out[i]? = ref[i]?

/-- Resolution of a match offset as §4.4 of the spec words it, for the token `t` and the
offset bytes that start at input index `p`: with the offset-width flag clear the offset is
the single byte plus one; with the flag set it is the little-endian 16-bit value of the two
bytes, which is not zero. The read cursor is left at `p'`. -/
def OffAt (inp : Buf) (t : Byte) (p p' d : Nat) : Prop :=
  (t.val &&& 0x01 = 0 ∧ ∃ b : Byte, inp[p]? = some b ∧ p' = p + 1 ∧ d = b.val + 1) ∨
  (t.val &&& 0x01 ≠ 0 ∧ ∃ lo hi : Byte, inp[p]? = some lo ∧ inp[p + 1]? = some hi ∧
    p' = p + 2 ∧ d = lo.val + 256 * hi.val ∧ d ≠ 0)

/-- The input ends before a byte that the extension of a count needs: the field is at its
escape value and the input ends before the first extension byte, or before the byte that
follows a first extension byte 254, or before one of the two bytes that follow a first
extension byte 255. -/
def ExtCut (esc : Nat) (inp : Buf) (p field : Nat) : Prop :=
  field = esc ∧
    (inp.length ≤ p ∨
      ∃ b0 : Byte, inp[p]? = some b0 ∧
        ((b0.val = 254 ∧ inp.length ≤ p + 1) ∨ (b0.val = 255 ∧ inp.length ≤ p + 2)))

/-- The condition of line 201 under which the fast loop takes the fixed 16-byte copy for a
match, for the token `tok`, the write cursor `c`, the resolved offset `d` (so that `pSrc` is
`c - d`) and the fast end `ofe` of the writable region. -/
def fastGate (MIN_MATCH_SIZE : Nat) (tok : Byte) (c d : Nat) (ofe : Int) : Prop :=
  ((matchField tok : Nat) : Int) < 16 - (MIN_MATCH_SIZE : Int) + 1
    ∧ (c : Int) - (d : Int) + MIN_MATCH_SIZE + ((matchField tok : Nat) : Int) < c
    ∧ (c : Int) < ofe

/-! ## Outcomes -/

@[simp] theorem bind_eq {α β : Type} (r : Res α) (f : α → Res β) : (r >>= f) = r.bind f := rfl
@[simp] theorem pure_eq {α : Type} (a : α) : (pure a : Res α) = Res.ok a := rfl
@[simp] theorem Res.bind_ok {α β : Type} (a : α) (f : α → Res β) : (Res.ok a).bind f = f a := rfl
@[simp] theorem Res.bind_fail {α β : Type} (o : Buf) (f : α → Res β) :
    (Res.fail o : Res α).bind f = Res.fail o := rfl
@[simp] theorem Res.bind_oobIn {α β : Type} (f : α → Res β) :
    (Res.oobIn : Res α).bind f = Res.oobIn := rfl
@[simp] theorem Res.bind_oobOut {α β : Type} (f : α → Res β) :
    (Res.oobOut : Res α).bind f = Res.oobOut := rfl
@[simp] theorem Res.bind_fuel {α β : Type} (f : α → Res β) :
    (Res.fuel : Res α).bind f = Res.fuel := rfl

@[simp] theorem Res.post_ok {α : Type} (a : α) (P : α → Prop) (F : Buf → Prop) (O : Prop) :
    (Res.ok a).Post P F O ↔ P a := Iff.rfl
@[simp] theorem Res.post_fail {α : Type} (o : Buf) (P : α → Prop) (F : Buf → Prop) (O : Prop) :
    (Res.fail o : Res α).Post P F O ↔ F o := Iff.rfl
@[simp] theorem Res.post_oobOut {α : Type} (P : α → Prop) (F : Buf → Prop) (O : Prop) :
    (Res.oobOut : Res α).Post P F O ↔ O := Iff.rfl
@[simp] theorem Res.post_oobIn {α : Type} (P : α → Prop) (F : Buf → Prop) (O : Prop) :
    (Res.oobIn : Res α).Post P F O ↔ False := Iff.rfl
@[simp] theorem Res.post_fuel {α : Type} (P : α → Prop) (F : Buf → Prop) (O : Prop) :
    (Res.fuel : Res α).Post P F O ↔ False := Iff.rfl

theorem Res.Post.bind {α β : Type} {r : Res α} {f : α → Res β} {P : α → Prop}
    {Q : β → Prop} {F : Buf → Prop} {O : Prop}
    (h : r.Post P F O) (hf : ∀ a, P a → (f a).Post Q F O) : (r.bind f).Post Q F O := by
  cases r <;> simp_all

theorem Res.Post.mono {α : Type} {r : Res α} {P Q : α → Prop} {F G : Buf → Prop} {O O' : Prop}
    (h : r.Post P F O) (hP : ∀ a, P a → Q a) (hF : ∀ o, F o → G o) (hO : O → O') :
    r.Post Q G O' := by
  cases r <;> simp_all

/-! ## Buffers -/

theorem splice_length (out : Buf) (dst : Nat) (bs : Buf) (h : dst + bs.length ≤ out.length) :
    (splice out dst bs).length = out.length := by
  simp [splice]; omega

theorem splice_get (out : Buf) (dst : Nat) (bs : Buf) (h : dst + bs.length ≤ out.length)
    (i : Nat) :
    (splice out dst bs)[i]? =
      if i < dst then out[i]? else if i < dst + bs.length then bs[i - dst]? else out[i]? := by
  unfold splice
  by_cases h1 : i < dst
  · rw [if_pos h1, List.append_assoc, List.getElem?_append_left (by simp; omega),
      List.getElem?_take_of_lt h1]
  · rw [if_neg h1]
    have hl : (List.take dst out ++ bs).length = dst + bs.length := by simp; omega
    by_cases h2 : i < dst + bs.length
    · rw [if_pos h2, List.getElem?_append_left (by omega),
        List.getElem?_append_right (by simp; omega)]
      simp; congr 1; omega
    · rw [if_neg h2, List.getElem?_append_right (by omega), hl, List.getElem?_drop]
      congr 1; omega

theorem outStore_eq (out : Buf) (dst : Nat) (bs : Buf) :
    outStore out dst bs =
      if dst + bs.length ≤ out.length then Res.ok (splice out dst bs) else Res.oobOut := rfl

theorem inByte_eq (inp : Buf) (i : Nat) (h : i < inp.length) :
    inByte inp i = Res.ok (inp[i]).val := by
  simp [inByte, List.getElem?_eq_getElem h]

theorem inByte_of_get {inp : Buf} {i : Nat} {b : Byte} (h : inp[i]? = some b) :
    inByte inp i = Res.ok b.val := by
  simp [inByte, h]

theorem outByte_of_get {out : Buf} {i : Nat} {b : Byte} (h : out[i]? = some b) :
    outByte out (i : Int) = Res.ok b := by
  simp [outByte, h]

/-- Slice of a list: the `n` elements from index `src` on. -/
theorem slice_get (l : Buf) (src n i : Nat) :
    ((l.drop src).take n)[i]? = if i < n then l[src + i]? else none := by
  simp [List.getElem?_take, List.getElem?_drop]

theorem slice_length (l : Buf) (src n : Nat) (h : src + n ≤ l.length) :
    ((l.drop src).take n).length = n := by
  simp; omega

/-! ## Copy primitives -/

theorem memcpyOut_ok (out : Buf) (dst s n : Nat) (hs : s + n ≤ out.length)
    (hd : dst + n ≤ out.length) :
    memcpyOut out dst (s : Int) n = Res.ok (splice out dst ((out.drop s).take n)) := by
  have h1 : ((s : Int) + (n : Int) ≤ (out.length : Int)) := by omega
  have hl := slice_length out s n hs
  simp [memcpyOut, outSlice, outStore, h1, hl, hd]

theorem memcpyIn_ok (inp : Buf) (src : Nat) (out : Buf) (dst n : Nat)
    (hs : src + n ≤ inp.length) (hd : dst + n ≤ out.length) :
    memcpyIn inp src out dst n = Res.ok (splice out dst ((inp.drop src).take n)) := by
  have hl := slice_length inp src n hs
  simp [memcpyIn, inSlice, outStore, hs, hl, hd]

theorem copyByte_ok (out : Buf) (s d : Nat) (hs : s < out.length) (hd : d < out.length) :
    copyByte out (s : Int) d = Res.ok (splice out d [out[s]]) := by
  have : d + 1 ≤ out.length := by omega
  simp [copyByte, outByte, outStore, List.getElem?_eq_getElem hs, this]

/-- What a left-to-right byte copy of `n` bytes from `s` to `d` (`s < d`) leaves. -/
theorem copyBytes_spec (n : Nat) : ∀ (out : Buf) (s d : Nat), s < d → d + n ≤ out.length →
    ∃ out', copyBytes n out (s : Int) d = Res.ok (d + n, out') ∧ out'.length = out.length ∧
      (∀ i, i < d → out'[i]? = out[i]?) ∧ (∀ i, d + n ≤ i → out'[i]? = out[i]?) ∧
      (∀ i, d ≤ i → i < d + n → out'[i]? = out'[i - (d - s)]?) := by
  induction n with
  | zero =>
    intro out s d _ _
    refine ⟨out, by simp [copyBytes], rfl, fun _ _ => rfl, fun _ _ => rfl, ?_⟩
    intro i h1 h2; omega
  | succ n ih =>
    intro out s d hsd hlen
    have hs : s < out.length := by omega
    have hd : d < out.length := by omega
    have hl1 : (splice out d [out[s]]).length = out.length :=
      splice_length out d _ (by simp; omega)
    obtain ⟨out', hrun, hl, hlo, hhi, hcp⟩ := ih (splice out d [out[s]]) (s + 1) (d + 1)
      (by omega) (by rw [hl1]; omega)
    have hg := splice_get out d [out[s]] (by simp; omega)
    refine ⟨out', ?_, by rw [hl, hl1], ?_, ?_, ?_⟩
    · simp only [copyBytes, bind_eq, copyByte_ok out s d hs hd, Res.bind_ok]
      have : ((s : Int) + 1) = ((s + 1 : Nat) : Int) := by push_cast; rfl
      rw [this, hrun]; congr 2; omega
    · intro i hi
      rw [hlo i (by omega), hg i, if_pos hi]
    · intro i hi
      rw [hhi i (by omega), hg i, if_neg (by omega), if_neg (by simp; omega)]
    · intro i h1 h2
      by_cases hid : i = d
      · subst hid
        rw [hlo i (by omega), hlo (i - (i - s)) (by omega), hg i, hg (i - (i - s)),
          if_neg (by omega), if_pos (by simp), if_pos (by omega)]
        have : i - (i - s) = s := by omega
        simp [this, List.getElem?_eq_getElem hs]
      · have := hcp i (by omega) (by omega)
        rw [this]; congr 1; omega

theorem copyQuads_small (n : Nat) (hn : n < 4) (out : Buf) (s : Int) (d : Nat) :
    copyQuads n out s d = Res.ok (n, s, d, out) := by
  match n, hn with
  | 0, _ => rfl
  | 1, _ => rfl
  | 2, _ => rfl
  | 3, _ => rfl

/-- The 4-byte loop followed by the byte loop is the byte loop. -/
theorem copyQuads_copyBytes (n : Nat) : ∀ (out : Buf) (s : Int) (d : Nat),
    (copyQuads n out s d).bind (fun r => copyBytes r.1 r.2.2.2 r.2.1 r.2.2.1) =
      copyBytes n out s d := by
  induction n using Nat.strongRecOn with
  | _ n ih =>
    intro out s d
    by_cases hn : n < 4
    · rw [copyQuads_small n hn]; rfl
    · obtain ⟨m, rfl⟩ : ∃ m, n = m + 4 := ⟨n - 4, by omega⟩
      have e2 : s + 1 + 1 = s + 2 := by ring
      have e3 : s + 2 + 1 = s + 3 := by ring
      have e4 : s + 3 + 1 = s + 4 := by ring
      simp only [copyQuads, copyBytes, bind_eq, e2, e3, e4]
      cases h1 : copyByte out s d <;> simp only [Res.bind_ok, Res.bind_fail, Res.bind_oobIn,
        Res.bind_oobOut, Res.bind_fuel]
      rename_i o1
      cases h2 : copyByte o1 (s + 1) (d + 1) <;> simp only [Res.bind_ok, Res.bind_fail,
        Res.bind_oobIn, Res.bind_oobOut, Res.bind_fuel]
      rename_i o2
      cases h3 : copyByte o2 (s + 2) (d + 2) <;> simp only [Res.bind_ok, Res.bind_fail,
        Res.bind_oobIn, Res.bind_oobOut, Res.bind_fuel]
      rename_i o3
      cases h4 : copyByte o3 (s + 3) (d + 3) <;> simp only [Res.bind_ok, Res.bind_fail,
        Res.bind_oobIn, Res.bind_oobOut, Res.bind_fuel]
      rename_i o4
      exact ih m (by omega) o4 (s + 4) (d + 4)

/-- What the 16-byte block loop leaves: bytes below the destination and from `e + 15` on
are untouched, and every destination byte whose source lies below `c0` (a bound under the
first destination) holds its source byte. -/
theorem copyBlocks16_spec (k : Nat) : ∀ (out : Buf) (s d e c0 : Nat), s < d →
    c0 ≤ d → d < e → e ≤ d + k → e + 15 ≤ out.length →
    ∃ out', copyBlocks16 k out (s : Int) d e = Res.ok out' ∧ out'.length = out.length ∧
      (∀ i, i < d → out'[i]? = out[i]?) ∧ (∀ i, e + 15 ≤ i → out'[i]? = out[i]?) ∧
      (∀ i, d ≤ i → i < e → i - (d - s) < c0 → out'[i]? = out[i - (d - s)]?) := by
  induction k with
  | zero => intro out s d e c0 _ _ h1 h2; omega
  | succ k ih =>
    intro out s d e c0 hsd hc0 hde hk hlen
    have hcp := memcpyOut_ok out d s 16 (by omega) (by omega)
    have hsl := slice_length out s 16 (by omega)
    have hl1 := splice_length out d ((out.drop s).take 16) (by rw [hsl]; omega)
    have hg := splice_get out d ((out.drop s).take 16) (by rw [hsl]; omega)
    rw [hsl] at hg
    simp only [copyBlocks16, bind_eq, hcp, Res.bind_ok]
    by_cases hmore : d + 16 < e
    · rw [if_pos hmore]
      obtain ⟨out', hrun, hl, hlo, hhi, hsrc⟩ := ih (splice out d ((out.drop s).take 16))
        (s + 16) (d + 16) e c0 (by omega) (by omega) hmore (by omega)
        (by rw [hl1]; omega)
      have : ((s : Int) + 16) = ((s + 16 : Nat) : Int) := by push_cast; rfl
      rw [this, hrun]
      refine ⟨out', rfl, by rw [hl, hl1], ?_, ?_, ?_⟩
      · intro i hi
        rw [hlo i (by omega), hg i, if_pos hi]
      · intro i hi
        rw [hhi i hi, hg i, if_neg (by omega), if_neg (by omega)]
      · intro i h1 h2 h3
        by_cases hi : i < d + 16
        · rw [hlo i hi, hg i, if_neg (by omega), if_pos hi, slice_get, if_pos (by omega)]
          congr 1; omega
        · have := hsrc i (by omega) h2 (by omega)
          rw [this, hg, if_pos (by omega)]
          congr 1; omega
    · rw [if_neg hmore]
      refine ⟨_, rfl, hl1, ?_, ?_, ?_⟩
      · intro i hi
        rw [hg i, if_pos hi]
      · intro i hi
        rw [hg i, if_neg (by omega), if_neg (by omega)]
      · intro i h1 h2 h3
        rw [hg i, if_neg (by omega), if_pos (by omega), slice_get, if_pos (by omega)]
        congr 1; omega

/-! ## Count extension -/

theorem lor_shift8 (a b : Nat) (h : a < 256) : a ||| (b <<< 8) = a + 256 * b := by
  have := Nat.mul_add_lt_is_or (i := 8) (b := a) (by simpa using h) b
  rw [Nat.lor_comm, Nat.shiftLeft_eq, Nat.mul_comm b, ← this]; norm_num; ring

theorem Res.bind_assoc {α β γ : Type} (r : Res α) (f : α → Res β) (g : β → Res γ) :
    (r.bind f).bind g = r.bind (fun a => (f a).bind g) := by
  cases r <;> rfl

theorem literals_slow_eq (inp : Buf) (p n : Nat) (out : Buf) (c oend : Nat) :
    lzsa_expand_literals_slow inp p n out c oend =
      (extCount LITERALS_RUN_LEN inp p n out).bind (fun r =>
        if r.2 ≠ 0 then
          if r.1 + r.2 > inp.length ∨ c + r.2 > oend then Res.fail out
          else (memcpyIn inp r.1 out c r.2).bind (fun o => Res.ok (r.1 + r.2, c + r.2, o))
        else Res.ok (r.1, c, out)) := rfl

/-- A count that resolves as the spec says is what the extension block returns. -/
theorem extCount_of_extAt {esc : Nat} {inp : Buf} {p field p' n : Nat} (out : Buf)
    (h : ExtAt esc inp p field p' n) : extCount esc inp p field out = Res.ok (p', n) := by
  rcases h with ⟨h1, rfl, rfl⟩ | ⟨rfl, b0, hb0, h⟩
  · simp [extCount, h1]
  · have hp : p < inp.length := (List.getElem?_eq_some.1 hb0).1
    rcases h with ⟨h1, rfl, rfl⟩ | ⟨h1, b1, hb1, rfl, rfl⟩ | ⟨h1, b1, b2, hb1, hb2, rfl, rfl⟩
    · have : ¬ (b0.val = 254) := by omega
      have : ¬ (b0.val = 255) := by omega
      simp [extCount, Nat.not_le.2 hp, inByte_of_get hb0, *]
    · have hp1 : p + 1 < inp.length := (List.getElem?_eq_some.1 hb1).1
      simp [extCount, Nat.not_le.2 hp, inByte_of_get hb0, inByte_of_get hb1, h1,
        Nat.not_le.2 hp1]
    · have hp2 : p + 2 < inp.length := (List.getElem?_eq_some.1 hb2).1
      have hp2' : ¬ (inp.length ≤ p + 1 + 1) := by omega
      simp [extCount, Nat.not_le.2 hp, inByte_of_get hb0, inByte_of_get hb1,
        inByte_of_get hb2, h1, hp2', lor_shift8 _ _ b1.isLt]

/-- Every outcome of the extension block: a resolved count as the spec words it, or a `-1`
return that leaves the buffer as it was; no access outside the input. -/
theorem extCount_post (esc : Nat) (inp : Buf) (p field : Nat) (out : Buf) :
    (extCount esc inp p field out).Post (fun r => ExtAt esc inp p field r.1 r.2)
      (fun o => o = out) False := by
  unfold extCount
  by_cases h : field = esc
  · subst h
    rw [if_pos rfl]
    by_cases hp : p ≥ inp.length
    · rw [if_pos hp]; rfl
    · rw [if_neg hp]
      have hp' : p < inp.length := by omega
      have hb0 : inp[p]? = some inp[p] := List.getElem?_eq_getElem hp'
      simp only [bind_eq, inByte_of_get hb0, Res.bind_ok]
      by_cases h254 : (inp[p]).val = 254
      · rw [if_pos h254]
        by_cases hp1 : p + 1 ≥ inp.length
        · rw [if_pos hp1]; rfl
        · rw [if_neg hp1]
          have hb1 : inp[p + 1]? = some inp[p + 1] := List.getElem?_eq_getElem (by omega)
          simp only [inByte_of_get hb1, Res.bind_ok, pure_eq, Res.post_ok]
          exact Or.inr ⟨rfl, _, hb0, Or.inr (Or.inl ⟨h254, _, hb1, rfl, by omega⟩)⟩
      · rw [if_neg h254]
        by_cases h255 : (inp[p]).val = 255
        · rw [if_pos h255]
          by_cases hp1 : p + 1 + 1 ≥ inp.length
          · rw [if_pos hp1]; rfl
          · rw [if_neg hp1]
            have hb1 : inp[p + 1]? = some inp[p + 1] := List.getElem?_eq_getElem (by omega)
            have hb2 : inp[p + 2]? = some inp[p + 2] := List.getElem?_eq_getElem (by omega)
            simp only [inByte_of_get hb1, inByte_of_get hb2, Res.bind_ok, pure_eq,
              Res.post_ok]
            exact Or.inr ⟨rfl, _, hb0, Or.inr (Or.inr ⟨h255, _, _, hb1, hb2, rfl,
              lor_shift8 _ _ (inp[p + 1]).isLt⟩)⟩
        · rw [if_neg h255]
          simp only [pure_eq, Res.post_ok]
          have := (inp[p]).isLt
          exact Or.inr ⟨rfl, _, hb0, Or.inl ⟨by omega, rfl, rfl⟩⟩
  · rw [if_neg h]
    exact Or.inl ⟨h, rfl, rfl⟩

/-- The read cursor after a resolved count: at most three bytes further. -/
theorem ExtAt.bounds {esc : Nat} {inp : Buf} {p field p' n : Nat}
    (h : ExtAt esc inp p field p' n) : p ≤ p' ∧ p' ≤ p + 3 ∧ (p' = p ∨ p' ≤ inp.length) := by
  rcases h with ⟨_, rfl, rfl⟩ | ⟨rfl, b0, hb0, h⟩
  · omega
  · have hp : p < inp.length := (List.getElem?_eq_some.1 hb0).1
    rcases h with ⟨h1, rfl, rfl⟩ | ⟨h1, b1, hb1, rfl, rfl⟩ | ⟨h1, b1, b2, hb1, hb2, rfl, rfl⟩
    · omega
    · have hp1 : p + 1 < inp.length := (List.getElem?_eq_some.1 hb1).1
      omega
    · have hp2 : p + 2 < inp.length := (List.getElem?_eq_some.1 hb2).1
      omega

theorem splice_nil (out : Buf) (dst : Nat) : splice out dst [] = out := by
  simp [splice]

/-! ## Literals -/

/-- With a resolved count `n`, `n` input bytes left and room for `n` bytes, the slow literal
copy stores exactly those `n` input bytes and advances both cursors by `n`. -/
theorem literals_slow_ok {inp : Buf} {p L p' n : Nat} (out : Buf) (c oend : Nat)
    (h : ExtAt LITERALS_RUN_LEN inp p L p' n) (hin : p' + n ≤ inp.length)
    (hout : c + n ≤ oend) (hlen : oend ≤ out.length) :
    lzsa_expand_literals_slow inp p L out c oend =
      Res.ok (p' + n, c + n, splice out c ((inp.drop p').take n)) := by
  rw [literals_slow_eq, extCount_of_extAt out h]
  simp only [Res.bind_ok]
  by_cases hn : n = 0
  · subst hn; simp [splice_nil]
  · have h1 : ¬ (inp.length < p' + n ∨ oend < c + n) := by omega
    simp only [ne_eq, hn, not_false_eq_true, if_true, gt_iff_lt, h1, if_false]
    rw [memcpyIn_ok inp p' out c n hin (by omega)]; rfl

/-! ## Matches -/

theorem match_slow_eq (MIN : Nat) (inp : Buf) (p : Nat) (pSrc : Int) (M : Nat) (out : Buf)
    (c oend : Nat) (ofe : Int) :
    lzsa_expand_match_slow MIN inp p pSrc M out c oend ofe =
      (extCount MATCH_RUN_LEN inp p M out).bind (fun r =>
        matchRest MIN out pSrc c oend ofe r.1 r.2) := rfl

theorem copyTail_eq (p' n : Nat) (out : Buf) (s : Int) (d : Nat) :
    ((copyQuads n out s d).bind (fun q =>
      (copyBytes q.1 q.2.2.2 q.2.1 q.2.2.1).bind (fun y => Res.ok (p', y.1, y.2)))) =
    (copyBytes n out s d).bind (fun y => Res.ok (p', y.1, y.2)) := by
  rw [← copyQuads_copyBytes n out s d, Res.bind_assoc]

theorem maxFast_bounds (n c s : Nat) (ofe : Int) :
    maxFast n c (s : Int) ofe ≤ n ∧ maxFast n c (s : Int) ofe ≤ c - s ∧
      (0 < maxFast n c (s : Int) ofe → (c : Int) + maxFast n c (s : Int) ofe ≤ ofe - 15) := by
  unfold maxFast
  simp only []
  split_ifs <;> omega

/-- The copy part of the slow match: with the source `d = c - s ≥ 1` bytes back and room
for the `n` bytes, it succeeds and leaves an overlap-correct copy. -/
theorem matchRest_ok (MIN : Nat) (out : Buf) (s c oend : Nat) (ofe : Int) (p' n : Nat)
    (hs : s < c) (hroom : c + (n + MIN) ≤ oend) (hlen : oend ≤ out.length)
    (hfe : ofe ≤ oend) :
    ∃ out', matchRest MIN out (s : Int) c oend ofe p' n = Res.ok (p', c + (n + MIN), out') ∧
      MatchPost out c (c - s) (n + MIN) oend out' := by
  unfold matchRest
  rw [if_neg (by omega)]
  by_cases hrle : (s : Int) + 1 = c ∧ n + MIN ≥ 16
  · rw [if_pos hrle]
    have hsl : s < out.length := by omega
    have hb : out[s]? = some out[s] := List.getElem?_eq_getElem hsl
    have hst : c + (List.replicate (n + MIN) out[s]).length ≤ out.length := by simp; omega
    have hg := splice_get out c (List.replicate (n + MIN) out[s]) hst
    simp only [List.length_replicate] at hg
    refine ⟨splice out c (List.replicate (n + MIN) out[s]), ?_, splice_length _ _ _ hst,
      ?_, ?_, ?_⟩
    · simp only [outByte_of_get hb, Res.bind_ok, outStore, if_pos hst]
    · intro i hi; rw [hg, if_pos hi]
    · intro i hi; rw [hg, if_neg (by omega), if_neg (by omega)]
    · intro i h1 h2
      have hcs : c - s = 1 := by omega
      rw [hg i, if_neg (by omega), if_pos h2, List.getElem?_replicate, if_pos (by omega), hg,
        hcs]
      by_cases hic : i = c
      · have his : i - 1 = s := by omega
        rw [if_pos (by omega), his, hb]
      · rw [if_neg (by omega), if_pos (by omega), List.getElem?_replicate, if_pos (by omega)]
  · rw [if_neg hrle]
    obtain ⟨hm1, hm2, hm3⟩ := maxFast_bounds (n + MIN) c s ofe
    by_cases hpos : maxFast (n + MIN) c (s : Int) ofe > 0
    · rw [if_pos hpos]
      obtain ⟨m, hm⟩ := Int.eq_ofNat_of_zero_le (le_of_lt hpos)
      rw [hm] at hm1 hm2 hm3 hpos ⊢
      simp only [Int.toNat_ofNat]
      have hmpos : 0 < m := by omega
      obtain ⟨out1, hrun1, hl1, hlo1, hhi1, hsrc1⟩ := copyBlocks16_spec m out s c (c + m) c hs
        (le_refl _) (by omega) (le_refl _) (by have := hm3 hpos; omega)
      rw [hrun1]
      simp only [Res.bind_ok]
      rw [copyTail_eq]
      have : (s : Int) + (m : Int) = ((s + m : Nat) : Int) := by push_cast; rfl
      rw [this]
      obtain ⟨out2, hrun2, hl2, hlo2, hhi2, hcp2⟩ := copyBytes_spec (n + MIN - m) out1 (s + m)
        (c + m) (by omega) (by rw [hl1]; omega)
      rw [hrun2]
      refine ⟨out2, ?_, by rw [hl2, hl1], ?_, ?_, ?_⟩
      · have hsum : c + m + (n + MIN - m) = c + (n + MIN) := by omega
        simp only [Res.bind_ok, hsum]
      · intro i hi; rw [hlo2 i (by omega), hlo1 i hi]
      · intro i hi
        rw [hhi2 i (by omega), hhi1 i (by have := hm3 hpos; omega)]
      · intro i h1 h2
        by_cases him : i < c + m
        · rw [hlo2 i him, hlo2 (i - (c - s)) (by omega), hsrc1 i h1 him (by omega),
            hlo1 (i - (c - s)) (by omega)]
        · have := hcp2 i (by omega) (by omega)
          rw [this]; congr 1; omega
    · rw [if_neg hpos]
      simp only [Res.bind_ok]
      rw [copyTail_eq]
      obtain ⟨out2, hrun2, hl2, hlo2, hhi2, hcp2⟩ := copyBytes_spec (n + MIN) out s c hs
        (by omega)
      rw [hrun2]
      exact ⟨out2, rfl, hl2, hlo2, fun i hi => hhi2 i (by omega), hcp2⟩

theorem match_slow_ok (MIN : Nat) {inp : Buf} {p M p' n : Nat} (out : Buf) (s c oend : Nat)
    (ofe : Int) (h : ExtAt MATCH_RUN_LEN inp p M p' n)
    (hs : s < c) (hroom : c + (n + MIN) ≤ oend) (hlen : oend ≤ out.length)
    (hfe : ofe ≤ oend) :
    ∃ out', lzsa_expand_match_slow MIN inp p (s : Int) M out c oend ofe =
        Res.ok (p', c + (n + MIN), out') ∧
      MatchPost out c (c - s) (n + MIN) oend out' := by
  rw [match_slow_eq, extCount_of_extAt out h]
  exact matchRest_ok MIN out s c oend ofe p' n hs hroom hlen hfe

/-- Each byte of a finished match copy is the byte of the buffer before the copy at
`c - d + (i mod d)`. -/
theorem MatchPost.periodic {out out' : Buf} {c d n hi : Nat} (h : MatchPost out c d n hi out')
    (hd : 1 ≤ d) (hdc : d ≤ c) :
    ∀ i, i < n → out'[c + i]? = out[c - d + i % d]? := by
  obtain ⟨_, hlo, _, hcp⟩ := h
  intro i
  induction i using Nat.strongRecOn with
  | _ i ih =>
    intro hi'
    rw [hcp (c + i) (by omega) (by omega)]
    by_cases hid : i < d
    · rw [Nat.mod_eq_of_lt hid, hlo (c + i - d) (by omega)]
      congr 1; omega
    · have e : c + i - d = c + (i - d) := by omega
      have hmod : i % d = (i - d) % d := Nat.mod_eq_sub_mod (by omega)
      rw [e, ih (i - d) (by omega) (by omega), hmod]

/-! ## Frames -/

theorem Frame.self_frame (lo hi : Nat) (a : Buf) : Frame lo hi a a := ⟨rfl, fun _ _ => rfl⟩

theorem Frame.chain {lo lo' hi : Nat} {a b c : Buf} (h1 : Frame lo hi a b)
    (h2 : Frame lo' hi b c) (hl : lo ≤ lo') : Frame lo hi a c :=
  ⟨h2.1.trans h1.1, fun i hi' => by
    rw [h2.2 i (by omega), h1.2 i hi']⟩

theorem Frame.of_splice (out : Buf) (dst : Nat) (bs : Buf) (hi : Nat)
    (h : dst + bs.length ≤ out.length) (hhi : dst + bs.length ≤ hi) :
    Frame dst hi out (splice out dst bs) :=
  ⟨splice_length out dst bs h, fun i hi' => by
    rw [splice_get out dst bs h]
    rcases hi' with h1 | h1
    · rw [if_pos h1]
    · rw [if_neg (by omega), if_neg (by omega)]⟩

theorem MatchPost.frame {out out' : Buf} {c d n hi : Nat} (h : MatchPost out c d n hi out') :
    Frame c hi out out' :=
  ⟨h.1, fun i hi' => by
    rcases hi' with h1 | h1
    · exact h.2.1 i h1
    · exact h.2.2.1 i h1⟩

/-! ## Outcomes of the output-side primitives -/

theorem outByte_quiet (out : Buf) (s : Int) : (outByte out s).Quiet := by
  unfold outByte Res.Quiet
  split_ifs
  · cases out[s.toNat]? <;> simp
  · simp

theorem outStore_quiet (out : Buf) (d : Nat) (bs : Buf) : (outStore out d bs).Quiet := by
  unfold outStore Res.Quiet
  split_ifs <;> simp

theorem Res.Quiet.andThen {α β : Type} {r : Res α} {f : α → Res β} (h : r.Quiet)
    (hf : ∀ a, (f a).Quiet) : (r.bind f).Quiet :=
  Res.Post.bind h (fun a _ => hf a)

theorem copyByte_quiet (out : Buf) (s : Int) (d : Nat) : (copyByte out s d).Quiet :=
  (outByte_quiet out s).andThen (fun _ => outStore_quiet _ _ _)

theorem memcpyOut_quiet (out : Buf) (d : Nat) (s : Int) (n : Nat) :
    (memcpyOut out d s n).Quiet := by
  unfold memcpyOut
  refine Res.Quiet.andThen ?_ (fun _ => outStore_quiet _ _ _)
  unfold outSlice Res.Quiet
  split_ifs <;> simp

theorem copyBytes_quiet (n : Nat) : ∀ (out : Buf) (s : Int) (d : Nat),
    (copyBytes n out s d).Post (fun r => r.1 = d + n) (fun _ => False) True := by
  induction n with
  | zero => intro out s d; simp [copyBytes]
  | succ n ih =>
    intro out s d
    simp only [copyBytes, bind_eq]
    refine Res.Post.bind (copyByte_quiet out s d) (fun o _ => ?_)
    refine (ih o (s + 1) (d + 1)).mono (fun r hr => ?_) (fun _ h => h) (fun h => h)
    rw [hr]; omega

theorem copyBlocks16_quiet (k : Nat) : ∀ (out : Buf) (s : Int) (d e : Nat), d < e → e ≤ d + k →
    (copyBlocks16 k out s d e).Quiet := by
  induction k with
  | zero => intro out s d e h1 h2; omega
  | succ k ih =>
    intro out s d e h1 h2
    simp only [copyBlocks16, bind_eq]
    refine Res.Quiet.andThen (memcpyOut_quiet out d s 16) (fun o => ?_)
    split_ifs with h
    · exact ih o (s + 16) (d + 16) e h (by omega)
    · simp [Res.Quiet]

theorem Res.Quiet.post {α : Type} {r : Res α} (h : r.Quiet) (F : Buf → Prop) :
    r.Post (fun _ => True) F True :=
  h.mono (fun _ h => h) (fun _ h => h.elim) (fun h => h)

theorem memcpyIn_post (inp : Buf) (src : Nat) (out : Buf) (dst n : Nat)
    (hs : src + n ≤ inp.length) :
    (memcpyIn inp src out dst n).Post
      (fun o => o = splice out dst ((inp.drop src).take n) ∧ dst + n ≤ out.length)
      (fun _ => False) (out.length < dst + n) := by
  have hl := slice_length inp src n hs
  by_cases hd : dst + n ≤ out.length
  · rw [memcpyIn_ok inp src out dst n hs hd]; exact ⟨rfl, hd⟩
  · simp only [memcpyIn, inSlice, if_pos hs, bind_eq, Res.bind_ok, outStore, hl, if_neg hd,
      Res.post_oobOut]
    omega

/-- Every outcome of the copy part of the slow match: never an access outside the input,
never an exhausted budget, and the read cursor is the one handed in. -/
theorem matchRest_any (MIN : Nat) (out : Buf) (pSrc : Int) (c oend : Nat) (ofe : Int)
    (p' n : Nat) :
    (matchRest MIN out pSrc c oend ofe p' n).Post (fun r => r.1 = p') (fun o => o = out)
      True := by
  unfold matchRest
  split_ifs with h1 h2 h3
  · rfl
  · refine Res.Post.bind ((outByte_quiet out pSrc).post _) (fun b _ => ?_)
    refine Res.Post.bind ((outStore_quiet out c _).post _) (fun o _ => ?_)
    rfl
  · refine Res.Post.bind (P := fun _ => True) ?_ (fun r _ => ?_)
    · refine Res.Post.bind ((copyBlocks16_quiet _ out pSrc c _ ?_ (le_refl _)).mono
        (fun _ h => h) (fun _ h => h.elim) (fun h => h)) (fun o _ => trivial)
      have : 0 < (maxFast (n + MIN) c pSrc ofe).toNat := by omega
      omega
    · rw [copyTail_eq]
      refine Res.Post.bind ((copyBytes_quiet _ _ _ _).mono (fun _ _ => trivial)
        (fun _ h => h.elim) (fun h => h)) (fun y _ => rfl)
  · simp only [Res.bind_ok]
    rw [copyTail_eq]
    refine Res.Post.bind ((copyBytes_quiet _ _ _ _).mono (fun _ _ => trivial)
      (fun _ h => h.elim) (fun h => h)) (fun y _ => rfl)

/-- Every outcome of `lzsa_expand_match_slow` called with a source `0 ≤ pSrc < c`: the
read cursor does not move back and stays inside the input; when the buffer reaches up to
`oend`, the write cursor advances to at most `oend` and only `[c, oend)` is written. -/
theorem match_slow_post (MIN : Nat) (inp : Buf) (p : Nat) (pSrc : Int) (M : Nat) (out : Buf)
    (c oend : Nat) (ofe : Int) (hs0 : 0 ≤ pSrc) (hsc : pSrc < c) (hfe : ofe ≤ oend) :
    (lzsa_expand_match_slow MIN inp p pSrc M out c oend ofe).Post
      (fun r => p ≤ r.1 ∧ (p ≤ inp.length → r.1 ≤ inp.length) ∧
        (oend ≤ out.length → c ≤ r.2.1 ∧ r.2.1 ≤ oend ∧ Frame c oend out r.2.2))
      (fun o => o = out) (out.length < oend) := by
  rw [match_slow_eq]
  refine Res.Post.bind ((extCount_post MATCH_RUN_LEN inp p M out).mono (fun _ h => h)
    (fun _ h => h) False.elim) ?_
  rintro ⟨p', n⟩ hext
  simp only []
  obtain ⟨hb1, hb2, hb3⟩ := hext.bounds
  obtain ⟨s, rfl⟩ := Int.eq_ofNat_of_zero_le hs0
  by_cases hsafe : oend ≤ out.length
  · by_cases hroom : c + (n + MIN) ≤ oend
    · obtain ⟨out', hrun, hpost⟩ := matchRest_ok MIN out s c oend ofe p' n (by omega) hroom
        hsafe hfe
      rw [hrun]
      exact ⟨hb1, fun _ => by omega, fun _ => ⟨by simp, hroom, hpost.frame⟩⟩
    · unfold matchRest
      rw [if_pos (by omega)]; rfl
  · refine (matchRest_any MIN out (s : Int) c oend ofe p' n).mono ?_ (fun _ h => h)
      (fun _ => by omega)
    rintro ⟨p1, c1, o1⟩ h
    simp only [] at h
    subst h
    exact ⟨hb1, fun _ => by omega, fun h => absurd h hsafe⟩

/-- Every outcome of `lzsa_expand_literals_slow`. -/
theorem literals_slow_post (inp : Buf) (p L : Nat) (out : Buf) (c oend : Nat) :
    (lzsa_expand_literals_slow inp p L out c oend).Post
      (fun r => p ≤ r.1 ∧ (p ≤ inp.length → r.1 ≤ inp.length) ∧
        (oend ≤ out.length → c ≤ r.2.1 ∧ (c ≤ oend → r.2.1 ≤ oend) ∧ Frame c oend out r.2.2))
      (fun o => o = out) (out.length < oend) := by
  rw [literals_slow_eq]
  refine Res.Post.bind ((extCount_post LITERALS_RUN_LEN inp p L out).mono (fun _ h => h)
    (fun _ h => h) False.elim) ?_
  rintro ⟨p', n⟩ hext
  simp only []
  obtain ⟨hb1, hb2, hb3⟩ := hext.bounds
  by_cases hn : n = 0
  · subst hn
    simp only [ne_eq, not_true_eq_false, if_false, Res.post_ok]
    exact ⟨hb1, fun _ => by omega, fun _ => ⟨le_refl _, fun h => h, Frame.self_frame _ _ _⟩⟩
  · rw [if_pos hn]
    by_cases hg : p' + n > inp.length ∨ c + n > oend
    · rw [if_pos hg]; rfl
    · rw [if_neg hg]
      refine Res.Post.bind (memcpyIn_post inp p' out c n (by omega)) ?_ |>.mono
        (fun _ h => h) (fun _ h => h.elim) (fun h => by omega)
      rintro o ⟨rfl, ho⟩
      have hl := slice_length inp p' n (by omega)
      refine ⟨?_, fun _ => ?_, fun _ => ⟨?_, fun _ => ?_, ?_⟩⟩
      · show p ≤ p' + n; omega
      · show p' + n ≤ inp.length; omega
      · show c ≤ c + n; omega
      · show c + n ≤ oend; omega
      · exact Frame.of_splice out c _ oend (by rw [hl]; exact ho) (by rw [hl]; omega)

/-- Every outcome of reading the match offset when an input byte is left: one or two
bytes are consumed, and a resolved offset is at least 1. -/
theorem readMatchOffset_post (inp : Buf) (token p : Nat) (out : Buf) (hp : p < inp.length) :
    (readMatchOffset inp token p out).Post
      (fun r => p < r.1 ∧ r.1 ≤ inp.length ∧ ∀ off, r.2 = some off → 1 ≤ off)
      (fun o => o = out) False := by
  unfold readMatchOffset
  have hb : inp[p]? = some inp[p] := List.getElem?_eq_getElem hp
  simp only [bind_eq, inByte_of_get hb, Res.bind_ok]
  split_ifs with h1 h2
  · rfl
  · have hb1 : inp[p + 1]? = some inp[p + 1] := List.getElem?_eq_getElem (by omega)
    simp only [inByte_of_get hb1, Res.bind_ok]
    split_ifs with h3
    · exact ⟨by omega, by omega, fun off h => by simp at h⟩
    · refine ⟨by omega, by omega, fun off h => ?_⟩
      simp only [pure_eq, Option.some.injEq] at h
      omega
  · exact ⟨by omega, by omega, fun off h => by simp only [Option.some.injEq] at h; omega⟩

theorem memcpyOut_post (out : Buf) (dst s n : Nat) :
    (memcpyOut out dst (s : Int) n).Post
      (fun o => o = splice out dst ((out.drop s).take n) ∧ dst + n ≤ out.length ∧
        s + n ≤ out.length)
      (fun _ => False) (out.length < dst + n ∨ out.length < s + n) := by
  by_cases hs : s + n ≤ out.length
  · by_cases hd : dst + n ≤ out.length
    · rw [memcpyOut_ok out dst s n hs hd]; exact ⟨rfl, hd, hs⟩
    · have h1 : ((s : Int) + (n : Int) ≤ (out.length : Int)) := by omega
      have hl := slice_length out s n hs
      simp only [memcpyOut, outSlice, bind_eq, outStore]
      rw [if_pos ⟨by omega, h1⟩]
      simp only [Res.bind_ok, Int.toNat_ofNat, hl, if_neg hd, Res.post_oobOut]
      omega
  · have h1 : ¬ ((s : Int) + (n : Int) ≤ (out.length : Int)) := by omega
    simp only [memcpyOut, outSlice, bind_eq]
    rw [if_neg (by tauto)]
    simp only [Res.bind_oobOut, Res.post_oobOut]
    omega

/-- The part of both loop bodies after the literals (lines 183-209 with the fast match
variant impossible, lines 221-241): every outcome. -/
theorem slowBody_post (MIN : Nat) (inp : Buf) (oend : Nat) (ofe : Int) (st : St)
    (hp : st.pInBlock < inp.length) (hfe : ofe ≤ oend) :
    (slowBody MIN inp oend ofe st).Post (fun step => StepPost inp oend st step.state)
      (fun o => oend ≤ st.out.length → Frame st.pCurOutData oend st.out o)
      (st.out.length < oend) := by
  unfold slowBody
  have hb : inp[st.pInBlock]? = some inp[st.pInBlock] := List.getElem?_eq_getElem hp
  simp only [bind_eq, inByte_of_get hb, Res.bind_ok]
  refine Res.Post.bind ((literals_slow_post inp (st.pInBlock + 1) _ st.out st.pCurOutData
    oend).mono (fun _ h => h) (fun o h _ => h ▸ Frame.self_frame _ _ _) (fun h => h)) ?_
  rintro ⟨p1, c1, o1⟩ ⟨hp1, hp1', hc1⟩
  simp only [] at hp1 hp1' hc1 ⊢
  split_ifs with hmore
  · refine Res.Post.bind ((readMatchOffset_post inp _ p1 o1 hmore).mono (fun _ h => h)
      (fun o h hs => h ▸ (hc1 hs).2.2) False.elim) ?_
    rintro ⟨p2, off⟩ ⟨hp2, hp2', hoff⟩
    simp only [] at hp2 hp2' hoff ⊢
    cases off with
    | none =>
      simp only [pure_eq, Res.post_ok]
      exact ⟨by show st.pInBlock < p2; omega, hp2', hc1⟩
    | some nMatchOffset =>
      have hoff1 := hoff _ rfl
      simp only []
      split_ifs with hneg
      · exact fun hs => (hc1 hs).2.2
      · refine Res.Post.bind ((match_slow_post MIN inp p2 _ _ o1 c1 oend ofe (by omega)
          (by omega) hfe).mono (fun _ h => h) (fun o h hs => h ▸ (hc1 hs).2.2) ?_) ?_
        · intro h
          by_contra hs
          have := (hc1 (by omega)).2.2.1
          omega
        · rintro ⟨p3, c3, o3⟩ ⟨hp3, hp3', hc3⟩
          simp only [] at hp3 hp3' hc3 ⊢
          refine ⟨by show st.pInBlock < p3; omega, hp3' hp2', fun hs => ?_⟩
          obtain ⟨h1, h2, h3⟩ := hc1 hs
          obtain ⟨h4, h5, h6⟩ := hc3 (by rw [h3.1]; exact hs)
          exact ⟨le_trans h1 h4, fun _ => h5, h3.chain h6 h1⟩
  · simp only [pure_eq, Res.post_ok]
    exact ⟨by show st.pInBlock < p1; omega, hp1' (by omega), hc1⟩

/-- Body of the fast loop, entered under the loop condition: every outcome. -/
theorem fastBody_post (MIN : Nat) (inp : Buf) (oend : Nat) (ofe : Int) (st : St)
    (hp : (st.pInBlock : Int) < (inp.length : Int) - 16) (hc : (st.pCurOutData : Int) < ofe)
    (hfe : ofe + 16 ≤ oend) :
    (fastBody MIN inp oend ofe st).Post (fun step => StepPost inp oend st step.state)
      (fun o => oend ≤ st.out.length → Frame st.pCurOutData oend st.out o)
      (st.out.length < oend) := by
  unfold fastBody
  have hp0 : st.pInBlock < inp.length := by omega
  have hb : inp[st.pInBlock]? = some inp[st.pInBlock] := List.getElem?_eq_getElem hp0
  simp only [bind_eq, inByte_of_get hb, Res.bind_ok]
  refine Res.Post.bind (P := fun r => st.pInBlock + 1 ≤ r.1 ∧ r.1 ≤ inp.length ∧
    (oend ≤ st.out.length → st.pCurOutData ≤ r.2.1 ∧ r.2.1 ≤ oend ∧
      Frame st.pCurOutData oend st.out r.2.2)) ?_ ?_
  · split_ifs with hL
    · refine Res.Post.bind ((memcpyIn_post inp (st.pInBlock + 1) st.out st.pCurOutData 8
        (by omega)).mono (fun _ h => h) (fun _ h => h.elim) (fun h => by omega)) ?_
      rintro o ⟨rfl, ho⟩
      have hl := slice_length inp (st.pInBlock + 1) 8 (by omega)
      unfold LITERALS_RUN_LEN at hL
      refine ⟨?_, ?_, fun _ => ⟨?_, ?_, ?_⟩⟩
      · show st.pInBlock + 1 ≤ st.pInBlock + 1 + _; omega
      · show st.pInBlock + 1 + _ ≤ inp.length; omega
      · show st.pCurOutData ≤ st.pCurOutData + _; omega
      · show st.pCurOutData + _ ≤ oend; omega
      · exact Frame.of_splice st.out st.pCurOutData _ oend (by rw [hl]; exact ho)
          (by rw [hl]; omega)
    · refine (literals_slow_post inp (st.pInBlock + 1) _ st.out st.pCurOutData oend).mono
        ?_ (fun o h _ => h ▸ Frame.self_frame _ _ _) (fun h => h)
      rintro ⟨p1, c1, o1⟩ ⟨hp1, hp1', hc1⟩
      exact ⟨hp1, hp1' (by omega), fun hs => ⟨(hc1 hs).1, (hc1 hs).2.1 (by omega),
        (hc1 hs).2.2⟩⟩
  rintro ⟨p1, c1, o1⟩ ⟨hp1, hp1', hc1⟩
  simp only [] at hp1 hp1' hc1 ⊢
  have hc1' : oend ≤ st.out.length → st.pCurOutData ≤ c1 ∧ (st.pCurOutData ≤ oend → c1 ≤ oend) ∧
      Frame st.pCurOutData oend st.out o1 :=
    fun hs => ⟨(hc1 hs).1, fun _ => (hc1 hs).2.1, (hc1 hs).2.2⟩
  split_ifs with hmore
  · refine Res.Post.bind ((readMatchOffset_post inp _ p1 o1 hmore).mono (fun _ h => h)
      (fun o h hs => h ▸ (hc1 hs).2.2) False.elim) ?_
    rintro ⟨p2, off⟩ ⟨hp2, hp2', hoff⟩
    simp only [] at hp2 hp2' hoff ⊢
    cases off with
    | none =>
      simp only [pure_eq, Res.post_ok]
      exact ⟨by show st.pInBlock < p2; omega, hp2', hc1'⟩
    | some nMatchOffset =>
      have hoff1 := hoff _ rfl
      simp only []
      split_ifs with hneg hfast
      · exact fun hs => (hc1 hs).2.2
      · obtain ⟨s, hs⟩ := Int.eq_ofNat_of_zero_le (not_lt.1 hneg)
        rw [hs] at hfast ⊢
        obtain ⟨hf1, hf2, hf3⟩ := hfast
        refine Res.Post.bind ((memcpyOut_post o1 c1 s 16).mono (fun _ h => h)
          (fun _ h => h.elim) ?_) ?_
        · intro h
          by_contra hsafe
          have := (hc1 (by omega)).2.2.1
          omega
        · rintro o ⟨rfl, ho1, ho2⟩
          have hl := slice_length o1 s 16 ho2
          refine ⟨by show st.pInBlock < p2; omega, hp2', fun hsafe => ?_⟩
          obtain ⟨h1, h2, h3⟩ := hc1 hsafe
          refine ⟨?_, fun _ => ?_, h3.chain (Frame.of_splice o1 c1 _ oend (by rw [hl]; exact ho1)
            (by rw [hl]; omega)) h1⟩
          · show st.pCurOutData ≤ c1 + _; omega
          · show c1 + _ ≤ oend; omega
      · refine Res.Post.bind ((match_slow_post MIN inp p2 _ _ o1 c1 oend ofe (by omega)
          (by omega) (by omega)).mono (fun _ h => h) (fun o h hs => h ▸ (hc1 hs).2.2) ?_) ?_
        · intro h
          by_contra hs
          have := (hc1 (by omega)).2.2.1
          omega
        · rintro ⟨p3, c3, o3⟩ ⟨hp3, hp3', hc3⟩
          simp only [] at hp3 hp3' hc3 ⊢
          refine ⟨by show st.pInBlock < p3; omega, hp3' hp2', fun hs => ?_⟩
          obtain ⟨h1, h2, h3⟩ := hc1 hs
          obtain ⟨h4, h5, h6⟩ := hc3 (by rw [h3.1]; exact hs)
          exact ⟨le_trans h1 h4, fun _ => h5, h3.chain h6 h1⟩
  · simp only [pure_eq, Res.post_ok]
    exact ⟨by show st.pInBlock < p1; omega, hp1', hc1'⟩

theorem OutInv.step {inp out0 : Buf} {lo oend : Nat} {st st' : St} (h : OutInv out0 lo oend st)
    (hs : StepPost inp oend st st') : OutInv out0 lo oend st' := by
  intro hsafe
  obtain ⟨h1, h2, h3⟩ := h hsafe
  obtain ⟨h4, h5, h6⟩ := hs.2.2 (by rw [h3.1]; exact hsafe)
  exact ⟨le_trans h1 h4, h5 h2, h3.chain h6 h1⟩

/-- The slow loop with a budget above the number of input bytes left: every outcome. -/
theorem slowLoop_post (MIN : Nat) (inp : Buf) (oend : Nat) (ofe : Int) (hfe : ofe ≤ oend)
    (out0 : Buf) (lo : Nat) : ∀ (k : Nat) (st : St), inp.length - st.pInBlock < k →
    OutInv out0 lo oend st →
    (slowLoop MIN inp oend ofe k st).Post
      (fun st' => st.pInBlock ≤ st'.pInBlock ∧
        (st.pInBlock ≤ inp.length → st'.pInBlock ≤ inp.length) ∧ OutInv out0 lo oend st')
      (fun o => oend ≤ out0.length → Frame lo oend out0 o) (out0.length < oend) := by
  intro k
  induction k with
  | zero => intro st h _; simp only [slowLoop, Res.post_fuel]; omega
  | succ k ih =>
    intro st hk hinv
    simp only [slowLoop]
    split_ifs with hp
    · have hb := slowBody_post MIN inp oend ofe st hp hfe
      cases hbody : slowBody MIN inp oend ofe st with
      | ok step =>
        rw [hbody] at hb
        cases step with
        | next st' =>
          simp only [Res.post_ok, Step.state] at hb ⊢
          refine (ih st' (by have := hb.1; omega) (hinv.step hb)).mono ?_ (fun _ h => h)
            (fun h => h)
          rintro st'' ⟨h1, h2, h3⟩
          exact ⟨by have := hb.1; omega, fun _ => h2 hb.2.1, h3⟩
        | brk st' =>
          simp only [Res.post_ok, Step.state] at hb ⊢
          exact ⟨by have := hb.1; omega, fun _ => hb.2.1, hinv.step hb⟩
      | fail o =>
        rw [hbody] at hb
        simp only [Res.post_fail] at hb ⊢
        intro hsafe
        obtain ⟨h1, h2, h3⟩ := hinv hsafe
        exact h3.chain (hb (by rw [h3.1]; exact hsafe)) h1
      | oobIn => rw [hbody] at hb; exact hb.elim
      | oobOut =>
        rw [hbody] at hb
        simp only [Res.post_oobOut] at hb ⊢
        by_contra hsafe
        have := (hinv (by omega)).2.2.1
        omega
      | fuel => rw [hbody] at hb; exact hb.elim
    · simp only [Res.post_ok]
      exact ⟨le_refl _, fun h => h, hinv⟩

/-- The fast loop with a budget above the number of input bytes left: every outcome. -/
theorem fastLoop_post (MIN : Nat) (inp : Buf) (oend : Nat) (ofe : Int) (hfe : ofe + 16 ≤ oend)
    (out0 : Buf) (lo : Nat) : ∀ (k : Nat) (st : St), inp.length - st.pInBlock < k →
    OutInv out0 lo oend st →
    (fastLoop MIN inp oend ofe k st).Post
      (fun st' => st.pInBlock ≤ st'.pInBlock ∧
        (st.pInBlock ≤ inp.length → st'.pInBlock ≤ inp.length) ∧ OutInv out0 lo oend st')
      (fun o => oend ≤ out0.length → Frame lo oend out0 o) (out0.length < oend) := by
  intro k
  induction k with
  | zero => intro st h _; simp only [fastLoop, Res.post_fuel]; omega
  | succ k ih =>
    intro st hk hinv
    simp only [fastLoop]
    split_ifs with hp
    · have hb := fastBody_post MIN inp oend ofe st hp.1 hp.2 hfe
      cases hbody : fastBody MIN inp oend ofe st with
      | ok step =>
        rw [hbody] at hb
        cases step with
        | next st' =>
          simp only [Res.post_ok, Step.state] at hb ⊢
          refine (ih st' (by have := hb.1; omega) (hinv.step hb)).mono ?_ (fun _ h => h)
            (fun h => h)
          rintro st'' ⟨h1, h2, h3⟩
          exact ⟨by have := hb.1; omega, fun _ => h2 hb.2.1, h3⟩
        | brk st' =>
          simp only [Res.post_ok, Step.state] at hb ⊢
          exact ⟨by have := hb.1; omega, fun _ => hb.2.1, hinv.step hb⟩
      | fail o =>
        rw [hbody] at hb
        simp only [Res.post_fail] at hb ⊢
        intro hsafe
        obtain ⟨h1, h2, h3⟩ := hinv hsafe
        exact h3.chain (hb (by rw [h3.1]; exact hsafe)) h1
      | oobIn => rw [hbody] at hb; exact hb.elim
      | oobOut =>
        rw [hbody] at hb
        simp only [Res.post_oobOut] at hb ⊢
        by_contra hsafe
        have := (hinv (by omega)).2.2.1
        omega
      | fuel => rw [hbody] at hb; exact hb.elim
    · simp only [Res.post_ok]
      exact ⟨le_refl _, fun h => h, hinv⟩

/-- Every outcome of `lzsa_expand_block`: never an access outside the input span and
never an exhausted loop budget; when the output buffer holds the `nOutDataOffset` history
bytes and the `nBlockMaxSize` writable bytes, never an access outside it, a returned
length within `0 .. nBlockMaxSize`, and no byte changed outside the writable region,
whether the call succeeds or returns `-1`. -/
theorem expand_block_post (MIN : Nat) (inp out : Buf) (off max : Nat) :
    (lzsa_expand_block MIN inp out off max).Post
      (fun r => off + max ≤ out.length →
        0 ≤ r.1 ∧ r.1 ≤ max ∧ Frame off (off + max) out r.2)
      (fun o => off + max ≤ out.length → Frame off (off + max) out o)
      (out.length < off + max) := by
  unfold lzsa_expand_block
  simp only [bind_eq]
  have hinv : OutInv out off (off + max) ⟨0, off, out⟩ :=
    fun _ => ⟨le_refl _, by show off ≤ off + max; omega, Frame.self_frame _ _ _⟩
  refine Res.Post.bind (fastLoop_post MIN inp (off + max) (((off + max : Nat) : Int) - 16)
    (by omega) out off (inp.length + 1) ⟨0, off, out⟩ (by show inp.length - 0 < _; omega)
    hinv) ?_
  rintro st1 ⟨_, h2, h3⟩
  refine Res.Post.bind (slowLoop_post MIN inp (off + max) (((off + max : Nat) : Int) - 16)
    (by omega) out off (inp.length + 1) st1 (by omega) h3) ?_
  rintro st2 ⟨_, _, h6⟩
  simp only [pure_eq, Res.post_ok]
  intro hsafe
  obtain ⟨h7, h8, h9⟩ := h6 hsafe
  exact ⟨by omega, by omega, h9⟩

/-! ## The two loop bodies, split at the end of the literals -/

theorem slowBody_eq (MIN : Nat) (inp : Buf) (oend : Nat) (ofe : Int) (st : St) :
    slowBody MIN inp oend ofe st =
      (inByte inp st.pInBlock).bind (fun token =>
        (lzsa_expand_literals_slow inp (st.pInBlock + 1) ((token &&& 0xe0) >>> 5) st.out
            st.pCurOutData oend).bind (fun r =>
          slowTail MIN inp oend ofe token r.1 r.2.1 r.2.2)) := rfl

theorem fastBody_eq (MIN : Nat) (inp : Buf) (oend : Nat) (ofe : Int) (st : St) :
    fastBody MIN inp oend ofe st =
      (inByte inp st.pInBlock).bind (fun token =>
        (if (token &&& 0xe0) >>> 5 < LITERALS_RUN_LEN then
          (memcpyIn inp (st.pInBlock + 1) st.out st.pCurOutData 8).bind (fun o =>
            Res.ok (st.pInBlock + 1 + (token &&& 0xe0) >>> 5,
              st.pCurOutData + (token &&& 0xe0) >>> 5, o))
        else lzsa_expand_literals_slow inp (st.pInBlock + 1) ((token &&& 0xe0) >>> 5) st.out
            st.pCurOutData oend).bind (fun r =>
          fastTail MIN inp oend ofe token r.1 r.2.1 r.2.2)) := rfl

/-! ## Independence of the bytes at and above the write cursor -/

theorem Agree.self_agree (c : Nat) (a : Buf) : Agree c a a := ⟨rfl, fun _ _ => rfl⟩

theorem Agree.flip {c : Nat} {a b : Buf} (h : Agree c a b) : Agree c b a :=
  ⟨h.1.symm, fun i hi => (h.2 i hi).symm⟩

theorem Agree.below {c c' : Nat} {a b : Buf} (h : Agree c a b) (hc : c' ≤ c) : Agree c' a b :=
  ⟨h.1, fun i hi => h.2 i (by omega)⟩

theorem Agree.compose {c : Nat} {a b d : Buf} (h : Agree c a b) (h2 : Agree c b d) : Agree c a d :=
  ⟨h.1.trans h2.1, fun i hi => (h.2 i hi).trans (h2.2 i hi)⟩

/-- Reading the match offset either succeeds with a result that does not depend on the
output buffer, or returns `-1`. -/
theorem readMatchOffset_cases (inp : Buf) (token p : Nat) (hp : p < inp.length) :
    (∃ r, ∀ o, readMatchOffset inp token p o = Res.ok r) ∨
      (∀ o, readMatchOffset inp token p o = Res.fail o) := by
  unfold readMatchOffset
  have hb : inp[p]? = some inp[p] := List.getElem?_eq_getElem hp
  simp only [bind_eq, inByte_of_get hb, Res.bind_ok, pure_eq]
  split_ifs with h1 h2
  · exact Or.inr (fun _ => rfl)
  · have hb1 : inp[p + 1]? = some inp[p + 1] := List.getElem?_eq_getElem (by omega)
    simp only [inByte_of_get hb1, Res.bind_ok]
    split_ifs with h3
    · exact Or.inl ⟨_, fun _ => rfl⟩
    · exact Or.inl ⟨_, fun _ => rfl⟩
  · exact Or.inl ⟨_, fun _ => rfl⟩

/-- The count extension either resolves, independently of the output buffer, or returns
`-1`. -/
theorem extCount_cases (esc : Nat) (inp : Buf) (p field : Nat) :
    (∃ r : Nat × Nat, ExtAt esc inp p field r.1 r.2 ∧
        ∀ o, extCount esc inp p field o = Res.ok r) ∨
      (∀ o, extCount esc inp p field o = Res.fail o) := by
  have h := extCount_post esc inp p field []
  cases hr : extCount esc inp p field [] with
  | ok r =>
    rw [hr] at h
    exact Or.inl ⟨r, h, fun o => extCount_of_extAt o h⟩
  | fail o' =>
    right
    intro o
    have h2 := extCount_post esc inp p field o
    cases hr2 : extCount esc inp p field o with
    | ok r =>
      rw [hr2] at h2
      rw [extCount_of_extAt [] h2] at hr
      cases hr
    | fail o2 => rw [hr2] at h2; simp only [Res.post_fail] at h2; rw [h2]
    | oobIn => rw [hr2] at h2; exact h2.elim
    | oobOut => rw [hr2] at h2; exact h2.elim
    | fuel => rw [hr2] at h2; exact h2.elim
  | oobIn => rw [hr] at h; exact h.elim
  | oobOut => rw [hr] at h; exact h.elim
  | fuel => rw [hr] at h; exact h.elim

/-- Two match copies with the same cursor, distance and length, started from buffers that
agree below the cursor, leave buffers that agree below the new cursor. -/
theorem MatchPost.agree {a b a' b' : Buf} {c d n hi hi' : Nat} (hab : Agree c a b)
    (ha : MatchPost a c d n hi a') (hb : MatchPost b c d n hi' b') (hd : 1 ≤ d)
    (hdc : d ≤ c) :
    Agree (c + n) a' b' := by
  refine ⟨by rw [ha.1, hb.1, hab.1], ?_⟩
  intro i
  induction i using Nat.strongRecOn with
  | _ i ih =>
    intro hi2
    by_cases hic : i < c
    · rw [ha.2.1 i hic, hb.2.1 i hic, hab.2 i hic]
    · rw [ha.2.2.2 i (by omega) hi2, hb.2.2.2 i (by omega) hi2]
      exact ih (i - d) (by omega) (by omega)

/-- The fixed 16-byte copy of the fast match variant leaves a correct match copy of any
length `n ≤ 16` whose source range ends before the write cursor. -/
theorem fastMatch_post (o : Buf) (s c n oend : Nat) (hn : n ≤ 16) (hsrc : s + n < c)
    (hroom : c + 16 ≤ oend) (hlen : oend ≤ o.length) :
    memcpyOut o c (s : Int) 16 = Res.ok (splice o c ((o.drop s).take 16)) ∧
      MatchPost o c (c - s) n oend (splice o c ((o.drop s).take 16)) := by
  have hsl := slice_length o s 16 (by omega)
  have hg := splice_get o c ((o.drop s).take 16) (by rw [hsl]; omega)
  rw [hsl] at hg
  refine ⟨memcpyOut_ok o c s 16 (by omega) (by omega), splice_length _ _ _ (by rw [hsl]; omega),
    fun i hi => by rw [hg, if_pos hi], fun i hi => by
      rw [hg, if_neg (by omega), if_neg (by omega)], ?_⟩
  intro i h1 h2
  rw [hg i, if_neg (by omega), if_pos (by omega), slice_get, if_pos (by omega),
    hg (i - (c - s)), if_pos (by omega)]
  congr 1; omega

/-- The slow match on two buffers that agree below the write cursor: both calls return
`-1`, or both succeed with the same cursors and buffers that agree below the new write
cursor. -/
theorem match_slow_agree (MIN : Nat) (inp : Buf) (p s M : Nat) (a b : Buf) (c oend : Nat)
    (ofe : Int) (hab : Agree c a b) (hs : s < c) (hlen : oend ≤ a.length) (hfe : ofe ≤ oend) :
    (∃ p' n a' b', ExtAt MATCH_RUN_LEN inp p M p' n ∧ c + (n + MIN) ≤ oend ∧
        lzsa_expand_match_slow MIN inp p (s : Int) M a c oend ofe
          = Res.ok (p', c + (n + MIN), a') ∧
        lzsa_expand_match_slow MIN inp p (s : Int) M b c oend ofe
          = Res.ok (p', c + (n + MIN), b') ∧
        MatchPost a c (c - s) (n + MIN) oend a' ∧ MatchPost b c (c - s) (n + MIN) oend b' ∧
        Agree (c + (n + MIN)) a' b') ∨
      (lzsa_expand_match_slow MIN inp p (s : Int) M a c oend ofe = Res.fail a ∧
        lzsa_expand_match_slow MIN inp p (s : Int) M b c oend ofe = Res.fail b) := by
  rw [match_slow_eq, match_slow_eq]
  rcases extCount_cases MATCH_RUN_LEN inp p M with ⟨⟨p', n⟩, hext, hr⟩ | hr
  · rw [hr a, hr b]
    simp only [Res.bind_ok]
    by_cases hroom : c + (n + MIN) ≤ oend
    · left
      obtain ⟨a', hra, hpa⟩ := matchRest_ok MIN a s c oend ofe p' n hs hroom hlen hfe
      obtain ⟨b', hrb, hpb⟩ := matchRest_ok MIN b s c oend ofe p' n hs hroom
        (by rw [← hab.1]; exact hlen) hfe
      exact ⟨p', n, a', b', hext, hroom, hra, hrb, hpa, hpb, hpa.agree hab hpb (by omega) (by omega)⟩
    · right
      unfold matchRest
      rw [if_pos (by omega), if_pos (by omega)]
      exact ⟨rfl, rfl⟩
  · right
    rw [hr a, hr b]
    exact ⟨rfl, rfl⟩

/-! ## The fast body against the slow body -/

/-- The part of the fast body after the literals, run on a buffer that agrees below the
write cursor with the buffer of the slow body, ends as the slow one does. -/
theorem tail_sim (MIN : Nat) (inp : Buf) (oend : Nat) (ofe : Int) (token p c : Nat)
    (a b : Buf) (hab : Agree c a b) (hlen : oend ≤ a.length) (hfe : ofe + 16 ≤ oend)
    (hmin : 2 ≤ MIN) :
    (slowTail MIN inp oend ofe token p c a).Sim (fastTail MIN inp oend ofe token p c b) := by
  unfold slowTail fastTail
  by_cases hp : p < inp.length
  · rw [if_pos hp, if_pos hp]
    have hpost := readMatchOffset_post inp token p a hp
    rcases readMatchOffset_cases inp token p hp with ⟨⟨p2, off⟩, hr⟩ | hr
    · rw [hr a] at hpost
      rw [hr a, hr b]
      simp only [Res.bind_ok]
      cases off with
      | none => exact ⟨rfl, rfl, hab⟩
      | some d =>
        have hd : 1 ≤ d := hpost.2.2 d rfl
        simp only []
        by_cases hneg : (c : Int) - (d : Int) < 0
        · rw [if_pos hneg, if_pos hneg]; trivial
        · rw [if_neg hneg, if_neg hneg]
          have hs : (c : Int) - (d : Int) = ((c - d : Nat) : Int) := by omega
          rw [hs]
          by_cases hgate : (((token &&& 0x1e) >>> 1 : Nat) : Int) < 16 - (MIN : Int) + 1
              ∧ ((c - d : Nat) : Int) + MIN + (((token &&& 0x1e) >>> 1 : Nat) : Int) < c
              ∧ (c : Int) < ofe
          · rw [if_pos hgate]
            obtain ⟨hg1, hg2, hg3⟩ := hgate
            obtain ⟨hcp, hpb⟩ := fastMatch_post b (c - d) c (MIN + (token &&& 0x1e) >>> 1) oend
              (by omega) (by omega) (by omega) (by rw [← hab.1]; exact hlen)
            have hext : ExtAt MATCH_RUN_LEN inp p2 ((token &&& 0x1e) >>> 1) p2
                ((token &&& 0x1e) >>> 1) := by
              refine Or.inl ⟨?_, rfl, rfl⟩
              unfold MATCH_RUN_LEN; omega
            obtain ⟨a', hra, hpa⟩ := match_slow_ok MIN a (c - d) c oend ofe hext (by omega)
              (by omega) hlen (by omega)
            rw [hra, hcp]
            simp only [Res.bind_ok]
            have hcomm : MIN + (token &&& 0x1e) >>> 1 = (token &&& 0x1e) >>> 1 + MIN :=
              Nat.add_comm _ _
            rw [hcomm] at hpb ⊢
            exact ⟨rfl, rfl, hpa.agree hab hpb (by omega) (by omega)⟩
          · rw [if_neg hgate]
            rcases match_slow_agree MIN inp p2 (c - d) ((token &&& 0x1e) >>> 1) a b c oend ofe
              hab (by omega) hlen (by omega) with
              ⟨p', n, a', b', _, _, hra, hrb, _, _, hag⟩ | ⟨hra, hrb⟩
            · rw [hra, hrb]
              exact ⟨rfl, rfl, hag⟩
            · rw [hra, hrb]; trivial
    · rw [hr a, hr b]; trivial
  · rw [if_neg hp, if_neg hp]
    exact ⟨rfl, rfl, hab⟩

/-- One iteration of the fast loop, entered under the loop condition, ends as one iteration
of the slow loop from the same state does, up to the bytes at and above the write cursor. -/
theorem fastBody_sim (MIN : Nat) (inp : Buf) (oend : Nat) (ofe : Int) (st : St)
    (hp : (st.pInBlock : Int) < (inp.length : Int) - 16) (hc : (st.pCurOutData : Int) < ofe)
    (hfe : ofe + 16 ≤ oend) (hlen : oend ≤ st.out.length) (hmin : 2 ≤ MIN) :
    (slowBody MIN inp oend ofe st).Sim (fastBody MIN inp oend ofe st) := by
  rw [slowBody_eq, fastBody_eq]
  have hp0 : st.pInBlock < inp.length := by omega
  have hb : inp[st.pInBlock]? = some inp[st.pInBlock] := List.getElem?_eq_getElem hp0
  simp only [inByte_of_get hb, Res.bind_ok]
  by_cases hL : ((inp[st.pInBlock]).val &&& 0xe0) >>> 5 < LITERALS_RUN_LEN
  · rw [if_pos hL]
    have hL7 : ((inp[st.pInBlock]).val &&& 0xe0) >>> 5 < 7 := hL
    rw [literals_slow_ok st.out st.pCurOutData oend (Or.inl ⟨Nat.ne_of_lt hL, rfl, rfl⟩)
      (by omega) (by omega) hlen]
    rw [memcpyIn_ok inp (st.pInBlock + 1) st.out st.pCurOutData 8 (by omega) (by omega)]
    simp only [Res.bind_ok]
    have hl1 := slice_length inp (st.pInBlock + 1) (((inp[st.pInBlock]).val &&& 0xe0) >>> 5)
      (by omega)
    have hl2 := slice_length inp (st.pInBlock + 1) 8 (by omega)
    have hg1 := splice_get st.out st.pCurOutData _ (by rw [hl1]; omega)
    have hg2 := splice_get st.out st.pCurOutData _ (by rw [hl2]; omega)
    rw [hl1] at hg1
    rw [hl2] at hg2
    refine tail_sim MIN inp oend ofe _ _ _ _ _ ⟨?_, ?_⟩ ?_ hfe hmin
    · rw [splice_length _ _ _ (by rw [hl1]; omega), splice_length _ _ _ (by rw [hl2]; omega)]
    · intro i hi
      rw [hg1, hg2]
      by_cases hic : i < st.pCurOutData
      · rw [if_pos hic, if_pos hic]
      · rw [if_neg hic, if_neg hic, if_pos hi, if_pos (by omega), slice_get, slice_get,
          if_pos (by omega), if_pos (by omega)]
    · rw [splice_length _ _ _ (by rw [hl1]; omega)]; exact hlen
  · rw [if_neg hL]
    have hpost := literals_slow_post inp (st.pInBlock + 1)
      (((inp[st.pInBlock]).val &&& 0xe0) >>> 5) st.out st.pCurOutData oend
    cases hr : lzsa_expand_literals_slow inp (st.pInBlock + 1)
      (((inp[st.pInBlock]).val &&& 0xe0) >>> 5) st.out st.pCurOutData oend with
    | ok r =>
      rw [hr] at hpost
      simp only [Res.bind_ok]
      refine tail_sim MIN inp oend ofe _ _ _ _ _ (Agree.self_agree _ _) ?_ hfe hmin
      rw [(hpost.2.2 hlen).2.2.1]; exact hlen
    | fail o => trivial
    | oobIn => rw [hr] at hpost; exact hpost.elim
    | oobOut => rw [hr] at hpost; simp only [Res.post_oobOut] at hpost; omega
    | fuel => rw [hr] at hpost; exact hpost.elim

/-! ## Loops without their budget -/

theorem slowBody_advances {MIN : Nat} {inp : Buf} {oend : Nat} {ofe : Int} {st : St}
    {step : Step} (hp : st.pInBlock < inp.length) (hfe : ofe ≤ oend)
    (h : slowBody MIN inp oend ofe st = Res.ok step) :
    st.pInBlock < step.state.pInBlock ∧ step.state.pInBlock ≤ inp.length := by
  have hb := slowBody_post MIN inp oend ofe st hp hfe
  rw [h] at hb
  exact ⟨hb.1, hb.2.1⟩

theorem fastBody_advances {MIN : Nat} {inp : Buf} {oend : Nat} {ofe : Int} {st : St}
    {step : Step} (hc : fastCond inp ofe st) (hfe : ofe + 16 ≤ oend)
    (h : fastBody MIN inp oend ofe st = Res.ok step) :
    st.pInBlock < step.state.pInBlock ∧ step.state.pInBlock ≤ inp.length := by
  have hb := fastBody_post MIN inp oend ofe st hc.1 hc.2 hfe
  rw [h] at hb
  exact ⟨hb.1, hb.2.1⟩

/-- The slow loop gives the same outcome for every budget above the number of input bytes
left. -/
theorem slowLoop_budget (MIN : Nat) (inp : Buf) (oend : Nat) (ofe : Int) (hfe : ofe ≤ oend) :
    ∀ (k k' : Nat) (st : St), inp.length - st.pInBlock < k → inp.length - st.pInBlock < k' →
      slowLoop MIN inp oend ofe k st = slowLoop MIN inp oend ofe k' st := by
  intro k
  induction k with
  | zero => intro k' st h; omega
  | succ k ih =>
    intro k' st hk hk'
    obtain ⟨j, rfl⟩ : ∃ j, k' = j + 1 := ⟨k' - 1, by omega⟩
    simp only [slowLoop]
    split_ifs with hp
    · cases hbody : slowBody MIN inp oend ofe st with
      | ok step =>
        cases step with
        | next st' =>
          have := (slowBody_advances hp hfe hbody).1
          simp only [Step.state] at this
          exact ih j st' (by omega) (by omega)
        | brk st' => rfl
      | fail o => rfl
      | oobIn => rfl
      | oobOut => rfl
      | fuel => rfl
    · rfl

/-- The fast loop gives the same outcome for every budget above the number of input bytes
left. -/
theorem fastLoop_budget (MIN : Nat) (inp : Buf) (oend : Nat) (ofe : Int)
    (hfe : ofe + 16 ≤ oend) :
    ∀ (k k' : Nat) (st : St), inp.length - st.pInBlock < k → inp.length - st.pInBlock < k' →
      fastLoop MIN inp oend ofe k st = fastLoop MIN inp oend ofe k' st := by
  intro k
  induction k with
  | zero => intro k' st h; omega
  | succ k ih =>
    intro k' st hk hk'
    obtain ⟨j, rfl⟩ : ∃ j, k' = j + 1 := ⟨k' - 1, by omega⟩
    simp only [fastLoop]
    split_ifs with hp
    · cases hbody : fastBody MIN inp oend ofe st with
      | ok step =>
        cases step with
        | next st' =>
          have := (fastBody_advances hp hfe hbody).1
          simp only [Step.state] at this
          have hp0 := hp.1
          exact ih j st' (by omega) (by omega)
        | brk st' => rfl
      | fail o => rfl
      | oobIn => rfl
      | oobOut => rfl
      | fuel => rfl
    · rfl

theorem slowRun_next {MIN : Nat} {inp : Buf} {off max : Nat} {st st' : St}
    (hp : st.pInBlock < inp.length)
    (h : slowBody MIN inp (off + max) (((off + max : Nat) : Int) - 16) st
      = Res.ok (Step.next st')) :
    slowRun MIN inp off max st = slowRun MIN inp off max st' := by
  have hadv := (slowBody_advances hp (by omega) h).1
  simp only [Step.state] at hadv
  unfold slowRun
  congr 1
  rw [show inp.length + 1 = inp.length + 0 + 1 from rfl]
  simp only [slowLoop, if_pos hp, h]
  exact slowLoop_budget MIN inp (off + max) (((off + max : Nat) : Int) - 16) (by omega)
    (inp.length + 0) (inp.length + 1) st' (by omega) (by omega)

theorem slowRun_brk {MIN : Nat} {inp : Buf} {off max : Nat} {st st' : St}
    (hp : st.pInBlock < inp.length)
    (h : slowBody MIN inp (off + max) (((off + max : Nat) : Int) - 16) st
      = Res.ok (Step.brk st')) :
    slowRun MIN inp off max st
      = Res.ok ((st'.pCurOutData : Int) - (off : Int), st'.out) := by
  unfold slowRun
  simp only [slowLoop, if_pos hp, h, Res.bind_ok]

theorem slowRun_fail {MIN : Nat} {inp : Buf} {off max : Nat} {st : St} {o : Buf}
    (hp : st.pInBlock < inp.length)
    (h : slowBody MIN inp (off + max) (((off + max : Nat) : Int) - 16) st = Res.fail o) :
    slowRun MIN inp off max st = Res.fail o := by
  unfold slowRun
  simp only [slowLoop, if_pos hp, h, Res.bind_fail]

theorem slowRun_done {MIN : Nat} {inp : Buf} {off max : Nat} {st : St}
    (hp : ¬ st.pInBlock < inp.length) :
    slowRun MIN inp off max st = Res.ok ((st.pCurOutData : Int) - (off : Int), st.out) := by
  unfold slowRun
  simp only [slowLoop, if_neg hp, Res.bind_ok]

theorem fastRun_next {MIN : Nat} {inp : Buf} {off max : Nat} {st st' : St}
    (hc : fastCond inp (((off + max : Nat) : Int) - 16) st)
    (h : fastBody MIN inp (off + max) (((off + max : Nat) : Int) - 16) st
      = Res.ok (Step.next st')) :
    fastRun MIN inp off max st = fastRun MIN inp off max st' := by
  have hadv := (fastBody_advances hc (by omega) h).1
  simp only [Step.state] at hadv
  have hc' : (st.pInBlock : Int) < (inp.length : Int) - 16 ∧
      (st.pCurOutData : Int) < ((off + max : Nat) : Int) - 16 := hc
  unfold fastRun
  congr 1
  simp only [fastLoop, if_pos hc', h]
  have hp0 := hc'.1
  exact fastLoop_budget MIN inp (off + max) (((off + max : Nat) : Int) - 16) (by omega)
    inp.length (inp.length + 1) st' (by omega) (by omega)

theorem fastRun_brk {MIN : Nat} {inp : Buf} {off max : Nat} {st st' : St}
    (hc : fastCond inp (((off + max : Nat) : Int) - 16) st)
    (h : fastBody MIN inp (off + max) (((off + max : Nat) : Int) - 16) st
      = Res.ok (Step.brk st')) :
    fastRun MIN inp off max st = slowRun MIN inp off max st' := by
  have hc' : (st.pInBlock : Int) < (inp.length : Int) - 16 ∧
      (st.pCurOutData : Int) < ((off + max : Nat) : Int) - 16 := hc
  unfold fastRun
  simp only [fastLoop, if_pos hc', h, Res.bind_ok]

theorem fastRun_fail {MIN : Nat} {inp : Buf} {off max : Nat} {st : St} {o : Buf}
    (hc : fastCond inp (((off + max : Nat) : Int) - 16) st)
    (h : fastBody MIN inp (off + max) (((off + max : Nat) : Int) - 16) st = Res.fail o) :
    fastRun MIN inp off max st = Res.fail o := by
  have hc' : (st.pInBlock : Int) < (inp.length : Int) - 16 ∧
      (st.pCurOutData : Int) < ((off + max : Nat) : Int) - 16 := hc
  unfold fastRun
  simp only [fastLoop, if_pos hc', h, Res.bind_fail]

theorem fastRun_exit {MIN : Nat} {inp : Buf} {off max : Nat} {st : St}
    (hc : ¬ fastCond inp (((off + max : Nat) : Int) - 16) st) :
    fastRun MIN inp off max st = slowRun MIN inp off max st := by
  have hc' : ¬ ((st.pInBlock : Int) < (inp.length : Int) - 16 ∧
      (st.pCurOutData : Int) < ((off + max : Nat) : Int) - 16) := hc
  unfold fastRun
  simp only [fastLoop, if_neg hc', Res.bind_ok]

theorem expand_block_eq_fastRun (MIN : Nat) (inp out : Buf) (off max : Nat) :
    lzsa_expand_block MIN inp out off max = fastRun MIN inp off max ⟨0, off, out⟩ := rfl

/-- From a state the call arrives at, the call does what the loops do from that state. -/
theorem Reach.run {MIN : Nat} {inp out : Buf} {off max : Nat} {ph : Phase} {st : St}
    (h : Reach MIN inp out off max ph st) :
    lzsa_expand_block MIN inp out off max = runFrom MIN inp off max ph st := by
  induction h with
  | init => rfl
  | fastNext st st' _ hc hb ih => rw [ih]; exact fastRun_next hc hb
  | fastBreak st st' _ hc hb ih => rw [ih]; exact fastRun_brk hc hb
  | fastExit st _ hc ih => rw [ih]; exact fastRun_exit hc
  | slowNext st st' _ hp hb ih => rw [ih]; exact slowRun_next hp hb

/-! ## Reading the wire form -/

theorem drop_cons_get {inp : Buf} {p : Nat} {b : Byte} {w : Buf} (h : inp.drop p = b :: w) :
    inp[p]? = some b ∧ p < inp.length ∧ inp.drop (p + 1) = w := by
  have hp : p < inp.length := by
    by_contra hc
    rw [List.drop_eq_nil_of_le (by omega)] at h
    cases h
  rw [List.drop_eq_getElem_cons hp] at h
  injection h with h1 h2
  exact ⟨by rw [List.getElem?_eq_getElem hp, h1], hp, h2⟩

theorem drop_append_get {inp : Buf} {p : Nat} {a w : Buf} (h : inp.drop p = a ++ w) :
    (∀ i, i < a.length → inp[p + i]? = a[i]?) ∧ (p ≤ inp.length → p + a.length ≤ inp.length) ∧
      inp.drop (p + a.length) = w ∧ (inp.drop p).take a.length = a := by
  have hl : (inp.drop p).length = a.length + w.length := by rw [h]; simp
  simp only [List.length_drop] at hl
  refine ⟨fun i hi => ?_, ?_, ?_, ?_⟩
  · rw [← List.getElem?_drop, h, List.getElem?_append_left hi]
  · intro hp; omega
  · rw [← List.drop_drop, h, List.drop_left]
  · rw [h, List.take_left]

theorem CountEnc.extAt {esc field : Nat} {ext : Buf} {n : Nat} {inp : Buf} {p : Nat} {w : Buf}
    (h : CountEnc esc field ext n) (hd : inp.drop p = ext ++ w) :
    ExtAt esc inp p field (p + ext.length) n := by
  obtain ⟨hget, _, _, _⟩ := drop_append_get hd
  rcases h with ⟨h1, rfl, rfl⟩ | ⟨rfl, ⟨b0, h0, rfl, rfl⟩ | ⟨b1, rfl, rfl⟩ | ⟨b1, b2, rfl, rfl⟩⟩
  · exact Or.inl ⟨h1, rfl, rfl⟩
  · have g0 := hget 0 (by simp)
    exact Or.inr ⟨rfl, b0, by simpa using g0, Or.inl ⟨h0, rfl, rfl⟩⟩
  · have g0 := hget 0 (by simp)
    have g1 := hget 1 (by simp)
    exact Or.inr ⟨rfl, 254, by simpa using g0, Or.inr (Or.inl ⟨rfl, b1, by simpa using g1,
      rfl, rfl⟩)⟩
  · have g0 := hget 0 (by simp)
    have g1 := hget 1 (by simp)
    have g2 := hget 2 (by simp)
    exact Or.inr ⟨rfl, 255, by simpa using g0, Or.inr (Or.inr ⟨rfl, b1, b2, by simpa using g1,
      by simpa using g2, rfl, rfl⟩)⟩

theorem OffEnc.read {tok : Byte} {offb : Buf} {d : Nat} {inp : Buf} {p : Nat} {w : Buf}
    (h : OffEnc tok offb d) (hd : inp.drop p = offb ++ w) (o : Buf) :
    readMatchOffset inp tok.val p o = Res.ok (p + offb.length, some d) ∧ p < inp.length ∧
      1 ≤ d := by
  obtain ⟨hget, _, _, _⟩ := drop_append_get hd
  unfold readMatchOffset
  rcases h with ⟨hf, b, rfl, rfl⟩ | ⟨hf, lo, hi, rfl, rfl, hnz⟩
  · have g0 := hget 0 (by simp)
    simp only [Nat.add_zero, List.getElem?_cons_zero] at g0
    have hp : p < inp.length := (List.getElem?_eq_some.1 g0).1
    have hf' : ¬ (tok.val &&& 0x01 ≠ 0) := by simp [hf]
    simp only [bind_eq, inByte_of_get g0, Res.bind_ok, pure_eq]
    rw [if_neg hf']
    exact ⟨rfl, hp, by omega⟩
  · have g0 := hget 0 (by simp)
    have g1 := hget 1 (by simp)
    simp only [Nat.add_zero, List.getElem?_cons_zero] at g0
    simp only [List.getElem?_cons_succ, List.getElem?_cons_zero] at g1
    have hp : p < inp.length := (List.getElem?_eq_some.1 g0).1
    have hp1 : p + 1 < inp.length := (List.getElem?_eq_some.1 g1).1
    rw [← lor_shift8 _ _ lo.isLt] at hnz ⊢
    simp only [bind_eq, inByte_of_get g0, Res.bind_ok, pure_eq]
    rw [if_pos hf, if_neg (by omega)]
    simp only [inByte_of_get g1, Res.bind_ok]
    rw [if_neg hnz]
    exact ⟨rfl, hp, by omega⟩

theorem sentinel_read {tok : Byte} {inp : Buf} {p : Nat} {w : Buf}
    (hf : tok.val &&& 0x01 ≠ 0) (hd : inp.drop p = ([0, 0] : Buf) ++ w) (o : Buf) :
    readMatchOffset inp tok.val p o = Res.ok (p + 2, none) ∧ p < inp.length := by
  obtain ⟨hget, _, _, _⟩ := drop_append_get hd
  unfold readMatchOffset
  have g0 := hget 0 (by simp)
  have g1 := hget 1 (by simp)
  simp only [Nat.add_zero, List.getElem?_cons_zero] at g0
  simp only [List.getElem?_cons_succ, List.getElem?_cons_zero] at g1
  have hp : p < inp.length := (List.getElem?_eq_some.1 g0).1
  have hp1 : p + 1 < inp.length := (List.getElem?_eq_some.1 g1).1
  simp only [bind_eq, inByte_of_get g0, Res.bind_ok, pure_eq]
  rw [if_pos hf, if_neg (by omega)]
  simp only [inByte_of_get g1, Res.bind_ok]
  exact ⟨rfl, hp⟩

/-! ## The reference match copy -/

theorem copyMatch_length (d n : Nat) : ∀ buf : Buf, (copyMatch buf d n).length = buf.length + n := by
  induction n with
  | zero => intro buf; rfl
  | succ n ih => intro buf; simp only [copyMatch, ih, List.length_append, List.length_singleton]; omega

theorem copyMatch_get_lt (d n : Nat) : ∀ (buf : Buf) (i : Nat), i < buf.length →
    (copyMatch buf d n)[i]? = buf[i]? := by
  induction n with
  | zero => intro buf i _; rfl
  | succ n ih =>
    intro buf i hi
    simp only [copyMatch]
    rw [ih _ i (by simp; omega), List.getElem?_append_left hi]

theorem copyMatch_get_rec (d n : Nat) (hd : 1 ≤ d) : ∀ (buf : Buf) (i : Nat), d ≤ buf.length →
    buf.length ≤ i → i < buf.length + n →
    (copyMatch buf d n)[i]? = (copyMatch buf d n)[i - d]? := by
  induction n with
  | zero => intro buf i _ h1 h2; omega
  | succ n ih =>
    intro buf i hdl h1 h2
    simp only [copyMatch]
    by_cases hi : i = buf.length
    · subst hi
      have hsrc : buf.length - d < buf.length := by omega
      rw [copyMatch_get_lt d n _ buf.length (by simp),
        copyMatch_get_lt d n _ (buf.length - d) (by simp; omega),
        List.getElem?_append_right (le_refl _), List.getElem?_append_left hsrc]
      simp [List.getD_eq_getElem?_getD, List.getElem?_eq_getElem hsrc]
    · exact ih _ i (by simp; omega) (by simp; omega) (by simp; omega)

/-! ## States that hold reference bytes -/

theorem Holds.lits {ref : Buf} {p c : Nat} {out : Buf} (h : Holds ref ⟨p, c, out⟩) (lits : Buf)
    (p' : Nat) (hroom : c + lits.length ≤ out.length) :
    Holds (ref ++ lits) ⟨p', c + lits.length, splice out c lits⟩ := by
  obtain ⟨hc, hget⟩ := h
  simp only [] at hc hget
  refine ⟨by simp [hc], fun i hi => ?_⟩
  simp only [List.length_append] at hi
  show (splice out c lits)[i]? = (ref ++ lits)[i]?
  rw [splice_get out c lits hroom]
  by_cases hic : i < c
  · rw [if_pos hic, hget i (by omega), List.getElem?_append_left (by omega)]
  · rw [if_neg hic, if_pos (by omega), List.getElem?_append_right (by omega), hc]

theorem Holds.copy {ref : Buf} {p c : Nat} {o1 o2 : Buf} {d n hi : Nat}
    (h : Holds ref ⟨p, c, o1⟩) (hm : MatchPost o1 c d n hi o2) (hd : 1 ≤ d) (hdc : d ≤ c)
    (p' : Nat) : Holds (copyMatch ref d n) ⟨p', c + n, o2⟩ := by
  obtain ⟨hc, hget⟩ := h
  simp only [] at hc hget
  refine ⟨by simp [hc, copyMatch_length], ?_⟩
  rw [copyMatch_length]
  intro i
  show i < ref.length + n → o2[i]? = (copyMatch ref d n)[i]?
  induction i using Nat.strongRecOn with
  | _ i ih =>
    intro hi2
    by_cases hic : i < c
    · rw [hm.2.1 i hic, hget i (by omega), copyMatch_get_lt d n ref i (by omega)]
    · rw [hm.2.2.2 i (by omega) (by omega),
        copyMatch_get_rec d n hd ref i (by omega) (by omega) hi2]
      exact ih (i - d) (by omega) (by omega)

theorem Holds.of_same {ref : Buf} {s t : St} (h : Holds ref s) (hst : s.Same t) : Holds ref t := by
  obtain ⟨hc, hget⟩ := h
  obtain ⟨_, h2, h3⟩ := hst
  exact ⟨by rw [h2, hc], fun i hi => by rw [← h3.2 i (by omega), hget i hi]⟩

/-! ## Overflow of the writable region -/

theorem literals_slow_overflow {inp : Buf} {p L p' n : Nat} (out : Buf) (c oend : Nat)
    (h : ExtAt LITERALS_RUN_LEN inp p L p' n) (hc : c ≤ oend) (hout : oend < c + n) :
    lzsa_expand_literals_slow inp p L out c oend = Res.fail out := by
  rw [literals_slow_eq, extCount_of_extAt out h]
  simp only [Res.bind_ok]
  rw [if_pos (by omega), if_pos (Or.inr hout)]

theorem match_slow_overflow (MIN : Nat) {inp : Buf} {p M p' n : Nat} (out : Buf) (pSrc : Int)
    (c oend : Nat) (ofe : Int) (h : ExtAt MATCH_RUN_LEN inp p M p' n)
    (hout : oend < c + (n + MIN)) :
    lzsa_expand_match_slow MIN inp p pSrc M out c oend ofe = Res.fail out := by
  rw [match_slow_eq, extCount_of_extAt out h]
  simp only [Res.bind_ok]
  unfold matchRest
  rw [if_pos hout]

/-! ## One iteration of the slow loop on the wire form of a command -/

/-- The literals of a command, read by the slow literal copy. -/
theorem slow_literals_wire {inp : Buf} {p : Nat} {tok : Byte} {ext lits w : Buf} {ref : Buf}
    {c : Nat} {out : Buf} (oend : Nat)
    (hd : inp.drop p = tok :: (ext ++ (lits ++ w)))
    (hcnt : CountEnc LITERALS_RUN_LEN (litField tok) ext lits.length)
    (hh : Holds ref ⟨p, c, out⟩) (hlen : oend ≤ out.length) (hc : ref.length ≤ oend) :
    inByte inp p = Res.ok tok.val ∧
    (ref.length + lits.length ≤ oend →
      ∃ p1, lzsa_expand_literals_slow inp (p + 1) ((tok.val &&& 0xe0) >>> 5) out c oend
          = Res.ok (p1, c + lits.length, splice out c lits) ∧
        inp.drop p1 = w ∧ p1 ≤ inp.length ∧
        Holds (ref ++ lits) ⟨p1, c + lits.length, splice out c lits⟩ ∧
        (splice out c lits).length = out.length) ∧
    (oend < ref.length + lits.length →
      lzsa_expand_literals_slow inp (p + 1) ((tok.val &&& 0xe0) >>> 5) out c oend
        = Res.fail out) := by
  obtain ⟨hg, hp, hd1⟩ := drop_cons_get hd
  have hext := hcnt.extAt hd1
  obtain ⟨_, hl1, hd2, _⟩ := drop_append_get hd1
  obtain ⟨_, hl2, hd3, hsl⟩ := drop_append_get hd2
  have hcc : c = ref.length := hh.1
  unfold litField at hext
  refine ⟨inByte_of_get hg, fun hfit => ?_, fun hover => ?_⟩
  · have hl2' := hl2 (hl1 (by omega))
    refine ⟨p + 1 + ext.length + lits.length, ?_, hd3, hl2', hh.lits lits _ (by omega),
      splice_length _ _ _ (by omega)⟩
    rw [literals_slow_ok out c oend hext hl2' (by omega) hlen, hsl]
  · exact literals_slow_overflow out c oend hext (by omega) (by omega)

/-- One iteration of the slow loop on a command with a match. When the expansion of the
command fits under `oend`, the iteration ends at its closing brace in a state that holds
the expansion, with the read cursor after the command; otherwise it returns `-1`. -/
theorem slowBody_matched (MIN : Nat) {inp : Buf} {st : St} {tok : Byte}
    {ext lits offb mext w : Buf} {d k : Nat} {ref : Buf} (oend : Nat) (ofe : Int)
    (hd : inp.drop st.pInBlock = tok :: (ext ++ (lits ++ (offb ++ (mext ++ w)))))
    (hcnt : CountEnc LITERALS_RUN_LEN (litField tok) ext lits.length)
    (hoff : OffEnc tok offb d)
    (hmat : CountEnc MATCH_RUN_LEN (matchField tok) mext k)
    (hh : Holds ref st) (hdv : d ≤ ref.length + lits.length)
    (hlen : oend ≤ st.out.length) (hc : ref.length ≤ oend) (hfe : ofe ≤ oend) :
    (ref.length + lits.length + (k + MIN) ≤ oend →
      ∃ st', slowBody MIN inp oend ofe st = Res.ok (Step.next st') ∧
        inp.drop st'.pInBlock = w ∧ st'.pInBlock ≤ inp.length ∧
        Holds (copyMatch (ref ++ lits) d (k + MIN)) st' ∧
        st'.out.length = st.out.length) ∧
    (oend < ref.length + lits.length + (k + MIN) →
      ∃ o, slowBody MIN inp oend ofe st = Res.fail o) := by
  obtain ⟨p, c, out⟩ := st
  simp only [] at hd hlen
  obtain ⟨htok, hfit, hover⟩ := slow_literals_wire oend hd hcnt hh hlen hc
  have hcc : c = ref.length := hh.1
  rw [slowBody_eq]
  simp only [htok, Res.bind_ok]
  by_cases hl : ref.length + lits.length ≤ oend
  · obtain ⟨p1, hlit, hd1, hp1, hh1, hlen1⟩ := hfit hl
    rw [hlit]
    simp only [Res.bind_ok]
    obtain ⟨hrd, hp1lt, hd1'⟩ := hoff.read hd1 (splice out c lits)
    obtain ⟨_, hl2, hd2, _⟩ := drop_append_get hd1
    have hextm := hmat.extAt hd2
    unfold matchField at hextm
    obtain ⟨_, hl3, hd3, _⟩ := drop_append_get hd2
    unfold slowTail
    rw [if_pos hp1lt, hrd]
    simp only [Res.bind_ok]
    have hneg : ¬ (((c + lits.length : Nat) : Int) - (d : Int) < 0) := by omega
    rw [if_neg hneg]
    have hs : ((c + lits.length : Nat) : Int) - (d : Int)
        = ((c + lits.length - d : Nat) : Int) := by omega
    rw [hs]
    refine ⟨fun hfit2 => ?_, fun hover2 => ?_⟩
    · obtain ⟨o2, hrun, hpost⟩ := match_slow_ok MIN (splice out c lits) (c + lits.length - d)
        (c + lits.length) oend ofe hextm (by omega) (by omega) (by omega) hfe
      rw [hrun]
      simp only [Res.bind_ok]
      have hdd : c + lits.length - (c + lits.length - d) = d := by omega
      rw [hdd] at hpost
      exact ⟨_, rfl, hd3, hl3 (hl2 hp1), hh1.copy hpost hd1' (by omega) _,
        by show o2.length = out.length; rw [hpost.1, hlen1]⟩
    · rw [match_slow_overflow MIN _ _ _ oend ofe hextm (by omega)]
      exact ⟨_, rfl⟩
  · rw [hover (by omega)]
    exact ⟨fun h => by omega, fun _ => ⟨_, rfl⟩⟩

/-- One iteration of the slow loop on a last command that ends the input after its
literals. -/
theorem slowBody_last (MIN : Nat) {inp : Buf} {st : St} {tok : Byte} {ext lits : Buf}
    {ref : Buf} (oend : Nat) (ofe : Int)
    (hd : inp.drop st.pInBlock = tok :: (ext ++ lits))
    (hcnt : CountEnc LITERALS_RUN_LEN (litField tok) ext lits.length)
    (hh : Holds ref st) (hlen : oend ≤ st.out.length) (hc : ref.length ≤ oend) :
    (ref.length + lits.length ≤ oend →
      ∃ st', slowBody MIN inp oend ofe st = Res.ok (Step.next st') ∧
        inp.length ≤ st'.pInBlock ∧ Holds (ref ++ lits) st' ∧
        st'.out.length = st.out.length) ∧
    (oend < ref.length + lits.length → ∃ o, slowBody MIN inp oend ofe st = Res.fail o) := by
  obtain ⟨p, c, out⟩ := st
  simp only [] at hd hlen
  have hd' : inp.drop p = tok :: (ext ++ (lits ++ [])) := by rw [List.append_nil]; exact hd
  obtain ⟨htok, hfit, hover⟩ := slow_literals_wire oend hd' hcnt hh hlen hc
  rw [slowBody_eq]
  simp only [htok, Res.bind_ok]
  refine ⟨fun hl => ?_, fun hl => ?_⟩
  · obtain ⟨p1, hlit, hd1, hp1, hh1, hlen1⟩ := hfit hl
    rw [hlit]
    simp only [Res.bind_ok]
    have hend : inp.length ≤ p1 := by
      by_contra hlt
      have := congrArg List.length hd1
      simp at this
      omega
    unfold slowTail
    rw [if_neg (by omega)]
    exact ⟨_, rfl, hend, hh1, hlen1⟩
  · rw [hover hl]
    exact ⟨_, rfl⟩

/-- One iteration of the slow loop on a last command followed by the zero 2-byte offset
that ends the input. -/
theorem slowBody_lastEnd (MIN : Nat) {inp : Buf} {st : St} {tok : Byte} {ext lits : Buf}
    {ref : Buf} (oend : Nat) (ofe : Int)
    (hd : inp.drop st.pInBlock = tok :: (ext ++ (lits ++ [0, 0])))
    (hcnt : CountEnc LITERALS_RUN_LEN (litField tok) ext lits.length)
    (hflag : tok.val &&& 0x01 ≠ 0)
    (hh : Holds ref st) (hlen : oend ≤ st.out.length) (hc : ref.length ≤ oend) :
    (ref.length + lits.length ≤ oend →
      ∃ st', slowBody MIN inp oend ofe st = Res.ok (Step.brk st') ∧
        inp.length ≤ st'.pInBlock ∧ Holds (ref ++ lits) st' ∧
        st'.out.length = st.out.length) ∧
    (oend < ref.length + lits.length → ∃ o, slowBody MIN inp oend ofe st = Res.fail o) := by
  obtain ⟨p, c, out⟩ := st
  simp only [] at hd hlen
  obtain ⟨htok, hfit, hover⟩ := slow_literals_wire oend hd hcnt hh hlen hc
  rw [slowBody_eq]
  simp only [htok, Res.bind_ok]
  refine ⟨fun hl => ?_, fun hl => ?_⟩
  · obtain ⟨p1, hlit, hd1, hp1, hh1, hlen1⟩ := hfit hl
    rw [hlit]
    simp only [Res.bind_ok]
    have hd1' : inp.drop p1 = ([0, 0] : Buf) ++ [] := by rw [List.append_nil]; exact hd1
    obtain ⟨hrd, hp1lt⟩ := sentinel_read hflag hd1' (splice out c lits)
    have hend : inp.length ≤ p1 + 2 := by
      have := congrArg List.length hd1
      simp at this
      omega
    unfold slowTail
    rw [if_pos hp1lt, hrd]
    simp only [Res.bind_ok]
    exact ⟨_, rfl, hend, ⟨hh1.1, hh1.2⟩, hlen1⟩
  · rw [hover hl]
    exact ⟨_, rfl⟩

/-! ## From an iteration of the slow loop to the run of the call -/

theorem Res.Sim.next {s : St} {r : Res Step} (h : (Res.ok (Step.next s)).Sim r) :
    ∃ t, r = Res.ok (Step.next t) ∧ s.Same t := by
  cases r with
  | ok step =>
    cases step with
    | next t => exact ⟨t, rfl, h⟩
    | brk t => exact h.elim
  | fail o => exact h.elim
  | oobIn => exact h.elim
  | oobOut => exact h.elim
  | fuel => exact h.elim

theorem Res.Sim.brk {s : St} {r : Res Step} (h : (Res.ok (Step.brk s)).Sim r) :
    ∃ t, r = Res.ok (Step.brk t) ∧ s.Same t := by
  cases r with
  | ok step =>
    cases step with
    | next t => exact h.elim
    | brk t => exact ⟨t, rfl, h⟩
  | fail o => exact h.elim
  | oobIn => exact h.elim
  | oobOut => exact h.elim
  | fuel => exact h.elim

theorem Res.Sim.failed {o : Buf} {r : Res Step} (h : (Res.fail o : Res Step).Sim r) :
    ∃ o', r = Res.fail o' := by
  cases r with
  | ok step => exact h.elim
  | fail o' => exact ⟨o', rfl⟩
  | oobIn => exact h.elim
  | oobOut => exact h.elim
  | fuel => exact h.elim

theorem St.Same.refl_same (s : St) : s.Same s := ⟨rfl, rfl, Agree.self_agree _ _⟩

/-- The fast-loop body at a state that satisfies the fast-loop condition, against the
slow-loop body, with the bounds of `lzsa_expand_block`. -/
theorem fastBody_sim_block {MIN : Nat} {inp : Buf} {off max : Nat} {st : St}
    (hc : fastCond inp (((off + max : Nat) : Int) - 16) st) (hlen : off + max ≤ st.out.length)
    (hmin : 2 ≤ MIN) :
    (slowBody MIN inp (off + max) (((off + max : Nat) : Int) - 16) st).Sim
      (fastBody MIN inp (off + max) (((off + max : Nat) : Int) - 16) st) :=
  fastBody_sim MIN inp (off + max) _ st hc.1 hc.2 (by omega) hlen hmin

/-- An iteration of the slow loop that would end at its closing brace from a state the call
arrives at: the call arrives at the same state, up to the bytes at and above the write
cursor. -/
theorem Reach.next_of_slow {MIN : Nat} {inp out : Buf} {off max : Nat} {ph : Phase}
    {st s' : St} (hr : Reach MIN inp out off max ph st) (hp : st.pInBlock < inp.length)
    (hlen : off + max ≤ st.out.length) (hmin : 2 ≤ MIN)
    (hb : slowBody MIN inp (off + max) (((off + max : Nat) : Int) - 16) st
      = Res.ok (Step.next s')) :
    ∃ ph' t', Reach MIN inp out off max ph' t' ∧ s'.Same t' := by
  cases ph with
  | slow => exact ⟨Phase.slow, s', Reach.slowNext st s' hr hp hb, St.Same.refl_same s'⟩
  | fast =>
    by_cases hc : fastCond inp (((off + max : Nat) : Int) - 16) st
    · have hsim := @fastBody_sim_block MIN _ _ _ _ hc hlen hmin
      rw [hb] at hsim
      obtain ⟨t', ht, hsame⟩ := hsim.next
      exact ⟨Phase.fast, t', Reach.fastNext st t' hr hc ht, hsame⟩
    · exact ⟨Phase.slow, s', Reach.slowNext st s' (Reach.fastExit st hr hc) hp hb,
        St.Same.refl_same s'⟩

/-- An iteration of the slow loop that would return `-1` from a state the call arrives at:
the call returns `-1`. -/
theorem Reach.fail_of_slow {MIN : Nat} {inp out : Buf} {off max : Nat} {ph : Phase}
    {st : St} {o : Buf} (hr : Reach MIN inp out off max ph st) (hp : st.pInBlock < inp.length)
    (hlen : off + max ≤ st.out.length) (hmin : 2 ≤ MIN)
    (hb : slowBody MIN inp (off + max) (((off + max : Nat) : Int) - 16) st = Res.fail o) :
    ∃ o', lzsa_expand_block MIN inp out off max = Res.fail o' := by
  rw [hr.run]
  cases ph with
  | slow => exact ⟨o, slowRun_fail hp hb⟩
  | fast =>
    by_cases hc : fastCond inp (((off + max : Nat) : Int) - 16) st
    · have hsim := @fastBody_sim_block MIN _ _ _ _ hc hlen hmin
      rw [hb] at hsim
      obtain ⟨o', ho'⟩ := hsim.failed
      exact ⟨o', fastRun_fail hc ho'⟩
    · exact ⟨o, (fastRun_exit hc).trans (slowRun_fail hp hb)⟩

/-- A state the call arrives at with no input left: the call returns the number of bytes
written. -/
theorem Reach.done {MIN : Nat} {inp out : Buf} {off max : Nat} {ph : Phase} {st : St}
    (hr : Reach MIN inp out off max ph st) (hp : inp.length ≤ st.pInBlock) :
    lzsa_expand_block MIN inp out off max
      = Res.ok ((st.pCurOutData : Int) - (off : Int), st.out) := by
  rw [hr.run]
  cases ph with
  | slow => exact slowRun_done (by omega)
  | fast =>
    have hc : ¬ fastCond inp (((off + max : Nat) : Int) - 16) st := by
      intro h; have := h.1; omega
    exact (fastRun_exit hc).trans (slowRun_done (by omega))

/-- An iteration of the slow loop that would end by `break` with no input left, from a
state the call arrives at: the call returns the number of bytes written. -/
theorem Reach.brk_of_slow {MIN : Nat} {inp out : Buf} {off max : Nat} {ph : Phase}
    {st s' : St} (hr : Reach MIN inp out off max ph st) (hp : st.pInBlock < inp.length)
    (hlen : off + max ≤ st.out.length) (hmin : 2 ≤ MIN)
    (hb : slowBody MIN inp (off + max) (((off + max : Nat) : Int) - 16) st
      = Res.ok (Step.brk s'))
    (hend : inp.length ≤ s'.pInBlock) :
    ∃ t', s'.Same t' ∧ lzsa_expand_block MIN inp out off max
      = Res.ok ((t'.pCurOutData : Int) - (off : Int), t'.out) := by
  rw [hr.run]
  cases ph with
  | slow => exact ⟨s', St.Same.refl_same s', slowRun_brk hp hb⟩
  | fast =>
    by_cases hc : fastCond inp (((off + max : Nat) : Int) - 16) st
    · have hsim := @fastBody_sim_block MIN _ _ _ _ hc hlen hmin
      rw [hb] at hsim
      obtain ⟨t', ht, hsame⟩ := hsim.brk
      refine ⟨t', hsame, (fastRun_brk hc ht).trans (slowRun_done ?_)⟩
      rw [hsame.1]; omega
    · exact ⟨s', St.Same.refl_same s', (fastRun_exit hc).trans (slowRun_brk hp hb)⟩

/-! ## The call on the wire form of a command list -/

theorem expandCmd_length_ge (buf : Buf) (c : Cmd) : buf.length ≤ (expandCmd buf c).length := by
  unfold expandCmd
  cases c.mtch with
  | none => simp
  | some m => simp only [copyMatch_length, List.length_append]; omega

theorem expand_length_ge (cs : List Cmd) : ∀ buf : Buf, buf.length ≤ (expand buf cs).length := by
  induction cs with
  | nil => intro buf; exact le_refl _
  | cons c cs ih =>
    intro buf
    exact le_trans (expandCmd_length_ge buf c) (ih (expandCmd buf c))

/-- Outcome of the call from a state it arrives at, which holds the reference bytes `ref`
and has the wire form of the command list `cmds` ahead: when the reference expansion fits
under the writable end, the call returns its length past `off` and leaves it in the buffer;
otherwise the call returns `-1`. -/
theorem wire_run (MIN : Nat) (inp out : Buf) (off max : Nat) (hmin : 2 ≤ MIN) :
    ∀ (cmds : List Cmd) (w : Buf), Wire MIN cmds w →
    ∀ (ph : Phase) (st : St) (ref : Buf), Reach MIN inp out off max ph st →
      inp.drop st.pInBlock = w → Holds ref st → validFrom ref cmds = true →
      off + max ≤ st.out.length → ref.length ≤ off + max →
      ((expand ref cmds).length ≤ off + max →
        ∃ o, lzsa_expand_block MIN inp out off max
            = Res.ok (((expand ref cmds).length : Int) - (off : Int), o) ∧
          o.length = st.out.length ∧
          ∀ i, i < (expand ref cmds).length → o[i]? = (expand ref cmds)[i]?) ∧
      (off + max < (expand ref cmds).length →
        ∃ o, lzsa_expand_block MIN inp out off max = Res.fail o) := by
  intro cmds w hw
  induction hw with
  | nil =>
    intro ph st ref hr hd hh _ hlen hc
    have hend : inp.length ≤ st.pInBlock := by
      have := congrArg List.length hd
      simp at this
      omega
    refine ⟨fun _ => ⟨st.out, ?_, rfl, hh.2⟩, fun h => ?_⟩
    · rw [hr.done hend, hh.1]; rfl
    · exact absurd h (by show ¬ (off + max < ref.length); omega)
  | last tok ext lits hcnt =>
    intro ph st ref hr hd hh _ hlen hc
    obtain ⟨_, hp, _⟩ := drop_cons_get hd
    obtain ⟨hfit, hover⟩ := slowBody_last MIN (off + max) (((off + max : Nat) : Int) - 16)
      hd hcnt hh hlen hc
    have hex : expand ref [⟨lits, none⟩] = ref ++ lits := rfl
    rw [hex, List.length_append]
    refine ⟨fun h => ?_, fun h => ?_⟩
    · obtain ⟨s', hb, hend, hh', hl'⟩ := hfit h
      obtain ⟨ph', t', hr', hsame⟩ := hr.next_of_slow hp hlen hmin hb
      have hht := hh'.of_same hsame
      refine ⟨t'.out, ?_, by rw [← hsame.2.2.1, hl'], ?_⟩
      · rw [hr'.done (by rw [hsame.1]; exact hend), hht.1, List.length_append]
      · intro i hi
        exact hht.2 i (by rw [List.length_append]; exact hi)
    · obtain ⟨o, hb⟩ := hover h
      exact hr.fail_of_slow hp hlen hmin hb
  | lastEnd tok ext lits hcnt hflag =>
    intro ph st ref hr hd hh _ hlen hc
    obtain ⟨_, hp, _⟩ := drop_cons_get hd
    obtain ⟨hfit, hover⟩ := slowBody_lastEnd MIN (off + max) (((off + max : Nat) : Int) - 16)
      hd hcnt hflag hh hlen hc
    have hex : expand ref [⟨lits, none⟩] = ref ++ lits := rfl
    rw [hex, List.length_append]
    refine ⟨fun h => ?_, fun h => ?_⟩
    · obtain ⟨s', hb, hend, hh', hl'⟩ := hfit h
      obtain ⟨t', hsame, hrun⟩ := hr.brk_of_slow hp hlen hmin hb hend
      have hht := hh'.of_same hsame
      refine ⟨t'.out, ?_, by rw [← hsame.2.2.1, hl'], ?_⟩
      · rw [hrun, hht.1, List.length_append]
      · intro i hi
        exact hht.2 i (by rw [List.length_append]; exact hi)
    · obtain ⟨o, hb⟩ := hover h
      exact hr.fail_of_slow hp hlen hmin hb
  | cons tok ext lits offb mext d k cs w hcnt hoff hmat _ ih =>
    intro ph st ref hr hd hh hv hlen hc
    obtain ⟨_, hp, _⟩ := drop_cons_get hd
    have hex : expand ref (⟨lits, some (d, k + MIN)⟩ :: cs)
        = expand (copyMatch (ref ++ lits) d (k + MIN)) cs := rfl
    have hv' : (1 ≤ d ∧ d ≤ (ref ++ lits).length) ∧
        validFrom (copyMatch (ref ++ lits) d (k + MIN)) cs = true := by
      simpa [validFrom, expandCmd] using hv
    obtain ⟨⟨_, hdv⟩, hvcs⟩ := hv'
    rw [List.length_append] at hdv
    obtain ⟨hfit, hover⟩ := slowBody_matched MIN (off + max) (((off + max : Nat) : Int) - 16)
      hd hcnt hoff hmat hh hdv hlen hc (by omega)
    have hlen' : (copyMatch (ref ++ lits) d (k + MIN)).length
        = ref.length + lits.length + (k + MIN) := by
      rw [copyMatch_length, List.length_append]
    have hmono := expand_length_ge cs (copyMatch (ref ++ lits) d (k + MIN))
    rw [hex]
    by_cases hf : ref.length + lits.length + (k + MIN) ≤ off + max
    · obtain ⟨s', hb, hd', _, hh', hl'⟩ := hfit hf
      obtain ⟨ph', t', hr', hsame⟩ := hr.next_of_slow hp hlen hmin hb
      have hres := ih ph' t' _ hr' (by rw [hsame.1]; exact hd') (hh'.of_same hsame) hvcs
        (by rw [← hsame.2.2.1, hl']; exact hlen) (by rw [hlen']; exact hf)
      rw [← hsame.2.2.1, hl'] at hres
      exact hres
    · obtain ⟨o, hb⟩ := hover (by omega)
      exact ⟨fun h => by omega, fun _ => hr.fail_of_slow hp hlen hmin hb⟩

/-! ## States the call arrives at -/

theorem OffAt.read_ok {inp : Buf} {tok : Byte} {p p' d : Nat} (h : OffAt inp tok p p' d)
    (o : Buf) :
    readMatchOffset inp tok.val p o = Res.ok (p', some d) ∧ p < inp.length ∧ 1 ≤ d := by
  unfold readMatchOffset
  rcases h with ⟨hf, b, g0, rfl, rfl⟩ | ⟨hf, lo, hi, g0, g1, rfl, rfl, hnz⟩
  · have hp : p < inp.length := (List.getElem?_eq_some.1 g0).1
    have hf' : ¬ (tok.val &&& 0x01 ≠ 0) := by simp [hf]
    simp only [bind_eq, inByte_of_get g0, Res.bind_ok, pure_eq]
    rw [if_neg hf']
    exact ⟨rfl, hp, by omega⟩
  · have hp : p < inp.length := (List.getElem?_eq_some.1 g0).1
    have hp1 : p + 1 < inp.length := (List.getElem?_eq_some.1 g1).1
    rw [← lor_shift8 _ _ lo.isLt] at hnz ⊢
    simp only [bind_eq, inByte_of_get g0, Res.bind_ok, pure_eq]
    rw [if_pos hf, if_neg (by omega)]
    simp only [inByte_of_get g1, Res.bind_ok]
    rw [if_neg hnz]
    exact ⟨rfl, hp, by omega⟩

/-- Every state the call arrives at satisfies the output-side loop invariant, and its read
cursor is inside the input. -/
theorem Reach.inv {MIN : Nat} {inp out : Buf} {off max : Nat} {ph : Phase} {st : St}
    (h : Reach MIN inp out off max ph st) :
    OutInv out off (off + max) st ∧ st.pInBlock ≤ inp.length := by
  induction h with
  | init =>
    exact ⟨fun _ => ⟨le_refl _, by show off ≤ off + max; omega, Frame.self_frame _ _ _⟩,
      Nat.zero_le _⟩
  | fastNext st st' _ hc hb ih =>
    have hp := fastBody_post MIN inp (off + max) (((off + max : Nat) : Int) - 16) st hc.1 hc.2
      (by omega)
    rw [hb] at hp
    exact ⟨ih.1.step hp, hp.2.1⟩
  | fastBreak st st' _ hc hb ih =>
    have hp := fastBody_post MIN inp (off + max) (((off + max : Nat) : Int) - 16) st hc.1 hc.2
      (by omega)
    rw [hb] at hp
    exact ⟨ih.1.step hp, hp.2.1⟩
  | fastExit st _ hc ih => exact ih
  | slowNext st st' _ hp0 hb ih =>
    have hp := slowBody_post MIN inp (off + max) (((off + max : Nat) : Int) - 16) st hp0
      (by omega)
    rw [hb] at hp
    exact ⟨ih.1.step hp, hp.2.1⟩

/-- At a state the call arrives at, in a buffer that holds the history and the writable
region, the buffer has the length it had at call entry and the write cursor lies between
the start and the end of the writable region. -/
theorem Reach.cursor_bounds {MIN : Nat} {inp out : Buf} {off max : Nat} {ph : Phase} {st : St}
    (h : Reach MIN inp out off max ph st) (hbuf : off + max ≤ out.length) :
    st.out.length = out.length ∧ off ≤ st.pCurOutData ∧ st.pCurOutData ≤ off + max ∧
      st.pInBlock ≤ inp.length := by
  obtain ⟨h1, h2⟩ := h.inv
  obtain ⟨h3, h4, h5⟩ := h1 hbuf
  exact ⟨h5.1, h3, h4, h2⟩

/-- When the iteration that starts at a state the call arrives at returns `-1`, in the
slow loop and, under the fast-loop condition, in the fast loop, the call returns `-1`. -/
theorem Reach.fail_of_bodies {MIN : Nat} {inp out : Buf} {off max : Nat} {ph : Phase}
    {st : St} (hr : Reach MIN inp out off max ph st) (hp : st.pInBlock < inp.length)
    (hs : ∃ o, slowBody MIN inp (off + max) (((off + max : Nat) : Int) - 16) st = Res.fail o)
    (hf : fastCond inp (((off + max : Nat) : Int) - 16) st →
      ∃ o, fastBody MIN inp (off + max) (((off + max : Nat) : Int) - 16) st = Res.fail o) :
    ∃ o, lzsa_expand_block MIN inp out off max = Res.fail o := by
  rw [hr.run]
  obtain ⟨o, hs⟩ := hs
  cases ph with
  | slow => exact ⟨o, slowRun_fail hp hs⟩
  | fast =>
    by_cases hc : fastCond inp (((off + max : Nat) : Int) - 16) st
    · obtain ⟨o', hf⟩ := hf hc
      exact ⟨o', fastRun_fail hc hf⟩
    · exact ⟨o, (fastRun_exit hc).trans (slowRun_fail hp hs)⟩

/-- The literals of the fast loop body, for a token whose count resolves to `n` with the
literal bytes inside the input and room for them: the cursors advance by the literals. -/
theorem fast_literals_ok {inp : Buf} {st : St} {tok : Byte} {p' n : Nat} (oend : Nat)
    (ofe : Int) (hc : fastCond inp ofe st) (hfe : ofe + 16 ≤ oend)
    (hext : ExtAt LITERALS_RUN_LEN inp (st.pInBlock + 1) ((tok.val &&& 0xe0) >>> 5) p' n)
    (hin : p' + n ≤ inp.length) (hroom : st.pCurOutData + n ≤ oend)
    (hlen : oend ≤ st.out.length) :
    ∃ o, (if (tok.val &&& 0xe0) >>> 5 < LITERALS_RUN_LEN then
          (memcpyIn inp (st.pInBlock + 1) st.out st.pCurOutData 8).bind (fun o =>
            Res.ok (st.pInBlock + 1 + (tok.val &&& 0xe0) >>> 5,
              st.pCurOutData + (tok.val &&& 0xe0) >>> 5, o))
        else lzsa_expand_literals_slow inp (st.pInBlock + 1) ((tok.val &&& 0xe0) >>> 5) st.out
            st.pCurOutData oend) = Res.ok (p' + n, st.pCurOutData + n, o) ∧
      Agree (st.pCurOutData + n) (splice st.out st.pCurOutData ((inp.drop p').take n)) o := by
  have h1 := hc.1
  have h2 := hc.2
  by_cases hL : (tok.val &&& 0xe0) >>> 5 < LITERALS_RUN_LEN
  · rw [if_pos hL]
    have hL7 : (tok.val &&& 0xe0) >>> 5 < 7 := hL
    rcases hext with ⟨_, rfl, rfl⟩ | ⟨he, _⟩
    · rw [memcpyIn_ok inp (st.pInBlock + 1) st.out st.pCurOutData 8 (by omega) (by omega)]
      refine ⟨_, rfl, ?_⟩
      have hl1 := slice_length inp (st.pInBlock + 1) ((tok.val &&& 0xe0) >>> 5) (by omega)
      have hl2 := slice_length inp (st.pInBlock + 1) 8 (by omega)
      have hg1 := splice_get st.out st.pCurOutData _ (by rw [hl1]; omega)
      have hg2 := splice_get st.out st.pCurOutData _ (by rw [hl2]; omega)
      rw [hl1] at hg1
      rw [hl2] at hg2
      refine ⟨?_, fun i hi => ?_⟩
      · rw [splice_length _ _ _ (by rw [hl1]; omega),
          splice_length _ _ _ (by rw [hl2]; omega)]
      · rw [hg1, hg2]
        by_cases hic : i < st.pCurOutData
        · rw [if_pos hic, if_pos hic]
        · rw [if_neg hic, if_neg hic, if_pos hi, if_pos (by omega), slice_get, slice_get,
            if_pos (by omega), if_pos (by omega)]
    · exact absurd he (Nat.ne_of_lt hL)
  · rw [if_neg hL]
    exact ⟨_, literals_slow_ok st.out st.pCurOutData oend hext hin hroom hlen,
      Agree.self_agree _ _⟩

theorem slowTail_offset (MIN : Nat) {inp : Buf} {tok : Byte} {p p2 d : Nat} (oend : Nat)
    (ofe : Int) (c : Nat) (o : Buf) (hoff : OffAt inp tok p p2 d) :
    slowTail MIN inp oend ofe tok.val p c o =
      if (c : Int) - (d : Int) < 0 then Res.fail o
      else (lzsa_expand_match_slow MIN inp p2 ((c : Int) - (d : Int))
          ((tok.val &&& 0x1e) >>> 1) o c oend ofe).bind (fun m =>
            Res.ok (Step.next ⟨m.1, m.2.1, m.2.2⟩)) := by
  obtain ⟨hrd, hp, _⟩ := hoff.read_ok o
  unfold slowTail
  rw [if_pos hp, hrd]
  rfl

theorem fastTail_offset (MIN : Nat) {inp : Buf} {tok : Byte} {p p2 d : Nat} (oend : Nat)
    (ofe : Int) (c : Nat) (o : Buf) (hoff : OffAt inp tok p p2 d) :
    fastTail MIN inp oend ofe tok.val p c o =
      if (c : Int) - (d : Int) < 0 then Res.fail o
      else if (((tok.val &&& 0x1e) >>> 1 : Nat) : Int) < 16 - (MIN : Int) + 1
          ∧ (c : Int) - (d : Int) + MIN + (((tok.val &&& 0x1e) >>> 1 : Nat) : Int) < c
          ∧ (c : Int) < ofe then
        (memcpyOut o c ((c : Int) - (d : Int)) 16).bind (fun o' =>
          Res.ok (Step.next ⟨p2, c + (MIN + (tok.val &&& 0x1e) >>> 1), o'⟩))
      else (lzsa_expand_match_slow MIN inp p2 ((c : Int) - (d : Int))
          ((tok.val &&& 0x1e) >>> 1) o c oend ofe).bind (fun m =>
            Res.ok (Step.next ⟨m.1, m.2.1, m.2.2⟩)) := by
  obtain ⟨hrd, hp, _⟩ := hoff.read_ok o
  unfold fastTail
  rw [if_pos hp, hrd]
  rfl

/-! ## Input that ends where a byte is required -/

theorem ExtCut.fail {esc : Nat} {inp : Buf} {p field : Nat} (h : ExtCut esc inp p field)
    (out : Buf) : extCount esc inp p field out = Res.fail out := by
  obtain ⟨rfl, h⟩ := h
  unfold extCount
  rw [if_pos rfl]
  rcases h with h | ⟨b0, hb0, h⟩
  · rw [if_pos h]
  · have hp : p < inp.length := (List.getElem?_eq_some.1 hb0).1
    rw [if_neg (by omega)]
    simp only [bind_eq, inByte_of_get hb0, Res.bind_ok]
    rcases h with ⟨h254, hl⟩ | ⟨h255, hl⟩
    · rw [if_pos h254, if_pos hl]
    · rw [if_neg (by omega), if_pos h255, if_pos (by omega)]

theorem literals_slow_cut {inp : Buf} {p L : Nat} (out : Buf) (c oend : Nat)
    (h : ExtCut LITERALS_RUN_LEN inp p L) :
    lzsa_expand_literals_slow inp p L out c oend = Res.fail out := by
  rw [literals_slow_eq, h.fail out]
  rfl

theorem literals_slow_short {inp : Buf} {p L p' n : Nat} (out : Buf) (c oend : Nat)
    (h : ExtAt LITERALS_RUN_LEN inp p L p' n) (hshort : inp.length < p' + n)
    (hp : p ≤ inp.length) :
    lzsa_expand_literals_slow inp p L out c oend = Res.fail out := by
  rw [literals_slow_eq, extCount_of_extAt out h]
  simp only [Res.bind_ok]
  have := h.bounds
  rw [if_pos (by omega), if_pos (Or.inl hshort)]

theorem match_slow_cut (MIN : Nat) {inp : Buf} {p M : Nat} (out : Buf) (pSrc : Int)
    (c oend : Nat) (ofe : Int) (h : ExtCut MATCH_RUN_LEN inp p M) :
    lzsa_expand_match_slow MIN inp p pSrc M out c oend ofe = Res.fail out := by
  rw [match_slow_eq, h.fail out]
  rfl

theorem readMatchOffset_cut {inp : Buf} {tok : Byte} {p : Nat} (o : Buf)
    (hflag : tok.val &&& 0x01 ≠ 0) (hp : p < inp.length) (hend : inp.length ≤ p + 1) :
    readMatchOffset inp tok.val p o = Res.fail o := by
  unfold readMatchOffset
  have hb : inp[p]? = some inp[p] := List.getElem?_eq_getElem hp
  simp only [bind_eq, inByte_of_get hb, Res.bind_ok]
  rw [if_pos hflag, if_pos hend]

/-- The literal count of the token at a state the call arrives at needs an extension byte
that the input does not hold: the call returns `-1`. -/
theorem Reach.fail_lit_ext {MIN : Nat} {inp out : Buf} {off max : Nat} {ph : Phase}
    {st : St} (hr : Reach MIN inp out off max ph st) {tok : Byte}
    (htok : inp[st.pInBlock]? = some tok)
    (hcut : ExtCut LITERALS_RUN_LEN inp (st.pInBlock + 1) (litField tok)) :
    ∃ o, lzsa_expand_block MIN inp out off max = Res.fail o := by
  have hp : st.pInBlock < inp.length := (List.getElem?_eq_some.1 htok).1
  unfold litField at hcut
  refine hr.fail_of_bodies hp ?_ (fun _ => ?_)
  · rw [slowBody_eq]
    simp only [inByte_of_get htok, Res.bind_ok]
    rw [literals_slow_cut _ _ _ hcut]
    exact ⟨_, rfl⟩
  · rw [fastBody_eq]
    simp only [inByte_of_get htok, Res.bind_ok]
    rw [if_neg (by rw [hcut.1]; exact Nat.lt_irrefl _), literals_slow_cut _ _ _ hcut]
    exact ⟨_, rfl⟩

/-- The literal run of the token at a state the call arrives at is longer than the input
that is left: the call returns `-1`. -/
theorem Reach.fail_lit_run {MIN : Nat} {inp out : Buf} {off max : Nat} {ph : Phase}
    {st : St} (hr : Reach MIN inp out off max ph st) {tok : Byte} {p' n : Nat}
    (htok : inp[st.pInBlock]? = some tok)
    (hext : ExtAt LITERALS_RUN_LEN inp (st.pInBlock + 1) (litField tok) p' n)
    (hshort : inp.length < p' + n) :
    ∃ o, lzsa_expand_block MIN inp out off max = Res.fail o := by
  have hp : st.pInBlock < inp.length := (List.getElem?_eq_some.1 htok).1
  unfold litField at hext
  refine hr.fail_of_bodies hp ?_ (fun hc => ?_)
  · rw [slowBody_eq]
    simp only [inByte_of_get htok, Res.bind_ok]
    rw [literals_slow_short _ _ _ hext hshort (by omega)]
    exact ⟨_, rfl⟩
  · rw [fastBody_eq]
    simp only [inByte_of_get htok, Res.bind_ok]
    by_cases hL : (tok.val &&& 0xe0) >>> 5 < LITERALS_RUN_LEN
    · exfalso
      have hL7 : (tok.val &&& 0xe0) >>> 5 < 7 := hL
      have h1 := hc.1
      rcases hext with ⟨_, rfl, rfl⟩ | ⟨he, _⟩
      · omega
      · exact absurd he (Nat.ne_of_lt hL)
    · rw [if_neg hL, literals_slow_short _ _ _ hext hshort (by omega)]
      exact ⟨_, rfl⟩

/-- After the literals of the token at a state the call arrives at, the offset-width flag
asks for two offset bytes and the input holds one: the call returns `-1`. -/
theorem Reach.fail_offset {MIN : Nat} {inp out : Buf} {off max : Nat} {ph : Phase}
    {st : St} (hr : Reach MIN inp out off max ph st) (hbuf : off + max ≤ out.length)
    {tok : Byte} {p' n : Nat}
    (htok : inp[st.pInBlock]? = some tok)
    (hext : ExtAt LITERALS_RUN_LEN inp (st.pInBlock + 1) (litField tok) p' n)
    (hflag : tok.val &&& 0x01 ≠ 0) (hend : inp.length = p' + n + 1) :
    ∃ o, lzsa_expand_block MIN inp out off max = Res.fail o := by
  obtain ⟨hlen, _, hcmax, _⟩ := hr.cursor_bounds hbuf
  have hp : st.pInBlock < inp.length := (List.getElem?_eq_some.1 htok).1
  unfold litField at hext
  by_cases hroom : st.pCurOutData + n ≤ off + max
  · refine hr.fail_of_bodies hp ?_ (fun hc => ?_)
    · rw [slowBody_eq]
      simp only [inByte_of_get htok, Res.bind_ok]
      rw [literals_slow_ok st.out st.pCurOutData _ hext (by omega) hroom
        (by rw [hlen]; exact hbuf)]
      simp only [Res.bind_ok]
      unfold slowTail
      rw [if_pos (by omega), readMatchOffset_cut _ hflag (by omega) (by omega)]
      exact ⟨_, rfl⟩
    · rw [fastBody_eq]
      simp only [inByte_of_get htok, Res.bind_ok]
      obtain ⟨o, hlit, _⟩ := fast_literals_ok (off + max) _ hc (by omega) hext (by omega)
        hroom (by rw [hlen]; exact hbuf)
      rw [hlit]
      simp only [Res.bind_ok]
      unfold fastTail
      rw [if_pos (by omega), readMatchOffset_cut _ hflag (by omega) (by omega)]
      exact ⟨_, rfl⟩
  · refine hr.fail_of_bodies hp ?_ (fun hc => ?_)
    · rw [slowBody_eq]
      simp only [inByte_of_get htok, Res.bind_ok]
      rw [literals_slow_overflow st.out st.pCurOutData _ hext hcmax (by omega)]
      exact ⟨_, rfl⟩
    · rw [fastBody_eq]
      simp only [inByte_of_get htok, Res.bind_ok]
      by_cases hL : (tok.val &&& 0xe0) >>> 5 < LITERALS_RUN_LEN
      · exfalso
        have hL7 : (tok.val &&& 0xe0) >>> 5 < 7 := hL
        have h2 := hc.2
        rcases hext with ⟨_, rfl, rfl⟩ | ⟨he, _⟩
        · omega
        · exact absurd he (Nat.ne_of_lt hL)
      · rw [if_neg hL, literals_slow_overflow st.out st.pCurOutData _ hext hcmax (by omega)]
        exact ⟨_, rfl⟩

/-- After the literals and the offset of the token at a state the call arrives at, the
match length needs an extension byte that the input does not hold: the call returns
`-1`. -/
theorem Reach.fail_match_ext {MIN : Nat} {inp out : Buf} {off max : Nat} {ph : Phase}
    {st : St} (hr : Reach MIN inp out off max ph st) (hbuf : off + max ≤ out.length)
    (hmin : 2 ≤ MIN) {tok : Byte} {p' n p2 d : Nat}
    (htok : inp[st.pInBlock]? = some tok)
    (hext : ExtAt LITERALS_RUN_LEN inp (st.pInBlock + 1) (litField tok) p' n)
    (hin : p' + n ≤ inp.length)
    (hoff : OffAt inp tok (p' + n) p2 d)
    (hcut : ExtCut MATCH_RUN_LEN inp p2 (matchField tok)) :
    ∃ o, lzsa_expand_block MIN inp out off max = Res.fail o := by
  obtain ⟨hlen, _, hcmax, _⟩ := hr.cursor_bounds hbuf
  have hp : st.pInBlock < inp.length := (List.getElem?_eq_some.1 htok).1
  unfold litField at hext
  unfold matchField at hcut
  by_cases hroom : st.pCurOutData + n ≤ off + max
  · refine hr.fail_of_bodies hp ?_ (fun hc => ?_)
    · rw [slowBody_eq]
      simp only [inByte_of_get htok, Res.bind_ok]
      rw [literals_slow_ok st.out st.pCurOutData _ hext (by omega) hroom
        (by rw [hlen]; exact hbuf)]
      simp only [Res.bind_ok]
      rw [slowTail_offset MIN _ _ _ _ hoff]
      split_ifs
      · exact ⟨_, rfl⟩
      · rw [match_slow_cut MIN _ _ _ _ _ hcut]
        exact ⟨_, rfl⟩
    · rw [fastBody_eq]
      simp only [inByte_of_get htok, Res.bind_ok]
      obtain ⟨o, hlit, _⟩ := fast_literals_ok (off + max) _ hc (by omega) hext (by omega)
        hroom (by rw [hlen]; exact hbuf)
      rw [hlit]
      simp only [Res.bind_ok]
      rw [fastTail_offset MIN _ _ _ _ hoff]
      have hM := hcut.1
      unfold MATCH_RUN_LEN at hM
      split_ifs with h1 h2
      · exact ⟨_, rfl⟩
      · exfalso
        have := h2.1
        omega
      · rw [match_slow_cut MIN _ _ _ _ _ hcut]
        exact ⟨_, rfl⟩
  · refine hr.fail_of_bodies hp ?_ (fun hc => ?_)
    · rw [slowBody_eq]
      simp only [inByte_of_get htok, Res.bind_ok]
      rw [literals_slow_overflow st.out st.pCurOutData _ hext hcmax (by omega)]
      exact ⟨_, rfl⟩
    · rw [fastBody_eq]
      simp only [inByte_of_get htok, Res.bind_ok]
      by_cases hL : (tok.val &&& 0xe0) >>> 5 < LITERALS_RUN_LEN
      · exfalso
        have hL7 : (tok.val &&& 0xe0) >>> 5 < 7 := hL
        have h2 := hc.2
        rcases hext with ⟨_, rfl, rfl⟩ | ⟨he, _⟩
        · omega
        · exact absurd he (Nat.ne_of_lt hL)
      · rw [if_neg hL, literals_slow_overflow st.out st.pCurOutData _ hext hcmax (by omega)]
        exact ⟨_, rfl⟩

/-! ## Prefixes of the wire form -/

theorem drop_length_eq {inp : Buf} {p : Nat} {l : Buf} (h : inp.drop p = l) :
    inp.length - p = l.length := by
  rw [← h, List.length_drop]

theorem take_append_cases (a b : Buf) (k : Nat) :
    (k < a.length ∧ (a ++ b).take k = a.take k) ∨
      (a.length ≤ k ∧ (a ++ b).take k = a ++ b.take (k - a.length)) := by
  by_cases h : k < a.length
  · left
    refine ⟨h, ?_⟩
    rw [List.take_append_eq_append_take]
    have : k - a.length = 0 := by omega
    simp [this]
  · right
    refine ⟨by omega, ?_⟩
    rw [List.take_append_eq_append_take, List.take_of_length_le (by omega)]

theorem CountEnc.cut {esc field : Nat} {ext : Buf} {n : Nat} {inp : Buf} {p k : Nat}
    (h : CountEnc esc field ext n) (hk : k < ext.length) (hd : inp.drop p = ext.take k) :
    ExtCut esc inp p field := by
  have hl := drop_length_eq hd
  rcases h with ⟨_, rfl, _⟩ | ⟨rfl, ⟨b0, _, rfl, _⟩ | ⟨b1, rfl, _⟩ | ⟨b1, b2, rfl, _⟩⟩
  · simp at hk
  · simp only [List.length_singleton] at hk
    obtain rfl : k = 0 := by omega
    simp at hl
    exact ⟨rfl, Or.inl (by omega)⟩
  · simp only [List.length_cons, List.length_nil] at hk
    rcases Nat.eq_zero_or_pos k with rfl | hk0
    · simp at hl
      exact ⟨rfl, Or.inl (by omega)⟩
    · obtain rfl : k = 1 := by omega
      have hd' : inp.drop p = ([254] : Buf) ++ [] := by simpa using hd
      obtain ⟨hg, _, _, _⟩ := drop_append_get hd'
      have g0 := hg 0 (by simp)
      simp at hl
      exact ⟨rfl, Or.inr ⟨254, by simpa using g0, Or.inl ⟨rfl, by omega⟩⟩⟩
  · simp only [List.length_cons, List.length_nil] at hk
    rcases Nat.eq_zero_or_pos k with rfl | hk0
    · simp at hl
      exact ⟨rfl, Or.inl (by omega)⟩
    · have hd' : inp.drop p = ([255] : Buf) ++ ([b1, b2] : Buf).take (k - 1) := by
        obtain ⟨k', rfl⟩ : ∃ k', k = k' + 1 := ⟨k - 1, by omega⟩
        simpa using hd
      obtain ⟨hg, _, _, _⟩ := drop_append_get hd'
      have g0 := hg 0 (by simp)
      have hl2 : (([255, b1, b2] : Buf).take k).length = k := by simp; omega
      rw [hl2] at hl
      exact ⟨rfl, Or.inr ⟨255, by simpa using g0, Or.inr ⟨rfl, by omega⟩⟩⟩

theorem OffEnc.offAt {tok : Byte} {offb : Buf} {d : Nat} {inp : Buf} {p : Nat} {w : Buf}
    (h : OffEnc tok offb d) (hd : inp.drop p = offb ++ w) :
    OffAt inp tok p (p + offb.length) d := by
  obtain ⟨hget, _, _, _⟩ := drop_append_get hd
  rcases h with ⟨hf, b, rfl, rfl⟩ | ⟨hf, lo, hi, rfl, rfl, hnz⟩
  · have g0 := hget 0 (by simp)
    exact Or.inl ⟨hf, b, by simpa using g0, rfl, rfl⟩
  · have g0 := hget 0 (by simp)
    have g1 := hget 1 (by simp)
    exact Or.inr ⟨hf, lo, hi, by simpa using g0, by simpa using g1, rfl, rfl, hnz⟩

theorem copyMatch_extends (d n : Nat) : ∀ buf : Buf, buf <+: copyMatch buf d n := by
  induction n with
  | zero => intro buf; exact List.prefix_refl _
  | succ n ih =>
    intro buf
    exact (List.prefix_append buf _).trans (ih _)

theorem expandCmd_extends (buf : Buf) (c : Cmd) : buf <+: expandCmd buf c := by
  unfold expandCmd
  cases c.mtch with
  | none => exact List.prefix_append _ _
  | some m => exact (List.prefix_append buf c.lits).trans (copyMatch_extends _ _ _)

theorem expand_extends (cs : List Cmd) : ∀ buf : Buf, buf <+: expand buf cs := by
  induction cs with
  | nil => intro buf; exact List.prefix_refl _
  | cons c cs ih => intro buf; exact (expandCmd_extends buf c).trans (ih _)

/-! ## The call on a truncated block -/

/-- A token whose bytes are cut before the end of its literal run: the call returns `-1`;
otherwise the literal run is whole and the cut falls in the bytes `R` that follow it. -/
theorem token_cut {MIN : Nat} {inp out : Buf} {off max : Nat} {ph : Phase} {st : St}
    (hr : Reach MIN inp out off max ph st) {tok : Byte} {ext lits R : Buf} {j0 : Nat}
    (hd : inp.drop st.pInBlock = tok :: ((ext ++ (lits ++ R)).take j0))
    (hcnt : CountEnc LITERALS_RUN_LEN (litField tok) ext lits.length) :
    (∃ o, lzsa_expand_block MIN inp out off max = Res.fail o) ∨
      (ext.length + lits.length ≤ j0 ∧
        (ext ++ (lits ++ R)).take j0 = ext ++ (lits ++ R.take (j0 - ext.length - lits.length))) := by
  obtain ⟨htok, hp, hd1⟩ := drop_cons_get hd
  rcases take_append_cases ext (lits ++ R) j0 with ⟨h1, e1⟩ | ⟨h1, e1⟩
  · left
    rw [e1] at hd1
    exact hr.fail_lit_ext htok (hcnt.cut h1 hd1)
  · rw [e1] at hd1 ⊢
    have hext := hcnt.extAt hd1
    rcases take_append_cases lits R (j0 - ext.length) with ⟨h2, e2⟩ | ⟨h2, e2⟩
    · left
      rw [e2] at hd1
      have hl := drop_length_eq hd1
      simp only [List.length_append, List.length_take] at hl
      exact hr.fail_lit_run htok hext (by omega)
    · right
      refine ⟨by omega, ?_⟩
      rw [e2, Nat.sub_sub]

/-- A proper prefix of a serialised command list, ahead of a state the call arrives at that
holds the reference bytes `ref`: the call returns `-1`, or the prefix is itself a
serialisation, of a command list whose reference expansion is a prefix of the whole one. -/
theorem cut_run (MIN : Nat) (inp out : Buf) (off max : Nat) (hmin : 2 ≤ MIN)
    (hbuf : off + max ≤ out.length) :
    ∀ (cmds : List Cmd) (w : Buf), Wire MIN cmds w → ∀ (j : Nat), j < w.length →
    ∀ (ph : Phase) (st : St) (ref : Buf), Reach MIN inp out off max ph st →
      inp.drop st.pInBlock = w.take j → Holds ref st → validFrom ref cmds = true →
      (expand ref cmds).length ≤ off + max →
      (∃ o, lzsa_expand_block MIN inp out off max = Res.fail o) ∨
      (∃ cmds', Wire MIN cmds' (w.take j) ∧ validFrom ref cmds' = true ∧
        expand ref cmds' <+: expand ref cmds) := by
  intro cmds w hw
  induction hw with
  | nil => intro j hj; simp at hj
  | last tok ext lits hcnt =>
    intro j hj ph st ref hr hd _ _ _
    rcases Nat.eq_zero_or_pos j with rfl | hj0
    · exact Or.inr ⟨[], by rw [List.take_zero]; exact Wire.nil, rfl, expand_extends _ _⟩
    · obtain ⟨j0, rfl⟩ : ∃ j0, j = j0 + 1 := ⟨j - 1, by omega⟩
      have hd' : inp.drop st.pInBlock = tok :: ((ext ++ (lits ++ [])).take j0) := by
        rw [List.append_nil]; exact hd
      rcases token_cut hr hd' hcnt with hf | ⟨hge, _⟩
      · exact Or.inl hf
      · simp only [List.length_cons, List.length_append] at hj
        omega
  | lastEnd tok ext lits hcnt hflag =>
    intro j hj ph st ref hr hd _ _ _
    rcases Nat.eq_zero_or_pos j with rfl | hj0
    · exact Or.inr ⟨[], by rw [List.take_zero]; exact Wire.nil, rfl, expand_extends _ _⟩
    · obtain ⟨j0, rfl⟩ : ∃ j0, j = j0 + 1 := ⟨j - 1, by omega⟩
      have hd' : inp.drop st.pInBlock = tok :: ((ext ++ (lits ++ [0, 0])).take j0) := hd
      rcases token_cut hr hd' hcnt with hf | ⟨hge, heq⟩
      · exact Or.inl hf
      · simp only [List.length_cons, List.length_append, List.length_nil] at hj
        rw [heq] at hd'
        obtain ⟨htok, hp, hd1⟩ := drop_cons_get hd'
        rcases Nat.eq_zero_or_pos (j0 - ext.length - lits.length) with hz | hpos
        · right
          refine ⟨[⟨lits, none⟩], ?_, rfl, List.prefix_refl _⟩
          rw [List.take_succ_cons, heq, hz, List.take_zero, List.append_nil]
          exact Wire.last tok ext lits hcnt
        · left
          have h1 : j0 - ext.length - lits.length = 1 := by omega
          rw [h1] at hd1
          have hext := hcnt.extAt hd1
          have hl := drop_length_eq hd1
          simp only [List.length_append, List.length_take, List.length_cons,
            List.length_nil] at hl
          exact hr.fail_offset hbuf htok hext hflag (by omega)
  | cons tok ext lits offb mext d k cs w' hcnt hoff hmat hw' ih =>
    intro j hj ph st ref hr hd hh hv hcap
    have hv' : (1 ≤ d ∧ d ≤ (ref ++ lits).length) ∧
        validFrom (copyMatch (ref ++ lits) d (k + MIN)) cs = true := by
      simpa [validFrom, expandCmd] using hv
    obtain ⟨⟨hd1v, hdv⟩, hvcs⟩ := hv'
    have hex : expand ref (⟨lits, some (d, k + MIN)⟩ :: cs)
        = expand (copyMatch (ref ++ lits) d (k + MIN)) cs := rfl
    rcases Nat.eq_zero_or_pos j with rfl | hj0
    · exact Or.inr ⟨[], by rw [List.take_zero]; exact Wire.nil, rfl, expand_extends _ _⟩
    · obtain ⟨j0, rfl⟩ : ∃ j0, j = j0 + 1 := ⟨j - 1, by omega⟩
      have hd' : inp.drop st.pInBlock
          = tok :: ((ext ++ (lits ++ (offb ++ (mext ++ w')))).take j0) := hd
      rcases token_cut hr hd' hcnt with hf | ⟨hge, heq⟩
      · exact Or.inl hf
      · rw [heq] at hd'
        obtain ⟨htok, hp, hd1⟩ := drop_cons_get hd'
        have hext := hcnt.extAt hd1
        obtain ⟨_, _, hd2, _⟩ := drop_append_get hd1
        rcases Nat.eq_zero_or_pos (j0 - ext.length - lits.length) with hz | hpos
        · right
          refine ⟨[⟨lits, none⟩], ?_, rfl, ?_⟩
          · rw [List.take_succ_cons, heq, hz, List.take_zero, List.append_nil]
            exact Wire.last tok ext lits hcnt
          · rw [hex]
            exact ((copyMatch_extends d (k + MIN) (ref ++ lits)).trans (expand_extends cs _))
        · rcases take_append_cases offb (mext ++ w') (j0 - ext.length - lits.length) with
            ⟨h3, e3⟩ | ⟨h3, e3⟩
          · left
            rw [e3] at hd1
            have hl := drop_length_eq hd1
            simp only [List.length_append, List.length_take] at hl
            have hflag : tok.val &&& 0x01 ≠ 0 := by
              rcases hoff with ⟨_, b, rfl, _⟩ | ⟨hf, _⟩
              · simp only [List.length_singleton] at h3; omega
              · exact hf
            have h2 : offb.length ≤ 2 := by
              rcases hoff with ⟨_, b, rfl, _⟩ | ⟨_, lo, hi, rfl, _⟩ <;> simp
            exact hr.fail_offset hbuf htok hext hflag (by omega)
          · rw [e3] at hd1 hd2 heq
            obtain ⟨_, _, hd3, _⟩ := drop_append_get hd2
            have hoffat := hoff.offAt hd3
            have hin : st.pInBlock + 1 + ext.length + lits.length ≤ inp.length := by
              have hl := drop_length_eq hd1
              simp only [List.length_append] at hl
              omega
            obtain ⟨_, _, hd4, _⟩ := drop_append_get hd3
            rcases take_append_cases mext w' (j0 - ext.length - lits.length - offb.length)
              with ⟨h4, e4⟩ | ⟨h4, e4⟩
            · left
              rw [e4] at hd4
              exact hr.fail_match_ext hbuf hmin htok hext hin hoffat (hmat.cut h4 hd4)
            · rw [e4] at hd1 heq
              obtain ⟨hlen, _, _, _⟩ := hr.cursor_bounds hbuf
              have hj3 : j0 - ext.length - lits.length - offb.length - mext.length
                  < w'.length := by
                simp only [List.length_cons, List.length_append] at hj
                omega
              have hd5 : inp.drop st.pInBlock = tok :: (ext ++ (lits ++ (offb ++ (mext ++
                  w'.take (j0 - ext.length - lits.length - offb.length - mext.length))))) := by
                rw [hd, List.take_succ_cons, heq]
              have hmono := expand_length_ge cs (copyMatch (ref ++ lits) d (k + MIN))
              have hlen' : (copyMatch (ref ++ lits) d (k + MIN)).length
                  = ref.length + lits.length + (k + MIN) := by
                rw [copyMatch_length, List.length_append]
              rw [hex] at hcap
              rw [List.length_append] at hdv
              obtain ⟨hfit, _⟩ := slowBody_matched MIN (off + max)
                (((off + max : Nat) : Int) - 16) hd5 hcnt hoff hmat hh hdv
                (by rw [hlen]; exact hbuf) (by omega) (by omega)
              obtain ⟨s', hb, hds', _, hh', hl'⟩ := hfit (by omega)
              obtain ⟨ph', t', hr', hsame⟩ := hr.next_of_slow hp (by rw [hlen]; exact hbuf)
                hmin hb
              rcases ih _ hj3 ph' t' _ hr' (by rw [hsame.1]; exact hds') (hh'.of_same hsame)
                hvcs hcap with hf | ⟨cmds'', hw'', hv'', hpre⟩
              · exact Or.inl hf
              · right
                refine ⟨⟨lits, some (d, k + MIN)⟩ :: cmds'', ?_, ?_, ?_⟩
                · rw [List.take_succ_cons, heq]
                  exact Wire.cons tok ext lits offb mext d k cmds'' _ hcnt hoff hmat hw''
                · simp only [validFrom, expandCmd, List.length_append]
                  simp [hd1v, hdv, hv'']
                · exact hpre

/-! ## Termination of the copy loops -/

theorem copyQuads_quiet (n : Nat) : ∀ (out : Buf) (s : Int) (d : Nat),
    (copyQuads n out s d).Quiet := by
  induction n using Nat.strongRecOn with
  | _ n ih =>
    intro out s d
    by_cases hn : n < 4
    · rw [copyQuads_small n hn]; trivial
    · obtain ⟨m, rfl⟩ : ∃ m, n = m + 4 := ⟨n - 4, by omega⟩
      simp only [copyQuads, bind_eq]
      refine Res.Quiet.andThen (copyByte_quiet _ _ _) (fun o1 => ?_)
      refine Res.Quiet.andThen (copyByte_quiet _ _ _) (fun o2 => ?_)
      refine Res.Quiet.andThen (copyByte_quiet _ _ _) (fun o3 => ?_)
      refine Res.Quiet.andThen (copyByte_quiet _ _ _) (fun o4 => ?_)
      exact ih m (by omega) _ _ _

/-- No call of `lzsa_expand_match_slow` exhausts the budget of its block-copy loop or
reads outside the input. -/
theorem match_slow_any (MIN : Nat) (inp : Buf) (p : Nat) (pSrc : Int) (M : Nat) (out : Buf)
    (c oend : Nat) (ofe : Int) :
    (lzsa_expand_match_slow MIN inp p pSrc M out c oend ofe).Post (fun _ => True)
      (fun _ => True) True := by
  rw [match_slow_eq]
  refine Res.Post.bind ((extCount_post MATCH_RUN_LEN inp p M out).mono (fun _ h => h)
    (fun _ _ => trivial) False.elim) (fun r _ => ?_)
  exact (matchRest_any MIN out pSrc c oend ofe r.1 r.2).mono (fun _ _ => trivial)
    (fun _ _ => trivial) (fun h => h)

theorem fastGate_tail (MIN : Nat) {inp : Buf} {tok : Byte} {p p2 d : Nat} (oend : Nat)
    (ofe : Int) (c : Nat) (o : Buf) (hoff : OffAt inp tok p p2 d) (hdc : d ≤ c) :
    (fastGate MIN tok c d ofe →
      fastTail MIN inp oend ofe tok.val p c o =
        (memcpyOut o c ((c : Int) - (d : Int)) 16).bind (fun o' =>
          Res.ok (Step.next ⟨p2, c + (MIN + matchField tok), o'⟩))) ∧
    (¬ fastGate MIN tok c d ofe →
      fastTail MIN inp oend ofe tok.val p c o =
        (lzsa_expand_match_slow MIN inp p2 ((c : Int) - (d : Int)) (matchField tok) o c oend
          ofe).bind (fun m => Res.ok (Step.next ⟨m.1, m.2.1, m.2.2⟩))) := by
  have hneg : ¬ ((c : Int) - (d : Int) < 0) := by omega
  rw [fastTail_offset MIN _ _ _ _ hoff, if_neg hneg]
  unfold fastGate matchField
  exact ⟨fun h => by rw [if_pos h], fun h => by rw [if_neg h]⟩

/-! ## Two runs on buffers that agree below the write cursor -/

theorem splice_agree {c : Nat} {a b : Buf} (hab : Agree c a b) (bs : Buf)
    (h : c + bs.length ≤ a.length) (n : Nat) (hn : n ≤ bs.length) :
    Agree (c + n) (splice a c bs) (splice b c bs) := by
  have hb : c + bs.length ≤ b.length := by rw [← hab.1]; exact h
  refine ⟨by rw [splice_length _ _ _ h, splice_length _ _ _ hb, hab.1], fun i hi => ?_⟩
  rw [splice_get _ _ _ h, splice_get _ _ _ hb]
  by_cases hic : i < c
  · rw [if_pos hic, if_pos hic, hab.2 i hic]
  · rw [if_neg hic, if_neg hic, if_pos (by omega), if_pos (by omega)]

/-- The literals of the slow path on two buffers that agree below the write cursor: both
calls return `-1`, or both succeed with the same cursors and buffers that agree below the
new write cursor. -/
theorem literals_slow_agree (inp : Buf) (p L : Nat) (a b : Buf) (c oend : Nat)
    (hab : Agree c a b) (hlen : oend ≤ a.length) :
    (∃ p1 c1 a' b', lzsa_expand_literals_slow inp p L a c oend = Res.ok (p1, c1, a') ∧
        lzsa_expand_literals_slow inp p L b c oend = Res.ok (p1, c1, b') ∧
        Agree c1 a' b' ∧ a'.length = a.length) ∨
      (lzsa_expand_literals_slow inp p L a c oend = Res.fail a ∧
        lzsa_expand_literals_slow inp p L b c oend = Res.fail b) := by
  rw [literals_slow_eq, literals_slow_eq]
  rcases extCount_cases LITERALS_RUN_LEN inp p L with ⟨⟨p', n⟩, _, hr⟩ | hr
  · rw [hr a, hr b]
    simp only [Res.bind_ok]
    by_cases hn : n = 0
    · subst hn
      left
      exact ⟨p', c, a, b, by simp, by simp, hab, rfl⟩
    · rw [if_pos hn, if_pos hn]
      by_cases hg : p' + n > inp.length ∨ c + n > oend
      · rw [if_pos hg, if_pos hg]
        exact Or.inr ⟨rfl, rfl⟩
      · rw [if_neg hg, if_neg hg]
        left
        have hl := slice_length inp p' n (by omega)
        rw [memcpyIn_ok inp p' a c n (by omega) (by omega),
          memcpyIn_ok inp p' b c n (by omega) (by rw [← hab.1]; omega)]
        refine ⟨p' + n, c + n, _, _, rfl, rfl, ?_, ?_⟩
        · exact splice_agree hab _ (by rw [hl]; omega) n (by rw [hl])
        · exact splice_length _ _ _ (by rw [hl]; omega)
  · rw [hr a, hr b]
    exact Or.inr ⟨rfl, rfl⟩

/-- The part of the slow body after the literals, on two buffers that agree below the
write cursor. -/
theorem slowTail_agree (MIN : Nat) (inp : Buf) (oend : Nat) (ofe : Int) (token p c : Nat)
    (a b : Buf) (hab : Agree c a b) (hlen : oend ≤ a.length) (hfe : ofe ≤ oend) :
    (slowTail MIN inp oend ofe token p c a).Sim (slowTail MIN inp oend ofe token p c b) := by
  unfold slowTail
  by_cases hp : p < inp.length
  · rw [if_pos hp, if_pos hp]
    have hpost := readMatchOffset_post inp token p a hp
    rcases readMatchOffset_cases inp token p hp with ⟨⟨p2, off⟩, hr⟩ | hr
    · rw [hr a] at hpost
      rw [hr a, hr b]
      simp only [Res.bind_ok]
      cases off with
      | none => exact ⟨rfl, rfl, hab⟩
      | some d =>
        have hd : 1 ≤ d := hpost.2.2 d rfl
        simp only []
        by_cases hneg : (c : Int) - (d : Int) < 0
        · rw [if_pos hneg, if_pos hneg]; trivial
        · rw [if_neg hneg, if_neg hneg]
          have hs : (c : Int) - (d : Int) = ((c - d : Nat) : Int) := by omega
          rw [hs]
          rcases match_slow_agree MIN inp p2 (c - d) ((token &&& 0x1e) >>> 1) a b c oend ofe
            hab (by omega) hlen hfe with
            ⟨p', n, a', b', _, _, hra, hrb, _, _, hag⟩ | ⟨hra, hrb⟩
          · rw [hra, hrb]
            exact ⟨rfl, rfl, hag⟩
          · rw [hra, hrb]; trivial
    · rw [hr a, hr b]; trivial
  · rw [if_neg hp, if_neg hp]
    exact ⟨rfl, rfl, hab⟩

/-- The part of the fast body after the literals, on two buffers that agree below the
write cursor. -/
theorem fastTail_agree (MIN : Nat) (inp : Buf) (oend : Nat) (ofe : Int) (token p c : Nat)
    (a b : Buf) (hab : Agree c a b) (hlen : oend ≤ a.length) (hfe : ofe + 16 ≤ oend) :
    (fastTail MIN inp oend ofe token p c a).Sim (fastTail MIN inp oend ofe token p c b) := by
  unfold fastTail
  by_cases hp : p < inp.length
  · rw [if_pos hp, if_pos hp]
    have hpost := readMatchOffset_post inp token p a hp
    rcases readMatchOffset_cases inp token p hp with ⟨⟨p2, off⟩, hr⟩ | hr
    · rw [hr a] at hpost
      rw [hr a, hr b]
      simp only [Res.bind_ok]
      cases off with
      | none => exact ⟨rfl, rfl, hab⟩
      | some d =>
        have hd : 1 ≤ d := hpost.2.2 d rfl
        simp only []
        by_cases hneg : (c : Int) - (d : Int) < 0
        · rw [if_pos hneg, if_pos hneg]; trivial
        · rw [if_neg hneg, if_neg hneg]
          have hs : (c : Int) - (d : Int) = ((c - d : Nat) : Int) := by omega
          rw [hs]
          by_cases hgate : (((token &&& 0x1e) >>> 1 : Nat) : Int) < 16 - (MIN : Int) + 1
              ∧ ((c - d : Nat) : Int) + MIN + (((token &&& 0x1e) >>> 1 : Nat) : Int) < c
              ∧ (c : Int) < ofe
          · rw [if_pos hgate, if_pos hgate]
            obtain ⟨hg1, hg2, hg3⟩ := hgate
            obtain ⟨hca, hpa⟩ := fastMatch_post a (c - d) c (MIN + (token &&& 0x1e) >>> 1) oend
              (by omega) (by omega) (by omega) hlen
            obtain ⟨hcb, hpb⟩ := fastMatch_post b (c - d) c (MIN + (token &&& 0x1e) >>> 1) oend
              (by omega) (by omega) (by omega) (by rw [← hab.1]; exact hlen)
            rw [hca, hcb]
            simp only [Res.bind_ok]
            exact ⟨rfl, rfl, hpa.agree hab hpb (by omega) (by omega)⟩
          · rw [if_neg hgate, if_neg hgate]
            rcases match_slow_agree MIN inp p2 (c - d) ((token &&& 0x1e) >>> 1) a b c oend ofe
              hab (by omega) hlen (by omega) with
              ⟨p', n, a', b', _, _, hra, hrb, _, _, hag⟩ | ⟨hra, hrb⟩
            · rw [hra, hrb]
              exact ⟨rfl, rfl, hag⟩
            · rw [hra, hrb]; trivial
    · rw [hr a, hr b]; trivial
  · rw [if_neg hp, if_neg hp]
    exact ⟨rfl, rfl, hab⟩

/-- One iteration of the slow loop from two states with the same cursors and buffers that
agree below the write cursor. -/
theorem slowBody_agree (MIN : Nat) (inp : Buf) (oend : Nat) (ofe : Int) (p c : Nat)
    (a b : Buf) (hab : Agree c a b) (hp : p < inp.length) (hlen : oend ≤ a.length)
    (hfe : ofe ≤ oend) :
    (slowBody MIN inp oend ofe ⟨p, c, a⟩).Sim (slowBody MIN inp oend ofe ⟨p, c, b⟩) := by
  rw [slowBody_eq, slowBody_eq]
  have hb : inp[p]? = some inp[p] := List.getElem?_eq_getElem hp
  simp only [inByte_of_get hb, Res.bind_ok]
  rcases literals_slow_agree inp (p + 1) (((inp[p]).val &&& 0xe0) >>> 5) a b c oend hab hlen
    with ⟨p1, c1, a', b', hra, hrb, hag, hl⟩ | ⟨hra, hrb⟩
  · rw [hra, hrb]
    simp only [Res.bind_ok]
    exact slowTail_agree MIN inp oend ofe _ p1 c1 a' b' hag (by rw [hl]; exact hlen) hfe
  · rw [hra, hrb]; trivial

/-- One iteration of the fast loop, entered under the loop condition, from two states with
the same cursors and buffers that agree below the write cursor. -/
theorem fastBody_agree (MIN : Nat) (inp : Buf) (oend : Nat) (ofe : Int) (p c : Nat)
    (a b : Buf) (hab : Agree c a b) (hp : (p : Int) < (inp.length : Int) - 16)
    (hc : (c : Int) < ofe) (hlen : oend ≤ a.length) (hfe : ofe + 16 ≤ oend) :
    (fastBody MIN inp oend ofe ⟨p, c, a⟩).Sim (fastBody MIN inp oend ofe ⟨p, c, b⟩) := by
  rw [fastBody_eq, fastBody_eq]
  have hp0 : p < inp.length := by omega
  have hb : inp[p]? = some inp[p] := List.getElem?_eq_getElem hp0
  simp only [inByte_of_get hb, Res.bind_ok]
  by_cases hL : ((inp[p]).val &&& 0xe0) >>> 5 < LITERALS_RUN_LEN
  · rw [if_pos hL, if_pos hL]
    have hL7 : ((inp[p]).val &&& 0xe0) >>> 5 < 7 := hL
    have hl := slice_length inp (p + 1) 8 (by omega)
    rw [memcpyIn_ok inp (p + 1) a c 8 (by omega) (by omega),
      memcpyIn_ok inp (p + 1) b c 8 (by omega) (by rw [← hab.1]; omega)]
    simp only [Res.bind_ok]
    have hag := splice_agree hab ((inp.drop (p + 1)).take 8) (by rw [hl]; omega)
      (((inp[p]).val &&& 0xe0) >>> 5) (by rw [hl]; omega)
    refine fastTail_agree MIN inp oend ofe _ _ _ _ _ hag ?_ hfe
    rw [splice_length _ _ _ (by rw [hl]; omega)]
    exact hlen
  · rw [if_neg hL, if_neg hL]
    rcases literals_slow_agree inp (p + 1) (((inp[p]).val &&& 0xe0) >>> 5) a b c oend hab hlen
      with ⟨p1, c1, a', b', hra, hrb, hag, hl⟩ | ⟨hra, hrb⟩
    · rw [hra, hrb]
      simp only [Res.bind_ok]
      exact fastTail_agree MIN inp oend ofe _ p1 c1 a' b' hag (by rw [hl]; exact hlen) hfe
    · rw [hra, hrb]; trivial

/-- The slow loop from two states with the same cursors and buffers that agree below the
write cursor: both runs return `-1`, or both end in states with the same cursors and buffers
that agree below the write cursor. -/
theorem slowLoop_agree (MIN : Nat) (inp : Buf) (oend : Nat) (ofe : Int) (hfe : ofe ≤ oend) :
    ∀ (k p c : Nat) (a b : Buf), Agree c a b → inp.length - p < k → oend ≤ a.length →
      (∃ o o', slowLoop MIN inp oend ofe k ⟨p, c, a⟩ = Res.fail o ∧
        slowLoop MIN inp oend ofe k ⟨p, c, b⟩ = Res.fail o') ∨
      (∃ s t : St, slowLoop MIN inp oend ofe k ⟨p, c, a⟩ = Res.ok s ∧
        slowLoop MIN inp oend ofe k ⟨p, c, b⟩ = Res.ok t ∧ s.Same t) := by
  intro k
  induction k with
  | zero => intro p c a b _ h; omega
  | succ k ih =>
    intro p c a b hab hk hlen
    simp only [slowLoop]
    by_cases hp : p < inp.length
    · rw [if_pos hp, if_pos hp]
      have hsim := slowBody_agree MIN inp oend ofe p c a b hab hp hlen hfe
      have hpost := slowBody_post MIN inp oend ofe ⟨p, c, a⟩ hp hfe
      cases hbody : slowBody MIN inp oend ofe ⟨p, c, a⟩ with
      | ok step =>
        rw [hbody] at hsim hpost
        cases step with
        | next s =>
          obtain ⟨t, ht, hst⟩ := hsim.next
          rw [ht]
          simp only []
          obtain ⟨hadv, _, hout⟩ := hpost
          obtain ⟨_, _, hfr⟩ := hout hlen
          obtain ⟨tp, tc, tb⟩ := t
          obtain ⟨sp, sc, sa⟩ := s
          obtain ⟨h1, h2, h3⟩ := hst
          simp only [] at h1 h2 h3
          subst h1 h2
          have hadv2 : p < tp := hadv
          have hl2 : sa.length = a.length := hfr.1
          exact ih tp tc sa tb h3 (by omega) (by rw [hl2]; exact hlen)
        | brk s =>
          obtain ⟨t, ht, hst⟩ := hsim.brk
          rw [ht]
          exact Or.inr ⟨s, t, rfl, rfl, hst⟩
      | fail o =>
        rw [hbody] at hsim
        obtain ⟨o', ho'⟩ := hsim.failed
        rw [ho']
        exact Or.inl ⟨o, o', rfl, rfl⟩
      | oobIn => rw [hbody] at hsim; exact hsim.elim
      | oobOut => rw [hbody] at hsim; exact hsim.elim
      | fuel => rw [hbody] at hsim; exact hsim.elim
    · rw [if_neg hp, if_neg hp]
      exact Or.inr ⟨_, _, rfl, rfl, rfl, rfl, hab⟩

/-- The fast loop from two states with the same cursors and buffers that agree below the
write cursor: both runs return `-1`, or both leave the loop in states with the same cursors
and buffers that agree below the write cursor. -/
theorem fastLoop_agree (MIN : Nat) (inp : Buf) (oend : Nat) (ofe : Int)
    (hfe : ofe + 16 ≤ oend) :
    ∀ (k p c : Nat) (a b : Buf), Agree c a b → inp.length - p < k → oend ≤ a.length →
      (∃ o o', fastLoop MIN inp oend ofe k ⟨p, c, a⟩ = Res.fail o ∧
        fastLoop MIN inp oend ofe k ⟨p, c, b⟩ = Res.fail o') ∨
      (∃ s t : St, fastLoop MIN inp oend ofe k ⟨p, c, a⟩ = Res.ok s ∧
        fastLoop MIN inp oend ofe k ⟨p, c, b⟩ = Res.ok t ∧ s.Same t ∧
        oend ≤ s.out.length) := by
  intro k
  induction k with
  | zero => intro p c a b _ h; omega
  | succ k ih =>
    intro p c a b hab hk hlen
    simp only [fastLoop]
    by_cases hp : (p : Int) < (inp.length : Int) - 16 ∧ (c : Int) < ofe
    · rw [if_pos hp, if_pos hp]
      have hsim := fastBody_agree MIN inp oend ofe p c a b hab hp.1 hp.2 hlen hfe
      have hpost := fastBody_post MIN inp oend ofe ⟨p, c, a⟩ hp.1 hp.2 hfe
      cases hbody : fastBody MIN inp oend ofe ⟨p, c, a⟩ with
      | ok step =>
        rw [hbody] at hsim hpost
        obtain ⟨hadv, _, hout⟩ := hpost
        obtain ⟨_, _, hfr⟩ := hout hlen
        cases step with
        | next s =>
          obtain ⟨t, ht, hst⟩ := hsim.next
          rw [ht]
          simp only []
          obtain ⟨tp, tc, tb⟩ := t
          obtain ⟨sp, sc, sa⟩ := s
          obtain ⟨h1, h2, h3⟩ := hst
          simp only [] at h1 h2 h3
          subst h1 h2
          have hadv2 : p < tp := hadv
          have hl2 : sa.length = a.length := hfr.1
          exact ih tp tc sa tb h3 (by omega) (by rw [hl2]; exact hlen)
        | brk s =>
          obtain ⟨t, ht, hst⟩ := hsim.brk
          rw [ht]
          have hl2 : s.out.length = a.length := hfr.1
          exact Or.inr ⟨s, t, rfl, rfl, hst, by rw [hl2]; exact hlen⟩
      | fail o =>
        rw [hbody] at hsim
        obtain ⟨o', ho'⟩ := hsim.failed
        rw [ho']
        exact Or.inl ⟨o, o', rfl, rfl⟩
      | oobIn => rw [hbody] at hsim; exact hsim.elim
      | oobOut => rw [hbody] at hsim; exact hsim.elim
      | fuel => rw [hbody] at hsim; exact hsim.elim
    · rw [if_neg hp, if_neg hp]
      exact Or.inr ⟨_, _, rfl, rfl, ⟨rfl, rfl, hab⟩, hlen⟩

/-- Two calls of `lzsa_expand_block` on buffers that agree on the history bytes: both
return `-1`, or both return the same length with buffers that agree below the final write
cursor. -/
theorem expand_block_agree (MIN : Nat) (inp a b : Buf) (off max : Nat) (hab : Agree off a b)
    (hbuf : off + max ≤ a.length) :
    (∃ o o', lzsa_expand_block MIN inp a off max = Res.fail o ∧
      lzsa_expand_block MIN inp b off max = Res.fail o') ∨
    (∃ (r : Nat) (a' b' : Buf), lzsa_expand_block MIN inp a off max = Res.ok ((r : Int), a') ∧
      lzsa_expand_block MIN inp b off max = Res.ok ((r : Int), b') ∧ Agree (off + r) a' b') := by
  unfold lzsa_expand_block
  simp only [bind_eq]
  rcases fastLoop_agree MIN inp (off + max) (((off + max : Nat) : Int) - 16) (by omega)
    (inp.length + 1) 0 off a b hab (by omega) hbuf with
    ⟨o, o', h1, h2⟩ | ⟨s, t, h1, h2, hst, hl⟩
  · rw [h1, h2]
    exact Or.inl ⟨o, o', rfl, rfl⟩
  · rw [h1, h2]
    simp only [Res.bind_ok]
    have hp1 := fastLoop_post MIN inp (off + max) (((off + max : Nat) : Int) - 16) (by omega)
      a off (inp.length + 1) ⟨0, off, a⟩ (by show inp.length - 0 < _; omega)
      (fun _ => ⟨le_refl _, by show off ≤ off + max; omega, Frame.self_frame _ _ _⟩)
    rw [h1] at hp1
    obtain ⟨_, _, hinv⟩ := hp1
    obtain ⟨tp, tc, tb⟩ := t
    obtain ⟨sp, sc, sa⟩ := s
    obtain ⟨e1, e2, hag⟩ := hst
    simp only [] at e1 e2 hag hl hinv
    subst e1 e2
    have hp2 := slowLoop_post MIN inp (off + max) (((off + max : Nat) : Int) - 16) (by omega)
      a off (inp.length + 1) ⟨tp, tc, sa⟩ (by show inp.length - tp < _; omega) hinv
    rcases slowLoop_agree MIN inp (off + max) (((off + max : Nat) : Int) - 16) (by omega)
      (inp.length + 1) tp tc sa tb hag (by omega) hl with
      ⟨o, o', h3, h4⟩ | ⟨s2, t2, h3, h4, hst2⟩
    · rw [h3, h4]
      exact Or.inl ⟨o, o', rfl, rfl⟩
    · rw [h3, h4]
      rw [h3] at hp2
      obtain ⟨_, _, hinv2⟩ := hp2
      obtain ⟨hlo, _, _⟩ := hinv2 hbuf
      simp only [Res.bind_ok, pure_eq]
      obtain ⟨e1, e2, hag2⟩ := hst2
      refine Or.inr ⟨s2.pCurOutData - off, s2.out, t2.out, ?_, ?_, ?_⟩
      · congr 2; omega
      · rw [e2]; congr 2; omega
      · have : off + (s2.pCurOutData - off) = s2.pCurOutData := by omega
        rw [this]; exact hag2

/-! ## Claims: memory safety of `lzsa_expand_block` -/

/-- C3. Writes are confined to the writable region. For every input span, valid or
malformed, and every output buffer that holds the `nOutDataOffset` history bytes and the
`nBlockMaxSize` writable bytes: the call never accesses the buffer outside its bounds, and
whether it succeeds or returns `-1`, the buffer keeps its length and every byte at an index
below `nOutDataOffset` or at an index `≥ nOutDataOffset + nBlockMaxSize` is unchanged. -/
theorem writes_confined_to_writable_region (MIN_MATCH_SIZE : Nat) (inp out : Buf)
    (nOutDataOffset nBlockMaxSize : Nat) (hbuf : nOutDataOffset + nBlockMaxSize ≤ out.length) :
    lzsa_expand_block MIN_MATCH_SIZE inp out nOutDataOffset nBlockMaxSize ≠ Res.oobOut ∧
    (∀ r out', lzsa_expand_block MIN_MATCH_SIZE inp out nOutDataOffset nBlockMaxSize
        = Res.ok (r, out') →
      out'.length = out.length ∧
      ∀ i, i < nOutDataOffset ∨ nOutDataOffset + nBlockMaxSize ≤ i → out'[i]? = out[i]?) ∧
    (∀ out', lzsa_expand_block MIN_MATCH_SIZE inp out nOutDataOffset nBlockMaxSize
        = Res.fail out' →
      out'.length = out.length ∧
      ∀ i, i < nOutDataOffset ∨ nOutDataOffset + nBlockMaxSize ≤ i → out'[i]? = out[i]?) := by
  have h := expand_block_post MIN_MATCH_SIZE inp out nOutDataOffset nBlockMaxSize
  refine ⟨fun he => ?_, fun r out' he => ?_, fun out' he => ?_⟩
  · rw [he] at h; simp only [Res.post_oobOut] at h; omega
  · rw [he] at h; exact (h hbuf).2.2
  · rw [he] at h; exact h hbuf

/-- The confinement of writes applied to a block that fills a 4-byte writable region after
a 2-byte history. -/
theorem writes_confined_to_writable_region_witness :
    2 + 4 ≤ ([9, 9, 0, 0, 0, 0, 7] : Buf).length ∧
    ∀ r out', lzsa_expand_block 3 [0x20, 65, 0] [9, 9, 0, 0, 0, 0, 7] 2 4 = Res.ok (r, out') →
      out'.length = ([9, 9, 0, 0, 0, 0, 7] : Buf).length ∧
      ∀ i, i < 2 ∨ 2 + 4 ≤ i → out'[i]? = ([9, 9, 0, 0, 0, 0, 7] : Buf)[i]? :=
  ⟨by decide, (writes_confined_to_writable_region 3 [0x20, 65, 0] [9, 9, 0, 0, 0, 0, 7] 2 4
    (by decide)).2.1⟩

/-- C4. No read crosses the input end. For every input span and every output buffer, no
execution of `lzsa_expand_block` reads an input index at or beyond `nBlockSize`: with input
reads returning an option, the out-of-range outcome is unreachable. This covers the token
reads, the extension and offset reads of the helpers, the literal copies and the 8-byte
literal read of the fast loop. -/
theorem no_read_past_input_end (MIN_MATCH_SIZE : Nat) (inp out : Buf)
    (nOutDataOffset nBlockMaxSize : Nat) :
    lzsa_expand_block MIN_MATCH_SIZE inp out nOutDataOffset nBlockMaxSize ≠ Res.oobIn := by
  intro he
  have h := expand_block_post MIN_MATCH_SIZE inp out nOutDataOffset nBlockMaxSize
  rw [he] at h
  exact h

/-! ## Claims: the two helpers -/

/-- C9. Overlap copy correctness. For every call of `lzsa_expand_match_slow` whose source
lies `d ≥ 1` bytes behind the write cursor `c` and not before the buffer start (`d ≤ c`),
whose length field resolves (with the extension bytes present in the input) to the count
`k`, and whose total length `n = k + MIN_MATCH_SIZE` fits before the writable end (with
`pOutDataFastEnd` not beyond `pOutDataEnd`, as in both calls of the decoder): the call
succeeds, advances the write cursor by exactly `n`, leaves the bytes below `c` unchanged,
and for every `i < n` the byte at `c + i` equals the byte at `c + i - d` of the final
buffer, that is the byte at `c - d + (i mod d)` of the buffer before the call. With
`MIN_MATCH_SIZE = 3`: distance 1 and length 20 gives 20 repetitions of the preceding byte
(run-fill path); distance 3 and length 10 after `ABC` gives `ABCABCABCA`, on the byte-loop
path and on the 16-byte block-copy path. -/
theorem overlap_copy_correct (MIN_MATCH_SIZE : Nat) (inp : Buf) (pInBlock nMatchLen : Nat)
    (out : Buf) (c d pOutDataEnd : Nat) (pOutDataFastEnd : Int) (p' k : Nat)
    (hd : 1 ≤ d) (hsrc : d ≤ c)
    (hext : ExtAt MATCH_RUN_LEN inp pInBlock nMatchLen p' k)
    (hroom : c + (k + MIN_MATCH_SIZE) ≤ pOutDataEnd) (hbuf : pOutDataEnd ≤ out.length)
    (hfast : pOutDataFastEnd ≤ pOutDataEnd) :
    (∃ out', lzsa_expand_match_slow MIN_MATCH_SIZE inp pInBlock ((c : Int) - (d : Int))
        nMatchLen out c pOutDataEnd pOutDataFastEnd
          = Res.ok (p', c + (k + MIN_MATCH_SIZE), out') ∧
      out'.length = out.length ∧
      (∀ i, i < c → out'[i]? = out[i]?) ∧
      (∀ i, i < k + MIN_MATCH_SIZE → out'[c + i]? = out'[c + i - d]?) ∧
      (∀ i, i < k + MIN_MATCH_SIZE → out'[c + i]? = out[c - d + i % d]?)) ∧
    lzsa_expand_match_slow 3 [2] 0 0 15 [88, 0, 0, 0, 0, 0, 0, 0, 0, 0, 0, 0, 0, 0, 0, 0, 0,
        0, 0, 0, 0, 0, 0] 1 23 7
      = Res.ok (1, 21, [88, 88, 88, 88, 88, 88, 88, 88, 88, 88, 88, 88, 88, 88, 88, 88, 88,
        88, 88, 88, 88, 0, 0]) ∧
    lzsa_expand_match_slow 3 [] 0 0 7 [65, 66, 67, 0, 0, 0, 0, 0, 0, 0, 0, 0, 0, 0, 0] 3 15 (-1)
      = Res.ok (0, 13, [65, 66, 67, 65, 66, 67, 65, 66, 67, 65, 66, 67, 65, 0, 0]) ∧
    lzsa_expand_match_slow 3 [] 0 0 7 ([65, 66, 67] ++ List.replicate 47 0) 3 50 34
      = Res.ok (0, 13, [65, 66, 67, 65, 66, 67, 65, 66, 67, 65, 66, 67, 65] ++
          List.replicate 37 0) := by
  refine ⟨?_, by decide, by decide, by decide⟩
  have hs : (c : Int) - (d : Int) = ((c - d : Nat) : Int) := by omega
  rw [hs]
  obtain ⟨out', hrun, hpost⟩ := match_slow_ok MIN_MATCH_SIZE out (c - d) c pOutDataEnd
    pOutDataFastEnd hext (by omega) hroom hbuf hfast
  have hcd : c - (c - d) = d := by omega
  rw [hcd] at hpost
  refine ⟨out', hrun, hpost.1, hpost.2.1, fun i hi => ?_, hpost.periodic hd hsrc⟩
  exact hpost.2.2.2 (c + i) (by omega) (by omega)

/-- The overlap copy at distance 2 and length 5 after the two bytes `1, 2`. -/
theorem overlap_copy_correct_witness :
    ∃ out', lzsa_expand_match_slow 3 [] 0 ((2 : Int) - (2 : Int)) 2 [1, 2, 0, 0, 0, 0, 0, 0] 2
        7 (-9) = Res.ok (0, 2 + (2 + 3), out') ∧
      out'.length = ([1, 2, 0, 0, 0, 0, 0, 0] : Buf).length ∧
      (∀ i, i < 2 → out'[i]? = ([1, 2, 0, 0, 0, 0, 0, 0] : Buf)[i]?) ∧
      (∀ i, i < 2 + 3 → out'[2 + i]? = out'[2 + i - 2]?) ∧
      (∀ i, i < 2 + 3 → out'[2 + i]? = ([1, 2, 0, 0, 0, 0, 0, 0] : Buf)[2 - 2 + i % 2]?) :=
  (overlap_copy_correct 3 [] 0 2 [1, 2, 0, 0, 0, 0, 0, 0] 2 2 7 (-9) 0 2 (by decide)
    (by decide) (Or.inl ⟨by decide, rfl, rfl⟩) (by decide) (by decide) (by decide)).1

/-- C10. Literal-count decoding. With enough input left and enough room in a buffer that
reaches up to `pOutDataEnd`, `lzsa_expand_literals_slow` copies, and advances both cursors
by, exactly: `L` literal bytes for a field `L < LITERALS_RUN_LEN`; `7 + b0` for the field
7 and a next byte `b0 < 254`; `7 + 254 + b1` for `b0 = 254` followed by `b1`; and
`b1 + 256 * b2` (the 7 and `b0` are dropped) for `b0 = 255` followed by `b1, b2`. The
literal bytes are those that follow the extension bytes. -/
theorem literal_count_decoding (inp : Buf) (pInBlock : Nat) (out : Buf)
    (pCurOutData pOutDataEnd : Nat) (hbuf : pOutDataEnd ≤ out.length) :
    (∀ L, L < LITERALS_RUN_LEN → pInBlock + L ≤ inp.length →
      pCurOutData + L ≤ pOutDataEnd →
      lzsa_expand_literals_slow inp pInBlock L out pCurOutData pOutDataEnd =
        Res.ok (pInBlock + L, pCurOutData + L,
          splice out pCurOutData ((inp.drop pInBlock).take L))) ∧
    (∀ b0 : Byte, inp[pInBlock]? = some b0 → b0.val < 254 →
      pInBlock + 1 + (7 + b0.val) ≤ inp.length → pCurOutData + (7 + b0.val) ≤ pOutDataEnd →
      lzsa_expand_literals_slow inp pInBlock LITERALS_RUN_LEN out pCurOutData pOutDataEnd =
        Res.ok (pInBlock + 1 + (7 + b0.val), pCurOutData + (7 + b0.val),
          splice out pCurOutData ((inp.drop (pInBlock + 1)).take (7 + b0.val)))) ∧
    (∀ b0 b1 : Byte, inp[pInBlock]? = some b0 → b0.val = 254 → inp[pInBlock + 1]? = some b1 →
      pInBlock + 2 + (7 + 254 + b1.val) ≤ inp.length →
      pCurOutData + (7 + 254 + b1.val) ≤ pOutDataEnd →
      lzsa_expand_literals_slow inp pInBlock LITERALS_RUN_LEN out pCurOutData pOutDataEnd =
        Res.ok (pInBlock + 2 + (7 + 254 + b1.val), pCurOutData + (7 + 254 + b1.val),
          splice out pCurOutData ((inp.drop (pInBlock + 2)).take (7 + 254 + b1.val)))) ∧
    (∀ b0 b1 b2 : Byte, inp[pInBlock]? = some b0 → b0.val = 255 →
      inp[pInBlock + 1]? = some b1 → inp[pInBlock + 2]? = some b2 →
      pInBlock + 3 + (b1.val + 256 * b2.val) ≤ inp.length →
      pCurOutData + (b1.val + 256 * b2.val) ≤ pOutDataEnd →
      lzsa_expand_literals_slow inp pInBlock LITERALS_RUN_LEN out pCurOutData pOutDataEnd =
        Res.ok (pInBlock + 3 + (b1.val + 256 * b2.val), pCurOutData + (b1.val + 256 * b2.val),
          splice out pCurOutData
            ((inp.drop (pInBlock + 3)).take (b1.val + 256 * b2.val)))) := by
  refine ⟨fun L hL hin hout => ?_, fun b0 h0 hlt hin hout => ?_,
    fun b0 b1 h0 he h1 hin hout => ?_, fun b0 b1 b2 h0 he h1 h2 hin hout => ?_⟩
  · exact literals_slow_ok out pCurOutData pOutDataEnd
      (Or.inl ⟨Nat.ne_of_lt hL, rfl, rfl⟩) hin hout hbuf
  · exact literals_slow_ok out pCurOutData pOutDataEnd
      (Or.inr ⟨rfl, b0, h0, Or.inl ⟨hlt, rfl, rfl⟩⟩) hin hout hbuf
  · exact literals_slow_ok out pCurOutData pOutDataEnd
      (Or.inr ⟨rfl, b0, h0, Or.inr (Or.inl ⟨he, b1, h1, rfl, rfl⟩)⟩) hin hout hbuf
  · exact literals_slow_ok out pCurOutData pOutDataEnd
      (Or.inr ⟨rfl, b0, h0, Or.inr (Or.inr ⟨he, b1, b2, h1, h2, rfl, rfl⟩)⟩) hin hout hbuf

/-- The literal-count decoding on a 10-byte input: the field 7 followed by the extension
byte 1 copies 8 literal bytes. -/
theorem literal_count_decoding_witness :
    (8 : Nat) ≤ ([0, 0, 0, 0, 0, 0, 0, 0] : Buf).length ∧
    lzsa_expand_literals_slow [1, 11, 12, 13, 14, 15, 16, 17, 18] 0 LITERALS_RUN_LEN
        [0, 0, 0, 0, 0, 0, 0, 0] 0 8 =
      Res.ok (0 + 1 + (7 + 1), 0 + (7 + 1),
        splice [0, 0, 0, 0, 0, 0, 0, 0] 0
          ((([1, 11, 12, 13, 14, 15, 16, 17, 18] : Buf).drop (0 + 1)).take (7 + 1))) :=
  ⟨by decide, (literal_count_decoding [1, 11, 12, 13, 14, 15, 16, 17, 18] 0
    [0, 0, 0, 0, 0, 0, 0, 0] 0 8 (by decide)).2.1 1 rfl (by decide) (by decide) (by decide)⟩

/-! ## Claims: the end-of-block sentinel in the fast loop -/

/-- C6, evaluated at a failing input. The 17-byte input starts with a token with no
literals and the offset-width flag set, followed by the two offset bytes `0, 0`, and then
holds a token announcing 12 literals and the 12 bytes `0x41`. With a capacity of 17 the
sentinel is read inside the fast loop, whose `break` only leaves that loop: the slow loop
decodes the bytes after the sentinel and the call returns 12, not 0. With a capacity of 16
the fast loop is never entered and the call returns 0. When the bytes after the sentinel
announce more literals than the input holds, the call with capacity 17 returns `-1`. -/
theorem sentinel_in_fast_loop_does_not_stop :
    lzsa_expand_block 3 [0x01, 0x00, 0x00, 0xE0, 0x05, 0x41, 0x41, 0x41, 0x41, 0x41, 0x41,
        0x41, 0x41, 0x41, 0x41, 0x41, 0x41] (List.replicate 17 0) 0 17
      = Res.ok (12, List.replicate 12 0x41 ++ List.replicate 5 0) ∧
    lzsa_expand_block 3 [0x01, 0x00, 0x00, 0xE0, 0x05, 0x41, 0x41, 0x41, 0x41, 0x41, 0x41,
        0x41, 0x41, 0x41, 0x41, 0x41, 0x41] (List.replicate 17 0) 0 16
      = Res.ok (0, List.replicate 17 0) ∧
    lzsa_expand_block 3 ([0x01, 0x00, 0x00] ++ List.replicate 14 0xFF) (List.replicate 17 0)
        0 17
      = Res.fail [0, 0, 255, 255, 255, 255, 255, 255, 0, 0, 0, 0, 0, 0, 0, 0, 0] := by
  refine ⟨by decide, by decide, by decide⟩

/-- C7, evaluated at a failing input. The 17-byte input holds a token with one literal
`0x5A` and the offset-width flag set, the offset bytes `0, 0`, and then a token announcing
11 literals and the 11 bytes `0x42`. With a capacity of 20, `lzsa_expand_block` reads the
sentinel in its fast loop, goes on in its slow loop and returns 12; the decoder that runs
the slow loop alone stops at the sentinel and returns 1. -/
theorem fast_and_slow_only_differ_after_sentinel :
    lzsa_expand_block 3 [0x21, 0x5A, 0x00, 0x00, 0xE0, 0x04, 0x42, 0x42, 0x42, 0x42, 0x42,
        0x42, 0x42, 0x42, 0x42, 0x42, 0x42] (List.replicate 20 0) 0 20
      = Res.ok (12, [0x5A] ++ List.replicate 11 0x42 ++ List.replicate 8 0) ∧
    expand_block_slow_only 3 [0x21, 0x5A, 0x00, 0x00, 0xE0, 0x04, 0x42, 0x42, 0x42, 0x42,
        0x42, 0x42, 0x42, 0x42, 0x42, 0x42, 0x42] (List.replicate 20 0) 0 20
      = Res.ok (1, [0x5A] ++ List.replicate 19 0) := by
  refine ⟨by decide, by decide⟩

/-! ## Claims: round trip and capacity -/

/-- The call on a serialised command list, started on a buffer whose first `off` bytes are
the history. -/
theorem wire_run_init (MIN : Nat) (cmds : List Cmd) (wire out : Buf) (off max : Nat)
    (hmin : 2 ≤ MIN) (hw : Wire MIN cmds wire)
    (hv : validFrom (out.take off) cmds = true) (hbuf : off + max ≤ out.length) :
    (((expand (out.take off) cmds).drop off).length ≤ max →
      ∃ o, lzsa_expand_block MIN wire out off max
          = Res.ok (((((expand (out.take off) cmds).drop off).length : Nat) : Int), o) ∧
        (o.drop off).take ((expand (out.take off) cmds).drop off).length
          = (expand (out.take off) cmds).drop off) ∧
    (max < ((expand (out.take off) cmds).drop off).length →
      ∃ o, lzsa_expand_block MIN wire out off max = Res.fail o) := by
  have hoff : (out.take off).length = off := by simp; omega
  have hge := expand_length_ge cmds (out.take off)
  rw [hoff] at hge
  have hh : Holds (out.take off) ⟨0, off, out⟩ :=
    ⟨hoff.symm, fun i hi => by
      show out[i]? = (out.take off)[i]?
      rw [List.getElem?_take_of_lt (by omega)]⟩
  obtain ⟨h1, h2⟩ := wire_run MIN wire out off max hmin cmds wire hw Phase.fast ⟨0, off, out⟩
    (out.take off) Reach.init rfl hh hv hbuf (by rw [hoff]; omega)
  have hxl : ((expand (out.take off) cmds).drop off).length
      = (expand (out.take off) cmds).length - off := by simp
  refine ⟨fun hcap => ?_, fun hcap => h2 (by omega)⟩
  obtain ⟨o, hrun, _, hget⟩ := h1 (by omega)
  refine ⟨o, ?_, ?_⟩
  · rw [hrun, hxl]
    congr 2
    omega
  · apply List.ext_getElem?
    intro i
    rw [List.getElem?_take, List.getElem?_drop, List.getElem?_drop]
    by_cases hi : i < ((expand (out.take off) cmds).drop off).length
    · rw [if_pos hi]
      exact hget (off + i) (by omega)
    · rw [if_neg hi, List.getElem?_eq_none (by omega)]

/-- C1. Round trip against the reference expansion. For every command list, every
serialisation `wire` of it in the wire format, every output buffer whose first
`nOutDataOffset` bytes are the history and which has room for `nBlockMaxSize` more bytes,
with every match offset between 1 and the number of bytes that precede the match (history
included) and with `nBlockMaxSize ≥ |x|`, where `x` is the reference expansion of the
command list over the history: `lzsa_expand_block` returns `|x|` and leaves
`output[nOutDataOffset .. nOutDataOffset + |x|)` equal to `x`. `MIN_MATCH_SIZE`, a constant
of the missing `format.h`, is any value from 2 on. -/
theorem roundtrip_reference_expansion (MIN_MATCH_SIZE : Nat) (cmds : List Cmd)
    (wire out : Buf) (nOutDataOffset nBlockMaxSize : Nat) (hmin : 2 ≤ MIN_MATCH_SIZE)
    (hw : Wire MIN_MATCH_SIZE cmds wire)
    (hv : validFrom (out.take nOutDataOffset) cmds = true)
    (hcap : ((expand (out.take nOutDataOffset) cmds).drop nOutDataOffset).length
      ≤ nBlockMaxSize)
    (hbuf : nOutDataOffset + nBlockMaxSize ≤ out.length) :
    ∃ out', lzsa_expand_block MIN_MATCH_SIZE wire out nOutDataOffset nBlockMaxSize
        = Res.ok (((((expand (out.take nOutDataOffset) cmds).drop nOutDataOffset).length
          : Nat) : Int), out') ∧
      (out'.drop nOutDataOffset).take
          ((expand (out.take nOutDataOffset) cmds).drop nOutDataOffset).length
        = (expand (out.take nOutDataOffset) cmds).drop nOutDataOffset :=
  (wire_run_init MIN_MATCH_SIZE cmds wire out nOutDataOffset nBlockMaxSize hmin hw hv hbuf).1
    hcap

/-- The round trip of the block `20 41 00 20 42` (literal `A`, match of offset 1 and length
3, literal `B`) after the one-byte history `5A`. -/
theorem roundtrip_reference_expansion_witness :
    ∃ out', lzsa_expand_block 3 [0x20, 0x41, 0x00, 0x20, 0x42] [0x5A, 0, 0, 0, 0, 0, 0] 1 6
        = Res.ok (((((expand (([0x5A, 0, 0, 0, 0, 0, 0] : Buf).take 1)
            [⟨[0x41], some (1, 0 + 3)⟩, ⟨[0x42], none⟩]).drop 1).length : Nat) : Int), out') ∧
      (out'.drop 1).take ((expand (([0x5A, 0, 0, 0, 0, 0, 0] : Buf).take 1)
            [⟨[0x41], some (1, 0 + 3)⟩, ⟨[0x42], none⟩]).drop 1).length
        = (expand (([0x5A, 0, 0, 0, 0, 0, 0] : Buf).take 1)
            [⟨[0x41], some (1, 0 + 3)⟩, ⟨[0x42], none⟩]).drop 1 :=
  roundtrip_reference_expansion 3 [⟨[0x41], some (1, 0 + 3)⟩, ⟨[0x42], none⟩]
    [0x20, 0x41, 0x00, 0x20, 0x42] [0x5A, 0, 0, 0, 0, 0, 0] 1 6 (by decide)
    (Wire.cons 0x20 [] [0x41] [0x00] [] 1 0 [⟨[0x42], none⟩] [0x20, 0x42]
      (Or.inl ⟨by decide, rfl, rfl⟩) (Or.inl ⟨by decide, 0, rfl, rfl⟩)
      (Or.inl ⟨by decide, rfl, rfl⟩)
      (Wire.last 0x20 [] [0x42] (Or.inl ⟨by decide, rfl, rfl⟩)))
    (by decide) (by decide) (by decide)

/-- C2. Output capacity bound. For every input span and every output buffer that holds
the `nOutDataOffset` history bytes and `nBlockMaxSize` writable bytes: a result `r` of
`lzsa_expand_block` other than `-1` satisfies `0 ≤ r ≤ nBlockMaxSize`; consequently, when
the input is a serialisation of a command list whose reference expansion is longer than
`nBlockMaxSize` (with `MIN_MATCH_SIZE ≥ 2`), the call returns `-1`. -/
theorem output_capacity_bound (MIN_MATCH_SIZE : Nat) (inp out : Buf)
    (nOutDataOffset nBlockMaxSize : Nat)
    (hbuf : nOutDataOffset + nBlockMaxSize ≤ out.length) :
    (∀ r out', lzsa_expand_block MIN_MATCH_SIZE inp out nOutDataOffset nBlockMaxSize
        = Res.ok (r, out') → 0 ≤ r ∧ r ≤ (nBlockMaxSize : Int)) ∧
    (∀ cmds, 2 ≤ MIN_MATCH_SIZE → Wire MIN_MATCH_SIZE cmds inp →
      validFrom (out.take nOutDataOffset) cmds = true →
      nBlockMaxSize < ((expand (out.take nOutDataOffset) cmds).drop nOutDataOffset).length →
      ∃ out', lzsa_expand_block MIN_MATCH_SIZE inp out nOutDataOffset nBlockMaxSize
        = Res.fail out') := by
  refine ⟨fun r out' he => ?_, fun cmds hmin hw hv hlong => ?_⟩
  · have h := expand_block_post MIN_MATCH_SIZE inp out nOutDataOffset nBlockMaxSize
    rw [he] at h
    exact ⟨(h hbuf).1, (h hbuf).2.1⟩
  · exact (wire_run_init MIN_MATCH_SIZE cmds inp out nOutDataOffset nBlockMaxSize hmin hw hv
      hbuf).2 hlong

/-- The capacity bound on the block `20 41 00 20 42`, whose expansion `AAAAB` has 5 bytes,
with a capacity of 4. -/
theorem output_capacity_bound_witness :
    (0 : Nat) + 4 ≤ ([0, 0, 0, 0, 0] : Buf).length ∧
    ∃ out', lzsa_expand_block 3 [0x20, 0x41, 0x00, 0x20, 0x42] [0, 0, 0, 0, 0] 0 4
      = Res.fail out' :=
  ⟨by decide, (output_capacity_bound 3 [0x20, 0x41, 0x00, 0x20, 0x42] [0, 0, 0, 0, 0] 0 4
    (by decide)).2 [⟨[0x41], some (1, 0 + 3)⟩, ⟨[0x42], none⟩] (by decide)
    (Wire.cons 0x20 [] [0x41] [0x00] [] 1 0 [⟨[0x42], none⟩] [0x20, 0x42]
      (Or.inl ⟨by decide, rfl, rfl⟩) (Or.inl ⟨by decide, 0, rfl, rfl⟩)
      (Or.inl ⟨by decide, rfl, rfl⟩)
      (Wire.last 0x20 [] [0x42] (Or.inl ⟨by decide, rfl, rfl⟩)))
    (by decide) (by decide)⟩

/-! ## Claims: the back-reference bound -/

/-- C5. Back-reference bound. Let the call arrive, at the head of the fast or of the slow
loop, at a state whose token `tok` has a literal count that resolves to `n`, with the
literals inside the input and inside the writable region, and let the offset bytes that
follow resolve to the offset `d`. If `d` is greater than the write cursor after the
literals, which is `nOutDataOffset` plus the number of bytes written so far, the call
returns `-1`; it does so without an access outside the output buffer, which would be the
outcome `oobOut`. If `d` is at most that cursor, also when it reaches into the history
before `nOutDataOffset`, the check passes and the slow loop body goes on with the match
expansion. With `MIN_MATCH_SIZE = 3`, a match at offset 2 right after a 2-byte history is
decoded, and a match at offset 3 is refused, in the slow loop and in the fast loop. -/
theorem back_reference_bound (MIN_MATCH_SIZE : Nat) (inp out : Buf)
    (nOutDataOffset nBlockMaxSize : Nat)
    (hbuf : nOutDataOffset + nBlockMaxSize ≤ out.length) (ph : Phase) (st : St)
    (hr : Reach MIN_MATCH_SIZE inp out nOutDataOffset nBlockMaxSize ph st)
    (tok : Byte) (p' n p2 d : Nat)
    (htok : inp[st.pInBlock]? = some tok)
    (hext : ExtAt LITERALS_RUN_LEN inp (st.pInBlock + 1) (litField tok) p' n)
    (hin : p' + n ≤ inp.length) (hroom : st.pCurOutData + n ≤ nOutDataOffset + nBlockMaxSize)
    (hoff : OffAt inp tok (p' + n) p2 d) :
    (st.pCurOutData + n < d →
      ∃ o, lzsa_expand_block MIN_MATCH_SIZE inp out nOutDataOffset nBlockMaxSize
        = Res.fail o) ∧
    (d ≤ st.pCurOutData + n →
      ∀ o, slowTail MIN_MATCH_SIZE inp (nOutDataOffset + nBlockMaxSize)
          (((nOutDataOffset + nBlockMaxSize : Nat) : Int) - 16) tok.val (p' + n)
          (st.pCurOutData + n) o =
        (lzsa_expand_match_slow MIN_MATCH_SIZE inp p2
          (((st.pCurOutData + n : Nat) : Int) - (d : Int)) (matchField tok) o
          (st.pCurOutData + n) (nOutDataOffset + nBlockMaxSize)
          (((nOutDataOffset + nBlockMaxSize : Nat) : Int) - 16)).bind (fun m =>
            Res.ok (Step.next ⟨m.1, m.2.1, m.2.2⟩))) ∧
    lzsa_expand_block 3 [0x00, 0x01] [7, 8, 0, 0, 0, 0] 2 4 = Res.ok (3, [7, 8, 7, 8, 7, 0]) ∧
    lzsa_expand_block 3 [0x00, 0x02] [7, 8, 0, 0, 0, 0] 2 4 = Res.fail [7, 8, 0, 0, 0, 0] ∧
    lzsa_expand_block 3 ([0x00, 0x02] ++ List.replicate 16 0)
      ([7, 8] ++ List.replicate 30 0) 2 30 = Res.fail ([7, 8, 2] ++ List.replicate 29 0) := by
  refine ⟨fun hbad => ?_, fun hgood o => ?_, by decide, by decide, by decide⟩
  · obtain ⟨hlen, _, _, _⟩ := hr.cursor_bounds hbuf
    have hp : st.pInBlock < inp.length := (List.getElem?_eq_some.1 htok).1
    unfold litField at hext
    have hneg : ((st.pCurOutData + n : Nat) : Int) - (d : Int) < 0 := by omega
    refine hr.fail_of_bodies hp ?_ (fun hc => ?_)
    · rw [slowBody_eq]
      simp only [inByte_of_get htok, Res.bind_ok]
      rw [literals_slow_ok st.out st.pCurOutData _ hext hin hroom (by rw [hlen]; exact hbuf)]
      simp only [Res.bind_ok]
      rw [slowTail_offset MIN_MATCH_SIZE _ _ _ _ hoff, if_pos hneg]
      exact ⟨_, rfl⟩
    · rw [fastBody_eq]
      simp only [inByte_of_get htok, Res.bind_ok]
      obtain ⟨o, hlit, _⟩ := fast_literals_ok (nOutDataOffset + nBlockMaxSize) _ hc (by omega)
        hext hin hroom (by rw [hlen]; exact hbuf)
      rw [hlit]
      simp only [Res.bind_ok]
      rw [fastTail_offset MIN_MATCH_SIZE _ _ _ _ hoff, if_pos hneg]
      exact ⟨_, rfl⟩
  · have hneg : ¬ (((st.pCurOutData + n : Nat) : Int) - (d : Int) < 0) := by omega
    rw [slowTail_offset MIN_MATCH_SIZE _ _ _ _ hoff, if_neg hneg]
    rfl

/-- The back-reference bound at the start of the call on the input `00 05`: no literals,
offset 6, after a 2-byte history. -/
theorem back_reference_bound_witness :
    (2 : Nat) + 4 ≤ ([7, 8, 0, 0, 0, 0] : Buf).length ∧
    ∃ o, lzsa_expand_block 3 [0x00, 0x05] [7, 8, 0, 0, 0, 0] 2 4 = Res.fail o :=
  ⟨by decide, (back_reference_bound 3 [0x00, 0x05] [7, 8, 0, 0, 0, 0] 2 4 (by decide)
    Phase.fast ⟨0, 2, [7, 8, 0, 0, 0, 0]⟩ Reach.init 0x00 1 0 2 6 rfl
    (Or.inl ⟨by decide, rfl, rfl⟩) (by decide) (by decide)
    (Or.inl ⟨by decide, 5, rfl, rfl, rfl⟩)).1 (by decide)⟩

/-! ## Claims: truncated input -/

/-- C8 fails as stated. The block `20 41 00 20 42` is the serialisation of the command
list "literal `A`, match of offset 1 and length 3; literal `B`" and decodes to the 5 bytes
`AAAAB`; its proper prefix `20 41 00`, with the last two bytes removed, decodes
successfully too, to the 4 bytes `AAAA`. -/
theorem truncated_block_can_succeed :
    Wire 3 [⟨[0x41], some (1, 0 + 3)⟩, ⟨[0x42], none⟩] [0x20, 0x41, 0x00, 0x20, 0x42] ∧
    lzsa_expand_block 3 [0x20, 0x41, 0x00, 0x20, 0x42] [0, 0, 0, 0, 0, 0, 0, 0] 0 8
      = Res.ok (5, [0x41, 0x41, 0x41, 0x41, 0x42, 0, 0, 0]) ∧
    lzsa_expand_block 3 (([0x20, 0x41, 0x00, 0x20, 0x42] : Buf).take 3)
        [0, 0, 0, 0, 0, 0, 0, 0] 0 8
      = Res.ok (4, [0x41, 0x41, 0x41, 0x41, 0, 0, 0, 0]) :=
  ⟨Wire.cons 0x20 [] [0x41] [0x00] [] 1 0 [⟨[0x42], none⟩] [0x20, 0x42]
      (Or.inl ⟨by decide, rfl, rfl⟩) (Or.inl ⟨by decide, 0, rfl, rfl⟩)
      (Or.inl ⟨by decide, rfl, rfl⟩)
      (Wire.last 0x20 [] [0x42] (Or.inl ⟨by decide, rfl, rfl⟩)),
    by decide, by decide⟩

/-- C8, amended. For every serialisation `wire` of a command list with valid offsets whose
reference expansion `x` fits the capacity, and every proper prefix `wire.take j` of it:
`lzsa_expand_block` on the prefix returns `-1`, unless the prefix is itself the
serialisation of a command list (the cut falls on a token boundary or right after a literal
run); in that case the call succeeds and returns the reference expansion of that command
list, which is a prefix of the expansion of the whole block. `MIN_MATCH_SIZE` is any value
from 2 on. -/
theorem truncated_block_fails_or_is_a_block (MIN_MATCH_SIZE : Nat) (cmds : List Cmd)
    (wire out : Buf) (nOutDataOffset nBlockMaxSize : Nat) (hmin : 2 ≤ MIN_MATCH_SIZE)
    (hw : Wire MIN_MATCH_SIZE cmds wire)
    (hv : validFrom (out.take nOutDataOffset) cmds = true)
    (hcap : ((expand (out.take nOutDataOffset) cmds).drop nOutDataOffset).length
      ≤ nBlockMaxSize)
    (hbuf : nOutDataOffset + nBlockMaxSize ≤ out.length) (j : Nat) (hj : j < wire.length) :
    (∃ o, lzsa_expand_block MIN_MATCH_SIZE (wire.take j) out nOutDataOffset nBlockMaxSize
      = Res.fail o) ∨
    (∃ cmds' out', Wire MIN_MATCH_SIZE cmds' (wire.take j) ∧
      expand (out.take nOutDataOffset) cmds' <+: expand (out.take nOutDataOffset) cmds ∧
      lzsa_expand_block MIN_MATCH_SIZE (wire.take j) out nOutDataOffset nBlockMaxSize
        = Res.ok (((((expand (out.take nOutDataOffset) cmds').drop nOutDataOffset).length
            : Nat) : Int), out') ∧
      (out'.drop nOutDataOffset).take
          ((expand (out.take nOutDataOffset) cmds').drop nOutDataOffset).length
        = (expand (out.take nOutDataOffset) cmds').drop nOutDataOffset) := by
  have hoff : (out.take nOutDataOffset).length = nOutDataOffset := by simp; omega
  have hh : Holds (out.take nOutDataOffset) ⟨0, nOutDataOffset, out⟩ :=
    ⟨hoff.symm, fun i hi => by
      show out[i]? = (out.take nOutDataOffset)[i]?
      rw [List.getElem?_take_of_lt (by omega)]⟩
  have hge := expand_length_ge cmds (out.take nOutDataOffset)
  have hxl : ((expand (out.take nOutDataOffset) cmds).drop nOutDataOffset).length
      = (expand (out.take nOutDataOffset) cmds).length - nOutDataOffset := by simp
  rcases cut_run MIN_MATCH_SIZE (wire.take j) out nOutDataOffset nBlockMaxSize hmin hbuf cmds
    wire hw j hj Phase.fast ⟨0, nOutDataOffset, out⟩ (out.take nOutDataOffset) Reach.init rfl
    hh hv (by omega) with hf | ⟨cmds', hw', hv', hpre⟩
  · exact Or.inl hf
  · right
    have hle := hpre.length_le
    obtain ⟨out', hrun, hx⟩ := (wire_run_init MIN_MATCH_SIZE cmds' (wire.take j) out
      nOutDataOffset nBlockMaxSize hmin hw' hv' hbuf).1 (by simp; omega)
    exact ⟨cmds', out', hw', hpre, hrun, hx⟩

/-- The amended truncation claim on the block `20 41 00 20 42` cut after 1 byte. -/
theorem truncated_block_fails_or_is_a_block_witness :
    (1 : Nat) < ([0x20, 0x41, 0x00, 0x20, 0x42] : Buf).length ∧
    ((∃ o, lzsa_expand_block 3 (([0x20, 0x41, 0x00, 0x20, 0x42] : Buf).take 1)
        [0, 0, 0, 0, 0, 0, 0, 0] 0 8 = Res.fail o) ∨
    (∃ cmds' out', Wire 3 cmds' (([0x20, 0x41, 0x00, 0x20, 0x42] : Buf).take 1) ∧
      expand (([0, 0, 0, 0, 0, 0, 0, 0] : Buf).take 0) cmds' <+:
        expand (([0, 0, 0, 0, 0, 0, 0, 0] : Buf).take 0)
          [⟨[0x41], some (1, 0 + 3)⟩, ⟨[0x42], none⟩] ∧
      lzsa_expand_block 3 (([0x20, 0x41, 0x00, 0x20, 0x42] : Buf).take 1)
          [0, 0, 0, 0, 0, 0, 0, 0] 0 8
        = Res.ok (((((expand (([0, 0, 0, 0, 0, 0, 0, 0] : Buf).take 0) cmds').drop 0).length
            : Nat) : Int), out') ∧
      (out'.drop 0).take ((expand (([0, 0, 0, 0, 0, 0, 0, 0] : Buf).take 0) cmds').drop 0).length
        = (expand (([0, 0, 0, 0, 0, 0, 0, 0] : Buf).take 0) cmds').drop 0)) :=
  ⟨by decide, truncated_block_fails_or_is_a_block 3 [⟨[0x41], some (1, 0 + 3)⟩, ⟨[0x42], none⟩]
    [0x20, 0x41, 0x00, 0x20, 0x42] [0, 0, 0, 0, 0, 0, 0, 0] 0 8 (by decide)
    (Wire.cons 0x20 [] [0x41] [0x00] [] 1 0 [⟨[0x42], none⟩] [0x20, 0x42]
      (Or.inl ⟨by decide, rfl, rfl⟩) (Or.inl ⟨by decide, 0, rfl, rfl⟩)
      (Or.inl ⟨by decide, rfl, rfl⟩)
      (Wire.last 0x20 [] [0x42] (Or.inl ⟨by decide, rfl, rfl⟩)))
    (by decide) (by decide) (by decide) 1 (by decide)⟩

/-- C14. Missing required byte. Let the call arrive, at the head of the fast or of the
slow loop, at a state that reads the token `tok`, in an output buffer that holds the
history and the writable region. The call returns `-1` when the input ends (a, b, c) before
a byte that the extension of the literal count needs; (e) before the end of the literal
run, whose resolved count `n` is larger than the number of input bytes left; (d) after the
first byte of a 2-byte offset; (a, b, c) before a byte that the extension of the match
length needs, the extension being read after the offset. The last case takes
`MIN_MATCH_SIZE ≥ 2`. -/
theorem missing_required_byte_fails (MIN_MATCH_SIZE : Nat) (inp out : Buf)
    (nOutDataOffset nBlockMaxSize : Nat)
    (hbuf : nOutDataOffset + nBlockMaxSize ≤ out.length) (ph : Phase) (st : St)
    (hr : Reach MIN_MATCH_SIZE inp out nOutDataOffset nBlockMaxSize ph st) (tok : Byte)
    (htok : inp[st.pInBlock]? = some tok) :
    (ExtCut LITERALS_RUN_LEN inp (st.pInBlock + 1) (litField tok) →
      ∃ o, lzsa_expand_block MIN_MATCH_SIZE inp out nOutDataOffset nBlockMaxSize
        = Res.fail o) ∧
    (∀ p' n, ExtAt LITERALS_RUN_LEN inp (st.pInBlock + 1) (litField tok) p' n →
      inp.length < p' + n →
      ∃ o, lzsa_expand_block MIN_MATCH_SIZE inp out nOutDataOffset nBlockMaxSize
        = Res.fail o) ∧
    (∀ p' n, ExtAt LITERALS_RUN_LEN inp (st.pInBlock + 1) (litField tok) p' n →
      tok.val &&& 0x01 ≠ 0 → inp.length = p' + n + 1 →
      ∃ o, lzsa_expand_block MIN_MATCH_SIZE inp out nOutDataOffset nBlockMaxSize
        = Res.fail o) ∧
    (∀ p' n p2 d, 2 ≤ MIN_MATCH_SIZE →
      ExtAt LITERALS_RUN_LEN inp (st.pInBlock + 1) (litField tok) p' n →
      p' + n ≤ inp.length → OffAt inp tok (p' + n) p2 d →
      ExtCut MATCH_RUN_LEN inp p2 (matchField tok) →
      ∃ o, lzsa_expand_block MIN_MATCH_SIZE inp out nOutDataOffset nBlockMaxSize
        = Res.fail o) :=
  ⟨fun hcut => hr.fail_lit_ext htok hcut,
    fun _ _ hext hshort => hr.fail_lit_run htok hext hshort,
    fun _ _ hext hflag hend => hr.fail_offset hbuf htok hext hflag hend,
    fun _ _ _ _ hmin hext hin hoff hcut => hr.fail_match_ext hbuf hmin htok hext hin hoff hcut⟩

/-- The input `E0 FE`: a token with an escaped literal count whose extension byte 254 is
the last byte of the input. -/
theorem missing_required_byte_fails_witness :
    (0 : Nat) + 4 ≤ ([0, 0, 0, 0] : Buf).length ∧
    ∃ o, lzsa_expand_block 3 [0xE0, 0xFE] [0, 0, 0, 0] 0 4 = Res.fail o :=
  ⟨by decide, (missing_required_byte_fails 3 [0xE0, 0xFE] [0, 0, 0, 0] 0 4 (by decide)
    Phase.fast ⟨0, 0, [0, 0, 0, 0]⟩ Reach.init 0xE0 rfl).1
    ⟨by decide, Or.inr ⟨0xFE, rfl, Or.inl ⟨by decide, by decide⟩⟩⟩⟩

/-! ## Claims: match length, final token, offset -/

/-- C11. Match-length decoding. For a call of `lzsa_expand_match_slow` with the source
`d ≥ 1` bytes behind the write cursor `c`, inside the buffer, the match writes, and advances
the write cursor by, the resolved count plus `MIN_MATCH_SIZE`, when that fits before the
writable end: the count is the field `M` when `M` is not `MATCH_RUN_LEN`; `15 + b0` for the
field 15 and an extension byte `b0 < 254`; `15 + 254 + b1` for `b0 = 254`; `b1 + 256 * b2`
for `b0 = 255`. `MIN_MATCH_SIZE` is added in every case. The extension bytes are read at
the read cursor that the offset bytes leave: the slow loop body calls the helper with the
cursor `p2` after the offset. In the fast variant (lines 200-204), taken only for a field
below 15 when `MIN_MATCH_SIZE ≥ 2`, the write cursor advances by `MIN_MATCH_SIZE + M`. -/
theorem match_length_decoding (MIN_MATCH_SIZE : Nat) (inp : Buf) (pInBlock : Nat) (out : Buf)
    (c d pOutDataEnd : Nat) (pOutDataFastEnd : Int) (hd : 1 ≤ d) (hsrc : d ≤ c)
    (hbuf : pOutDataEnd ≤ out.length) (hfast : pOutDataFastEnd ≤ pOutDataEnd) :
    (∀ M, M ≠ MATCH_RUN_LEN → c + (M + MIN_MATCH_SIZE) ≤ pOutDataEnd →
      ∃ out', lzsa_expand_match_slow MIN_MATCH_SIZE inp pInBlock ((c : Int) - (d : Int)) M out
          c pOutDataEnd pOutDataFastEnd = Res.ok (pInBlock, c + (M + MIN_MATCH_SIZE), out') ∧
        MatchPost out c d (M + MIN_MATCH_SIZE) pOutDataEnd out') ∧
    (∀ b0 : Byte, inp[pInBlock]? = some b0 → b0.val < 254 →
      c + (15 + b0.val + MIN_MATCH_SIZE) ≤ pOutDataEnd →
      ∃ out', lzsa_expand_match_slow MIN_MATCH_SIZE inp pInBlock ((c : Int) - (d : Int))
          MATCH_RUN_LEN out c pOutDataEnd pOutDataFastEnd
            = Res.ok (pInBlock + 1, c + (15 + b0.val + MIN_MATCH_SIZE), out') ∧
        MatchPost out c d (15 + b0.val + MIN_MATCH_SIZE) pOutDataEnd out') ∧
    (∀ b0 b1 : Byte, inp[pInBlock]? = some b0 → b0.val = 254 →
      inp[pInBlock + 1]? = some b1 →
      c + (15 + 254 + b1.val + MIN_MATCH_SIZE) ≤ pOutDataEnd →
      ∃ out', lzsa_expand_match_slow MIN_MATCH_SIZE inp pInBlock ((c : Int) - (d : Int))
          MATCH_RUN_LEN out c pOutDataEnd pOutDataFastEnd
            = Res.ok (pInBlock + 2, c + (15 + 254 + b1.val + MIN_MATCH_SIZE), out') ∧
        MatchPost out c d (15 + 254 + b1.val + MIN_MATCH_SIZE) pOutDataEnd out') ∧
    (∀ b0 b1 b2 : Byte, inp[pInBlock]? = some b0 → b0.val = 255 →
      inp[pInBlock + 1]? = some b1 → inp[pInBlock + 2]? = some b2 →
      c + (b1.val + 256 * b2.val + MIN_MATCH_SIZE) ≤ pOutDataEnd →
      ∃ out', lzsa_expand_match_slow MIN_MATCH_SIZE inp pInBlock ((c : Int) - (d : Int))
          MATCH_RUN_LEN out c pOutDataEnd pOutDataFastEnd
            = Res.ok (pInBlock + 3, c + (b1.val + 256 * b2.val + MIN_MATCH_SIZE), out') ∧
        MatchPost out c d (b1.val + 256 * b2.val + MIN_MATCH_SIZE) pOutDataEnd out') ∧
    (∀ (tok : Byte) (p p2 : Nat), OffAt inp tok p p2 d →
      slowTail MIN_MATCH_SIZE inp pOutDataEnd pOutDataFastEnd tok.val p c out =
        (lzsa_expand_match_slow MIN_MATCH_SIZE inp p2 ((c : Int) - (d : Int))
          (matchField tok) out c pOutDataEnd pOutDataFastEnd).bind (fun m =>
            Res.ok (Step.next ⟨m.1, m.2.1, m.2.2⟩))) ∧
    (∀ (tok : Byte) (p p2 : Nat), 2 ≤ MIN_MATCH_SIZE → OffAt inp tok p p2 d →
      ((matchField tok : Nat) : Int) < 16 - (MIN_MATCH_SIZE : Int) + 1
          ∧ (c : Int) - (d : Int) + MIN_MATCH_SIZE + ((matchField tok : Nat) : Int) < c
          ∧ (c : Int) < pOutDataFastEnd →
      matchField tok < MATCH_RUN_LEN ∧
      fastTail MIN_MATCH_SIZE inp pOutDataEnd pOutDataFastEnd tok.val p c out =
        (memcpyOut out c ((c : Int) - (d : Int)) 16).bind (fun o' =>
          Res.ok (Step.next ⟨p2, c + (MIN_MATCH_SIZE + matchField tok), o'⟩))) := by
  have hs : (c : Int) - (d : Int) = ((c - d : Nat) : Int) := by omega
  have hcd : c - (c - d) = d := by omega
  have key : ∀ M p' k, ExtAt MATCH_RUN_LEN inp pInBlock M p' k →
      c + (k + MIN_MATCH_SIZE) ≤ pOutDataEnd →
      ∃ out', lzsa_expand_match_slow MIN_MATCH_SIZE inp pInBlock ((c : Int) - (d : Int)) M out
          c pOutDataEnd pOutDataFastEnd = Res.ok (p', c + (k + MIN_MATCH_SIZE), out') ∧
        MatchPost out c d (k + MIN_MATCH_SIZE) pOutDataEnd out' := by
    intro M p' k hext hroom
    obtain ⟨out', hrun, hpost⟩ := match_slow_ok MIN_MATCH_SIZE out (c - d) c pOutDataEnd
      pOutDataFastEnd hext (by omega) hroom hbuf hfast
    rw [hcd] at hpost
    rw [hs]
    exact ⟨out', hrun, hpost⟩
  have hneg : ¬ ((c : Int) - (d : Int) < 0) := by omega
  refine ⟨fun M hM hroom => key M pInBlock M (Or.inl ⟨hM, rfl, rfl⟩) hroom,
    fun b0 h0 hlt hroom => key _ _ _ (Or.inr ⟨rfl, b0, h0, Or.inl ⟨hlt, rfl, rfl⟩⟩) hroom,
    fun b0 b1 h0 he h1 hroom =>
      key _ _ _ (Or.inr ⟨rfl, b0, h0, Or.inr (Or.inl ⟨he, b1, h1, rfl, rfl⟩)⟩) hroom,
    fun b0 b1 b2 h0 he h1 h2 hroom =>
      key _ _ _ (Or.inr ⟨rfl, b0, h0, Or.inr (Or.inr ⟨he, b1, b2, h1, h2, rfl, rfl⟩)⟩) hroom,
    fun tok p p2 hoff => ?_, fun tok p p2 hmin hoff hgate => ?_⟩
  · rw [slowTail_offset MIN_MATCH_SIZE _ _ _ _ hoff, if_neg hneg]
    rfl
  · refine ⟨?_, ?_⟩
    · have := hgate.1
      unfold MATCH_RUN_LEN
      omega
    · rw [fastTail_offset MIN_MATCH_SIZE _ _ _ _ hoff, if_neg hneg]
      unfold matchField at hgate
      rw [if_pos hgate]
      rfl

/-- The match-length decoding at distance 1 after one byte: the field 2 with
`MIN_MATCH_SIZE = 3` writes 5 bytes. -/
theorem match_length_decoding_witness :
    ∃ out', lzsa_expand_match_slow 3 [] 0 ((1 : Int) - (1 : Int)) 2 [9, 0, 0, 0, 0, 0, 0] 1 7
        (-9) = Res.ok (0, 1 + (2 + 3), out') ∧
      MatchPost [9, 0, 0, 0, 0, 0, 0] 1 1 (2 + 3) 7 out' :=
  (match_length_decoding 3 [] 0 [9, 0, 0, 0, 0, 0, 0] 1 1 7 (-9) (by decide) (by decide)
    (by decide) (by decide)).1 2 (by decide) (by decide)

/-- C12. Final token without match. Let the call arrive, at the head of the fast or of the
slow loop, at a state that reads the token `tok`, whose literal count resolves to `n`, with
the `n` literal bytes ending exactly at the input end and fitting the writable region. Then
the call succeeds, whatever the match-length field and the offset-width flag of `tok`: it
returns the number of bytes written so far, the `n` literals included, leaves the bytes
below the write cursor as they were and the `n` literal bytes after them. In particular
this holds for a block that consists of that one token, and the empty input returns 0. -/
theorem final_token_without_match (MIN_MATCH_SIZE : Nat) (inp out : Buf)
    (nOutDataOffset nBlockMaxSize : Nat)
    (hbuf : nOutDataOffset + nBlockMaxSize ≤ out.length) (ph : Phase) (st : St)
    (hr : Reach MIN_MATCH_SIZE inp out nOutDataOffset nBlockMaxSize ph st) (tok : Byte)
    (p' n : Nat) (htok : inp[st.pInBlock]? = some tok)
    (hext : ExtAt LITERALS_RUN_LEN inp (st.pInBlock + 1) (litField tok) p' n)
    (hend : p' + n = inp.length)
    (hroom : st.pCurOutData + n ≤ nOutDataOffset + nBlockMaxSize) :
    (∃ o, lzsa_expand_block MIN_MATCH_SIZE inp out nOutDataOffset nBlockMaxSize
        = Res.ok (((st.pCurOutData + n : Nat) : Int) - (nOutDataOffset : Int), o) ∧
      o.length = out.length ∧
      (∀ i, i < st.pCurOutData → o[i]? = st.out[i]?) ∧
      (∀ i, i < n → o[st.pCurOutData + i]? = inp[p' + i]?)) ∧
    (∀ (M : Nat) (o : Buf) (off max : Nat),
      lzsa_expand_block M [] o off max = Res.ok (0, o)) := by
  refine ⟨?_, fun M o off max => ?_⟩
  · obtain ⟨hlen, _, _, _⟩ := hr.cursor_bounds hbuf
    have hp : st.pInBlock < inp.length := (List.getElem?_eq_some.1 htok).1
    unfold litField at hext
    have hsl := slice_length inp p' n (by omega)
    have hsplen := splice_length st.out st.pCurOutData ((inp.drop p').take n)
      (by rw [hsl]; omega)
    have hg := splice_get st.out st.pCurOutData ((inp.drop p').take n) (by rw [hsl]; omega)
    rw [hsl] at hg
    -- the slow body
    have hslow : slowBody MIN_MATCH_SIZE inp (nOutDataOffset + nBlockMaxSize)
        (((nOutDataOffset + nBlockMaxSize : Nat) : Int) - 16) st
        = Res.ok (Step.next ⟨p' + n, st.pCurOutData + n,
            splice st.out st.pCurOutData ((inp.drop p').take n)⟩) := by
      rw [slowBody_eq]
      simp only [inByte_of_get htok, Res.bind_ok]
      rw [literals_slow_ok st.out st.pCurOutData _ hext (by omega) hroom
        (by rw [hlen]; exact hbuf)]
      simp only [Res.bind_ok]
      unfold slowTail
      rw [if_neg (by omega)]
    have hfin : ∀ o, Agree (st.pCurOutData + n)
        (splice st.out st.pCurOutData ((inp.drop p').take n)) o →
        o.length = out.length ∧ (∀ i, i < st.pCurOutData → o[i]? = st.out[i]?) ∧
          (∀ i, i < n → o[st.pCurOutData + i]? = inp[p' + i]?) := by
      intro o hag
      refine ⟨by rw [← hag.1, hsplen, hlen], fun i hi => ?_, fun i hi => ?_⟩
      · rw [← hag.2 i (by omega), hg, if_pos hi]
      · rw [← hag.2 _ (by omega), hg, if_neg (by omega), if_pos (by omega), slice_get,
          if_pos (by omega)]
        congr 1; omega
    rw [hr.run]
    cases ph with
    | slow =>
      refine ⟨_, ?_, hfin _ (Agree.self_agree _ _)⟩
      exact (slowRun_next hp hslow).trans (slowRun_done (by show ¬ (p' + n < inp.length); omega))
    | fast =>
      by_cases hc : fastCond inp (((nOutDataOffset + nBlockMaxSize : Nat) : Int) - 16) st
      · obtain ⟨o, hlit, hag⟩ := fast_literals_ok (nOutDataOffset + nBlockMaxSize) _ hc
          (by omega) hext (by omega) hroom (by rw [hlen]; exact hbuf)
        have hfast : fastBody MIN_MATCH_SIZE inp (nOutDataOffset + nBlockMaxSize)
            (((nOutDataOffset + nBlockMaxSize : Nat) : Int) - 16) st
            = Res.ok (Step.next ⟨p' + n, st.pCurOutData + n, o⟩) := by
          rw [fastBody_eq]
          simp only [inByte_of_get htok, Res.bind_ok]
          rw [hlit]
          simp only [Res.bind_ok]
          unfold fastTail
          rw [if_neg (by omega)]
        have hnc : ¬ fastCond inp (((nOutDataOffset + nBlockMaxSize : Nat) : Int) - 16)
            ⟨p' + n, st.pCurOutData + n, o⟩ := by
          intro h
          have := h.1
          simp only [] at this
          omega
        refine ⟨o, ?_, hfin o hag⟩
        exact (fastRun_next hc hfast).trans ((fastRun_exit hnc).trans
          (slowRun_done (by show ¬ (p' + n < inp.length); omega)))
      · refine ⟨_, ?_, hfin _ (Agree.self_agree _ _)⟩
        exact (fastRun_exit hc).trans ((slowRun_next hp hslow).trans
          (slowRun_done (by show ¬ (p' + n < inp.length); omega)))
  · unfold lzsa_expand_block
    simp [fastLoop, slowLoop]

/-- The block that consists of the token `3F` (1 literal, match field 15, flag set) and
its literal. -/
theorem final_token_without_match_witness :
    (0 : Nat) + 4 ≤ ([0, 0, 0, 0] : Buf).length ∧
    ∃ o, lzsa_expand_block 3 [0x3F, 0x41] [0, 0, 0, 0] 0 4
        = Res.ok ((((0 : Nat) + 1 : Nat) : Int) - ((0 : Nat) : Int), o) ∧
      o.length = ([0, 0, 0, 0] : Buf).length ∧
      (∀ i, i < 0 → o[i]? = ([0, 0, 0, 0] : Buf)[i]?) ∧
      (∀ i, i < 1 → o[0 + i]? = ([0x3F, 0x41] : Buf)[1 + i]?) :=
  ⟨by decide, (final_token_without_match 3 [0x3F, 0x41] [0, 0, 0, 0] 0 4 (by decide)
    Phase.fast ⟨0, 0, [0, 0, 0, 0]⟩ Reach.init 0x3F 1 1 rfl
    (Or.inl ⟨by decide, rfl, rfl⟩) (by decide) (by decide)).1⟩

/-- C13. Offset resolution. For a token `tok` whose offset bytes start at input index `p`:
with the offset-width flag (bit 0) clear and the single offset byte `b`, the offset is
`b + 1`, a value in `1 .. 256`; with the flag set and the two offset bytes `lo`, `hi` in
that order, the offset is `lo + 256 * hi` when this is not 0. With a resolved offset `d`
that stays inside the buffer and a match that fits the writable region, the loop body (slow
or fast) ends at its closing brace, and the first byte the match wrote, at the write cursor
`c`, is the byte that was `d` places before `c`. `MIN_MATCH_SIZE` is at least 1. -/
theorem offset_resolution (MIN_MATCH_SIZE : Nat) (inp : Buf) (tok : Byte) (p : Nat)
    (out : Buf) (c pOutDataEnd : Nat) (pOutDataFastEnd : Int) (hmin : 1 ≤ MIN_MATCH_SIZE) :
    (∀ b : Byte, tok.val &&& 0x01 = 0 → inp[p]? = some b →
      readMatchOffset inp tok.val p out = Res.ok (p + 1, some (b.val + 1)) ∧
        1 ≤ b.val + 1 ∧ b.val + 1 ≤ 256) ∧
    (∀ lo hi : Byte, tok.val &&& 0x01 ≠ 0 → inp[p]? = some lo → inp[p + 1]? = some hi →
      lo.val + 256 * hi.val ≠ 0 →
      readMatchOffset inp tok.val p out = Res.ok (p + 2, some (lo.val + 256 * hi.val))) ∧
    (∀ p2 d p3 k, OffAt inp tok p p2 d → d ≤ c →
      ExtAt MATCH_RUN_LEN inp p2 (matchField tok) p3 k →
      c + (k + MIN_MATCH_SIZE) ≤ pOutDataEnd → pOutDataEnd ≤ out.length →
      pOutDataFastEnd + 16 ≤ pOutDataEnd →
      (∃ st', slowTail MIN_MATCH_SIZE inp pOutDataEnd pOutDataFastEnd tok.val p c out
          = Res.ok (Step.next st') ∧ st'.out[c]? = out[c - d]?) ∧
      (∃ st', fastTail MIN_MATCH_SIZE inp pOutDataEnd pOutDataFastEnd tok.val p c out
          = Res.ok (Step.next st') ∧ st'.out[c]? = out[c - d]?)) := by
  refine ⟨fun b hf hb => ?_, fun lo hi hf hlo hhi hnz => ?_,
    fun p2 d p3 k hoff hdc hext hroom hlen hfe => ?_⟩
  · have h : OffAt inp tok p (p + 1) (b.val + 1) := Or.inl ⟨hf, b, hb, rfl, rfl⟩
    have := b.isLt
    exact ⟨(h.read_ok out).1, by omega, by omega⟩
  · have h : OffAt inp tok p (p + 2) (lo.val + 256 * hi.val) :=
      Or.inr ⟨hf, lo, hi, hlo, hhi, rfl, rfl, hnz⟩
    exact (h.read_ok out).1
  · obtain ⟨_, _, hd1⟩ := hoff.read_ok out
    have hneg : ¬ ((c : Int) - (d : Int) < 0) := by omega
    have hs : (c : Int) - (d : Int) = ((c - d : Nat) : Int) := by omega
    have hcd : c - (c - d) = d := by omega
    unfold matchField at hext
    obtain ⟨o', hrun, hpost⟩ := match_slow_ok MIN_MATCH_SIZE out (c - d) c pOutDataEnd
      pOutDataFastEnd hext (by omega) hroom hlen (by omega)
    rw [hcd] at hpost
    have hfirst : o'[c]? = out[c - d]? := by
      rw [hpost.2.2.2 c (le_refl _) (by omega), hpost.2.1 (c - d) (by omega)]
    refine ⟨?_, ?_⟩
    · rw [slowTail_offset MIN_MATCH_SIZE _ _ _ _ hoff, if_neg hneg, hs, hrun]
      exact ⟨_, rfl, hfirst⟩
    · rw [fastTail_offset MIN_MATCH_SIZE _ _ _ _ hoff, if_neg hneg]
      split_ifs with hgate
      · obtain ⟨hg1, hg2, hg3⟩ := hgate
        obtain ⟨hcp, hpb⟩ := fastMatch_post out (c - d) c
          (MIN_MATCH_SIZE + (tok.val &&& 0x1e) >>> 1) pOutDataEnd (by omega) (by omega)
          (by omega) hlen
        rw [hcd] at hpb
        rw [hs, hcp]
        refine ⟨_, rfl, ?_⟩
        show (splice out c ((out.drop (c - d)).take 16))[c]? = out[c - d]?
        rw [hpb.2.2.2 c (le_refl _) (by omega), hpb.2.1 (c - d) (by omega)]
      · rw [hs, hrun]
        exact ⟨_, rfl, hfirst⟩

/-- The offset resolution on the input `04`: a token with the flag clear and the offset
byte 4 resolve to the offset 5. -/
theorem offset_resolution_witness :
    readMatchOffset [0x04] ((0x00 : Byte)).val 0 [] = Res.ok (0 + 1, some ((4 : Byte).val + 1)) ∧
      1 ≤ (4 : Byte).val + 1 ∧ (4 : Byte).val + 1 ≤ 256 :=
  (offset_resolution 3 [0x04] 0x00 0 [] 0 0 0 (by decide)).1 4 (by decide) rfl

/-! ## Claims: one iteration of the two loops, the fast match gate, termination -/

/-- C15. One-iteration equivalence of the fast and slow loop bodies. From a state in which
the read cursor is more than 16 bytes before the input end and the write cursor is more than
16 bytes before the writable end (`pOutDataFastEnd` is at least 16 below `pOutDataEnd`, which
lies inside the buffer), the body of the fast loop and the body of the slow loop have the
same outcome: both return `-1`, or both end the same way (at the closing brace, or by the
`break` of a zero 2-byte offset) with the same read cursor, the same write cursor, buffers of
the same length and the same byte at every index below the new write cursor.
`MIN_MATCH_SIZE` is at least 2. -/
theorem fast_slow_body_equivalence (MIN_MATCH_SIZE : Nat) (inp : Buf) (pOutDataEnd : Nat)
    (pOutDataFastEnd : Int) (st : St)
    (hp : (st.pInBlock : Int) < (inp.length : Int) - 16)
    (hc : (st.pCurOutData : Int) < pOutDataFastEnd)
    (hfe : pOutDataFastEnd + 16 ≤ pOutDataEnd) (hlen : pOutDataEnd ≤ st.out.length)
    (hmin : 2 ≤ MIN_MATCH_SIZE) :
    (∃ o o', slowBody MIN_MATCH_SIZE inp pOutDataEnd pOutDataFastEnd st = Res.fail o ∧
      fastBody MIN_MATCH_SIZE inp pOutDataEnd pOutDataFastEnd st = Res.fail o') ∨
    (∃ s t : St,
      ((slowBody MIN_MATCH_SIZE inp pOutDataEnd pOutDataFastEnd st = Res.ok (Step.next s) ∧
          fastBody MIN_MATCH_SIZE inp pOutDataEnd pOutDataFastEnd st = Res.ok (Step.next t)) ∨
        (slowBody MIN_MATCH_SIZE inp pOutDataEnd pOutDataFastEnd st = Res.ok (Step.brk s) ∧
          fastBody MIN_MATCH_SIZE inp pOutDataEnd pOutDataFastEnd st = Res.ok (Step.brk t))) ∧
      t.pInBlock = s.pInBlock ∧ t.pCurOutData = s.pCurOutData ∧
      s.out.length = t.out.length ∧ ∀ i, i < s.pCurOutData → s.out[i]? = t.out[i]?) := by
  have h := fastBody_sim MIN_MATCH_SIZE inp pOutDataEnd pOutDataFastEnd st hp hc hfe hlen hmin
  unfold Res.Sim at h
  split at h
  · next s t hs ht => exact Or.inr ⟨s, t, Or.inl ⟨hs, ht⟩, h.1, h.2.1, h.2.2.1, h.2.2.2⟩
  · next s t hs ht => exact Or.inr ⟨s, t, Or.inr ⟨hs, ht⟩, h.1, h.2.1, h.2.2.1, h.2.2.2⟩
  · next o o' hs ht => exact Or.inl ⟨o, o', hs, ht⟩
  · exact h.elim

/-- The one-iteration equivalence on the token `42` (two literals, a match of offset 2 and
length 1 + 3) at the start of an input of 18 bytes, with 4 history bytes and 40 writable
bytes. -/
theorem fast_slow_body_equivalence_witness :
    (∃ o o', slowBody 3 (0x42 :: 0xAA :: 0xBB :: 0x01 :: List.replicate 14 0) 44 28
        ⟨0, 4, 1 :: 2 :: 3 :: 4 :: List.replicate 40 0⟩ = Res.fail o ∧
      fastBody 3 (0x42 :: 0xAA :: 0xBB :: 0x01 :: List.replicate 14 0) 44 28
        ⟨0, 4, 1 :: 2 :: 3 :: 4 :: List.replicate 40 0⟩ = Res.fail o') ∨
    (∃ s t : St,
      ((slowBody 3 (0x42 :: 0xAA :: 0xBB :: 0x01 :: List.replicate 14 0) 44 28
            ⟨0, 4, 1 :: 2 :: 3 :: 4 :: List.replicate 40 0⟩ = Res.ok (Step.next s) ∧
          fastBody 3 (0x42 :: 0xAA :: 0xBB :: 0x01 :: List.replicate 14 0) 44 28
            ⟨0, 4, 1 :: 2 :: 3 :: 4 :: List.replicate 40 0⟩ = Res.ok (Step.next t)) ∨
        (slowBody 3 (0x42 :: 0xAA :: 0xBB :: 0x01 :: List.replicate 14 0) 44 28
            ⟨0, 4, 1 :: 2 :: 3 :: 4 :: List.replicate 40 0⟩ = Res.ok (Step.brk s) ∧
          fastBody 3 (0x42 :: 0xAA :: 0xBB :: 0x01 :: List.replicate 14 0) 44 28
            ⟨0, 4, 1 :: 2 :: 3 :: 4 :: List.replicate 40 0⟩ = Res.ok (Step.brk t))) ∧
      t.pInBlock = s.pInBlock ∧ t.pCurOutData = s.pCurOutData ∧
      s.out.length = t.out.length ∧ ∀ i, i < s.pCurOutData → s.out[i]? = t.out[i]?) :=
  fast_slow_body_equivalence 3 (0x42 :: 0xAA :: 0xBB :: 0x01 :: List.replicate 14 0) 44 28
    ⟨0, 4, 1 :: 2 :: 3 :: 4 :: List.replicate 40 0⟩ (by decide) (by decide) (by decide)
    (by decide) (by decide)

/-- C16, as the spec words it, fails: the condition of line 201 admits a total match length
of exactly 16. With `MIN_MATCH_SIZE = 3`, the token `1A` (no literals, match-length field
13, 1-byte offset), the offset byte `10` (offset 17), the write cursor 20 and a writable
region that ends at 60: the condition holds, the fast loop body is the fixed 16-byte copy of
line 202 followed by an advance of 16, and the total match length 13 + 3 is not under 16. -/
theorem fast_gate_admits_total_16 :
    fastGate 3 0x1A 20 17 44 ∧
    fastBody 3 (0x1A :: 0x10 :: List.replicate 16 0) 60 44
        ⟨0, 20, [1, 2, 3, 4, 5, 6, 7, 8, 9, 10, 11, 12, 13, 14, 15, 16, 17, 18, 19, 20]
          ++ List.replicate 40 0⟩
      = Res.ok (Step.next ⟨2, 20 + (3 + matchField 0x1A),
          [1, 2, 3, 4, 5, 6, 7, 8, 9, 10, 11, 12, 13, 14, 15, 16, 17, 18, 19, 20]
            ++ [4, 5, 6, 7, 8, 9, 10, 11, 12, 13, 14, 15, 16, 17, 18, 19]
            ++ List.replicate 24 0⟩) ∧
    ¬ (matchField 0x1A + 3 < 16) := by
  refine ⟨?_, ?_, ?_⟩
  · unfold fastGate
    decide
  · decide
  · decide

/-- C16, amended. With the offset `d` of the token `tok` resolved and inside the buffer,
the fast loop body takes the fixed 16-byte copy of line 202 exactly when the condition of
line 201 holds; and when it holds, the total match length (the un-extended match-length
field plus `MIN_MATCH_SIZE`) is at most 16, the source range of that length ends before the
write cursor `c`, and `c` is more than 16 bytes before the writable end. -/
theorem fast_match_gate_total_at_most_16 (MIN_MATCH_SIZE : Nat) (inp : Buf) (tok : Byte)
    (p p2 d c pOutDataEnd : Nat) (pOutDataFastEnd : Int) (out : Buf)
    (hoff : OffAt inp tok p p2 d) (hdc : d ≤ c) (hfe : pOutDataFastEnd + 16 ≤ pOutDataEnd) :
    (fastGate MIN_MATCH_SIZE tok c d pOutDataFastEnd →
      fastTail MIN_MATCH_SIZE inp pOutDataEnd pOutDataFastEnd tok.val p c out =
        (memcpyOut out c ((c : Int) - (d : Int)) 16).bind (fun o' =>
          Res.ok (Step.next ⟨p2, c + (MIN_MATCH_SIZE + matchField tok), o'⟩)) ∧
      matchField tok + MIN_MATCH_SIZE ≤ 16 ∧
      (c - d) + (matchField tok + MIN_MATCH_SIZE) < c ∧
      c + 16 < pOutDataEnd) ∧
    (¬ fastGate MIN_MATCH_SIZE tok c d pOutDataFastEnd →
      fastTail MIN_MATCH_SIZE inp pOutDataEnd pOutDataFastEnd tok.val p c out =
        (lzsa_expand_match_slow MIN_MATCH_SIZE inp p2 ((c : Int) - (d : Int)) (matchField tok)
          out c pOutDataEnd pOutDataFastEnd).bind (fun m =>
            Res.ok (Step.next ⟨m.1, m.2.1, m.2.2⟩))) := by
  have h := fastGate_tail MIN_MATCH_SIZE pOutDataEnd pOutDataFastEnd c out hoff hdc
  refine ⟨fun hg => ⟨h.1 hg, ?_, ?_, ?_⟩, h.2⟩
  · have := hg.1
    omega
  · have := hg.2.1
    omega
  · have := hg.2.2
    omega

/-- The amended gate claim on the token `1A` with the offset byte `10`, the write cursor 20
and the writable end 60. -/
theorem fast_match_gate_total_at_most_16_witness :
    OffAt [0x10] 0x1A 0 1 17 ∧ 17 ≤ 20 ∧ fastGate 3 0x1A 20 17 44 ∧
    matchField 0x1A + 3 ≤ 16 ∧ (20 - 17) + (matchField 0x1A + 3) < 20 ∧ 20 + 16 < 60 :=
  have hoff : OffAt [0x10] 0x1A 0 1 17 := Or.inl ⟨by decide, 0x10, rfl, rfl, rfl⟩
  have hg : fastGate 3 0x1A 20 17 44 := ⟨by decide, by decide, by decide⟩
  ⟨hoff, by decide, hg,
    ((fast_match_gate_total_at_most_16 3 [0x10] 0x1A 0 1 17 20 60 44 [] hoff (by decide)
      (by decide)).1 hg).2⟩

/-- C17. Termination bounded by the input. For every input span and output buffer,
`lzsa_expand_block`, whose two loops each have a budget of one iteration per input byte plus
one, does not run out of budget; an iteration of the slow loop, and one of the fast loop,
that is not a `-1` return leaves the read cursor strictly above where it was and not above
the input end; no call of `lzsa_expand_match_slow` runs out of budget; the 4-byte loop and
the byte loop end for every count, and the 16-byte block loop ends within `k` rounds when the
copy end is above the destination by at most `k` bytes. -/
theorem termination_bounded_by_input (MIN_MATCH_SIZE : Nat) (inp out : Buf)
    (nOutDataOffset nBlockMaxSize : Nat) :
    lzsa_expand_block MIN_MATCH_SIZE inp out nOutDataOffset nBlockMaxSize ≠ Res.fuel ∧
    (∀ st step, st.pInBlock < inp.length →
      slowBody MIN_MATCH_SIZE inp (nOutDataOffset + nBlockMaxSize)
        (((nOutDataOffset + nBlockMaxSize : Nat) : Int) - 16) st = Res.ok step →
      st.pInBlock < step.state.pInBlock ∧ step.state.pInBlock ≤ inp.length) ∧
    (∀ st step, fastCond inp (((nOutDataOffset + nBlockMaxSize : Nat) : Int) - 16) st →
      fastBody MIN_MATCH_SIZE inp (nOutDataOffset + nBlockMaxSize)
        (((nOutDataOffset + nBlockMaxSize : Nat) : Int) - 16) st = Res.ok step →
      st.pInBlock < step.state.pInBlock ∧ step.state.pInBlock ≤ inp.length) ∧
    (∀ pInBlock pSrc nMatchLen o pCurOutData pOutDataEnd pOutDataFastEnd,
      lzsa_expand_match_slow MIN_MATCH_SIZE inp pInBlock pSrc nMatchLen o pCurOutData
        pOutDataEnd pOutDataFastEnd ≠ Res.fuel) ∧
    (∀ n o pSrc pCurOutData, copyQuads n o pSrc pCurOutData ≠ Res.fuel ∧
      copyBytes n o pSrc pCurOutData ≠ Res.fuel) ∧
    (∀ k o pCopySrc pCopyDst pCopyEndDst, pCopyDst < pCopyEndDst →
      pCopyEndDst ≤ pCopyDst + k →
      copyBlocks16 k o pCopySrc pCopyDst pCopyEndDst ≠ Res.fuel) := by
  refine ⟨fun h => ?_, fun st step hp hb => slowBody_advances hp (by omega) hb,
    fun st step hc hb => fastBody_advances hc (by omega) hb,
    fun p pSrc M o c oend ofe h => ?_, fun n o s d => ⟨fun h => ?_, fun h => ?_⟩,
    fun k o s d e hlt hle h => ?_⟩
  · have hp := expand_block_post MIN_MATCH_SIZE inp out nOutDataOffset nBlockMaxSize
    rw [h] at hp
    exact hp
  · have hp := match_slow_any MIN_MATCH_SIZE inp p pSrc M o c oend ofe
    rw [h] at hp
    exact hp
  · have hp := copyQuads_quiet n o s d
    rw [h] at hp
    exact hp
  · have hp := copyBytes_quiet n o s d
    rw [h] at hp
    exact hp
  · have hp := copyBlocks16_quiet k o s d e hlt hle
    rw [h] at hp
    exact hp

/-- The slow loop body on the one-byte input `00` (a token without literals, the last of
its block) moves the read cursor from 0 to 1. -/
theorem termination_bounded_by_input_witness :
    (0 : Nat) < (Step.next ⟨1, 0, [0, 0, 0, 0]⟩).state.pInBlock ∧
      (Step.next ⟨1, 0, [0, 0, 0, 0]⟩).state.pInBlock ≤ ([0x00] : Buf).length :=
  (termination_bounded_by_input 3 [0x00] [0, 0, 0, 0] 0 4).2.1 ⟨0, 0, [0, 0, 0, 0]⟩
    (Step.next ⟨1, 0, [0, 0, 0, 0]⟩) (by decide) (by decide)

/-! ## Claims: the prior contents of the writable region -/

/-- C18. The decoded result does not depend on the prior contents of the writable region.
For two output buffers of the same length that hold the history and the writable region and
have the same history bytes `[0, nOutDataOffset)`, the two calls of `lzsa_expand_block` on
the same input both return `-1`, or both return the same length `r` and leave the same bytes
in `[nOutDataOffset, nOutDataOffset + r)`. A match whose offset `d` is above the write
cursor `c` ends the call with `-1` in both loops; and a match copy with `1 ≤ d ≤ c` on two
buffers that agree below `c` fails on both or leaves, on both, buffers that agree below the
new write cursor, in which each copied byte is the byte `d` places before it, below the
index it is written to. -/
theorem result_independent_of_prior_contents (MIN_MATCH_SIZE : Nat) (inp out1 out2 : Buf)
    (nOutDataOffset nBlockMaxSize : Nat) (hlen : out1.length = out2.length)
    (hhist : ∀ i, i < nOutDataOffset → out1[i]? = out2[i]?)
    (hbuf : nOutDataOffset + nBlockMaxSize ≤ out1.length) :
    ((∃ o o', lzsa_expand_block MIN_MATCH_SIZE inp out1 nOutDataOffset nBlockMaxSize
          = Res.fail o ∧
        lzsa_expand_block MIN_MATCH_SIZE inp out2 nOutDataOffset nBlockMaxSize
          = Res.fail o') ∨
      (∃ (r : Nat) (o1 o2 : Buf),
        lzsa_expand_block MIN_MATCH_SIZE inp out1 nOutDataOffset nBlockMaxSize
          = Res.ok ((r : Int), o1) ∧
        lzsa_expand_block MIN_MATCH_SIZE inp out2 nOutDataOffset nBlockMaxSize
          = Res.ok ((r : Int), o2) ∧
        ∀ i, nOutDataOffset ≤ i → i < nOutDataOffset + r → o1[i]? = o2[i]?)) ∧
    (∀ (tok : Byte) (p p2 d c : Nat) (o : Buf) (pOutDataEnd : Nat) (pOutDataFastEnd : Int),
      OffAt inp tok p p2 d → c < d →
      slowTail MIN_MATCH_SIZE inp pOutDataEnd pOutDataFastEnd tok.val p c o = Res.fail o ∧
      fastTail MIN_MATCH_SIZE inp pOutDataEnd pOutDataFastEnd tok.val p c o = Res.fail o) ∧
    (∀ (p M c d : Nat) (a b : Buf) (pOutDataEnd : Nat) (pOutDataFastEnd : Int),
      Agree c a b → 1 ≤ d → d ≤ c → pOutDataEnd ≤ a.length → pOutDataFastEnd ≤ pOutDataEnd →
      (lzsa_expand_match_slow MIN_MATCH_SIZE inp p ((c : Int) - (d : Int)) M a c pOutDataEnd
          pOutDataFastEnd = Res.fail a ∧
        lzsa_expand_match_slow MIN_MATCH_SIZE inp p ((c : Int) - (d : Int)) M b c pOutDataEnd
          pOutDataFastEnd = Res.fail b) ∨
      (∃ (p' n : Nat) (a' b' : Buf),
        lzsa_expand_match_slow MIN_MATCH_SIZE inp p ((c : Int) - (d : Int)) M a c pOutDataEnd
          pOutDataFastEnd = Res.ok (p', c + n, a') ∧
        lzsa_expand_match_slow MIN_MATCH_SIZE inp p ((c : Int) - (d : Int)) M b c pOutDataEnd
          pOutDataFastEnd = Res.ok (p', c + n, b') ∧
        (∀ i, i < c + n → a'[i]? = b'[i]?) ∧
        (∀ i, c ≤ i → i < c + n → a'[i]? = a'[i - d]? ∧ i - d < i))) := by
  refine ⟨?_, fun tok p p2 d c o oend ofe hoff hcd => ?_,
    fun p M c d a b oend ofe hab hd hdc hl hfe => ?_⟩
  · rcases expand_block_agree MIN_MATCH_SIZE inp out1 out2 nOutDataOffset nBlockMaxSize
      ⟨hlen, hhist⟩ hbuf with h | ⟨r, o1, o2, h1, h2, hag⟩
    · exact Or.inl h
    · exact Or.inr ⟨r, o1, o2, h1, h2, fun i _ hi => hag.2 i hi⟩
  · have hneg : (c : Int) - (d : Int) < 0 := by omega
    rw [slowTail_offset MIN_MATCH_SIZE _ _ _ _ hoff, fastTail_offset MIN_MATCH_SIZE _ _ _ _ hoff,
      if_pos hneg, if_pos hneg]
    exact ⟨rfl, rfl⟩
  · have hs : (c : Int) - (d : Int) = ((c - d : Nat) : Int) := by omega
    have hcd : c - (c - d) = d := by omega
    rw [hs]
    rcases match_slow_agree MIN_MATCH_SIZE inp p (c - d) M a b c oend ofe hab (by omega) hl hfe
      with ⟨p', n, a', b', _, _, hra, hrb, hpa, _, hag⟩ | h
    · rw [hcd] at hpa
      exact Or.inr ⟨p', n + MIN_MATCH_SIZE, a', b', hra, hrb, hag.2,
        fun i h1 h2 => ⟨hpa.2.2.2 i h1 h2, by omega⟩⟩
    · exact Or.inl h

/-- The block `20 41 00 20 42` after the one-byte history `5A`, decoded into a writable
region of zeros and into one of nines. -/
theorem result_independent_of_prior_contents_witness :
    ([0x5A, 0, 0, 0, 0, 0, 0] : Buf).length = ([0x5A, 9, 9, 9, 9, 9, 9] : Buf).length ∧
    ((∃ o o', lzsa_expand_block 3 [0x20, 0x41, 0x00, 0x20, 0x42] [0x5A, 0, 0, 0, 0, 0, 0] 1 6
          = Res.fail o ∧
        lzsa_expand_block 3 [0x20, 0x41, 0x00, 0x20, 0x42] [0x5A, 9, 9, 9, 9, 9, 9] 1 6
          = Res.fail o') ∨
      (∃ (r : Nat) (o1 o2 : Buf),
        lzsa_expand_block 3 [0x20, 0x41, 0x00, 0x20, 0x42] [0x5A, 0, 0, 0, 0, 0, 0] 1 6
          = Res.ok ((r : Int), o1) ∧
        lzsa_expand_block 3 [0x20, 0x41, 0x00, 0x20, 0x42] [0x5A, 9, 9, 9, 9, 9, 9] 1 6
          = Res.ok ((r : Int), o2) ∧
        ∀ i, 1 ≤ i → i < 1 + r → o1[i]? = o2[i]?)) :=
  ⟨by decide, (result_independent_of_prior_contents 3 [0x20, 0x41, 0x00, 0x20, 0x42]
    [0x5A, 0, 0, 0, 0, 0, 0] [0x5A, 9, 9, 9, 9, 9, 9] 1 6 (by decide)
    (fun i hi => by
      obtain rfl : i = 0 := by omega
      rfl)
    (by decide)).1⟩

/-- C19. Over-copy is observable beyond the returned length. With `MIN_MATCH_SIZE = 3`, a
history of the 16 bytes `01 .. 10`, a writable region of 20 zero bytes and the 18-byte input
`00 0F E0 FF 0C 00` followed by 12 literal bytes `AA`: the call succeeds with the result
15, which is below the capacity 20, and the byte at index 31, the first index past the
decoded bytes, is `10` after the call and was `00` before it: the fixed 16-byte match copy
of the fast loop wrote it. The byte at index 15 + 16 lies inside the writable region. -/
theorem over_copy_observable :
    lzsa_expand_block 3 ([0x00, 0x0F, 0xE0, 0xFF, 0x0C, 0x00] ++ List.replicate 12 0xAA)
        ([1, 2, 3, 4, 5, 6, 7, 8, 9, 10, 11, 12, 13, 14, 15, 16] ++ List.replicate 20 0) 16 20
      = Res.ok (15, [1, 2, 3, 4, 5, 6, 7, 8, 9, 10, 11, 12, 13, 14, 15, 16] ++ [1, 2, 3]
          ++ List.replicate 12 0xAA ++ [16, 0, 0, 0, 0]) ∧
    (15 : Int) < 20 ∧ 16 + 15 ≤ 31 ∧ 31 < 16 + 20 ∧
    ([1, 2, 3, 4, 5, 6, 7, 8, 9, 10, 11, 12, 13, 14, 15, 16] ++ [1, 2, 3]
      ++ List.replicate 12 0xAA ++ [16, 0, 0, 0, 0] : Buf)[31]? = some 16 ∧
    ([1, 2, 3, 4, 5, 6, 7, 8, 9, 10, 11, 12, 13, 14, 15, 16] ++ List.replicate 20 0 : Buf)[31]?
      = some 0 := by
  refine ⟨by decide, by decide, by decide, by decide, by decide, by decide⟩

end Lzsa
